import Mathlib

/-
Shallow embedding of the Barnes-Hut octree core of `bevy-nbody`
(src/bhtree.rs), together with proofs about the claims of its
specification.

Modelling conventions:
 * The `f32` coordinates, masses and radii of the Rust code are modelled
   as exact rationals (`ℚ`); the arithmetic of the source is interpreted
   exactly, without rounding.
 * Square roots (which occur in the source only inside
   `Vec3::normalize` and `Vec3::distance` in the force traversal) are
   modelled over `ℝ` via `Real.sqrt`.
 * `bevy::Entity` is an opaque identifier; it is modelled as `ℕ`.
-/

/-! ### Vec3 (the `bevy`/`glam` 3-component vector), rational part -/

/-- Model of `glam::Vec3` restricted to the exact (rational) operations
used by the tree code. -/
structure V3 where
  x : ℚ
  y : ℚ
  z : ℚ
deriving DecidableEq

/-- Componentwise addition, `Vec3 + Vec3`. -/
def V3.add (a b : V3) : V3 := ⟨a.x + b.x, a.y + b.y, a.z + b.z⟩

/-- Componentwise subtraction, `Vec3 - Vec3`. -/
def V3.sub (a b : V3) : V3 := ⟨a.x - b.x, a.y - b.y, a.z - b.z⟩

/-- Scalar multiplication, `Vec3 * f32`. -/
def V3.smul (c : ℚ) (a : V3) : V3 := ⟨c * a.x, c * a.y, c * a.z⟩

/-- Scalar division, `Vec3 / f32`. -/
def V3.divQ (a : V3) (c : ℚ) : V3 := ⟨a.x / c, a.y / c, a.z / c⟩

/-- Zero vector, `Vec3::ZERO`. -/
def V3.zero : V3 := ⟨0, 0, 0⟩

/-- Squared distance between two points, `Vec3::distance_squared`
(exact in `ℚ`). -/
def V3.distance_squared (a b : V3) : ℚ :=
  (a.x - b.x) ^ 2 + (a.y - b.y) ^ 2 + (a.z - b.z) ^ 2

/-! ### BBox3 -/

/-- Model of `BBox3` from src/bhtree.rs: a 3D bounding box given by its
two corners. -/
structure BBox3 where
  pmin : V3
  pmax : V3
deriving DecidableEq

/-- Model of `BBox3::new`: normalizes the two corner arguments so that
`pmin ≤ pmax` holds componentwise. -/
def BBox3.new (p1 p2 : V3) : BBox3 :=
  let xmm := if p1.x < p2.x then (p1.x, p2.x) else (p2.x, p1.x)
  let ymm := if p1.y < p2.y then (p1.y, p2.y) else (p2.y, p1.y)
  let zmm := if p1.z < p2.z then (p1.z, p2.z) else (p2.z, p1.z)
  ⟨⟨xmm.1, ymm.1, zmm.1⟩, ⟨xmm.2, ymm.2, zmm.2⟩⟩

/-- Model of `BBox3::center`, `min + (max - min) / 2` per axis. The
source computes this in `f32`, where for ulp-adjacent corners the sum
can round up onto `pmax` (an exact tie resolved to even), so a sub-box
need not shrink; over ℚ the midpoint of a non-degenerate axis is always
strictly interior. Results that rest on this strictness hold of the
exact model only (see `BHTreeNode.build_terminates_exact`). -/
def BBox3.center (b : BBox3) : V3 :=
  ⟨b.pmin.x + (b.pmax.x - b.pmin.x) / 2,
   b.pmin.y + (b.pmax.y - b.pmin.y) / 2,
   b.pmin.z + (b.pmax.z - b.pmin.z) / 2⟩

/-- Model of `BBox3::subdivide`: the 8 sub-boxes, in the source's order
(bit pattern `x^0 y^1 z^2`); the Rust array `[BBox3; 8]` is modelled as
a `List` of length 8. -/
def BBox3.subdivide (b : BBox3) : List BBox3 :=
  let pmid := b.center
  let minx := b.pmin.x
  let miny := b.pmin.y
  let minz := b.pmin.z
  let maxx := b.pmax.x
  let maxy := b.pmax.y
  let maxz := b.pmax.z
  [BBox3.new ⟨minx, miny, minz⟩ pmid,
   BBox3.new ⟨maxx, miny, minz⟩ pmid,
   BBox3.new ⟨minx, maxy, minz⟩ pmid,
   BBox3.new ⟨maxx, maxy, minz⟩ pmid,
   BBox3.new ⟨minx, miny, maxz⟩ pmid,
   BBox3.new ⟨maxx, miny, maxz⟩ pmid,
   BBox3.new ⟨minx, maxy, maxz⟩ pmid,
   BBox3.new ⟨maxx, maxy, maxz⟩ pmid]

/-- Model of `BBox3::quadrant_index_for`. -/
def BBox3.quadrant_index_for (b : BBox3) (p : V3) : ℕ :=
  let c := b.center
  (if p.z > c.z then 4 else 0) + (if p.y > c.y then 2 else 0) +
    (if p.x > c.x then 1 else 0)

/-- Model of `BBox3::encompass` (note the source's `else if` per axis:
when the point lies below the minimum, the maximum is left alone, and
vice versa). -/
def BBox3.encompass (b : BBox3) (p : V3) : BBox3 :=
  let xmm := if p.x < b.pmin.x then (p.x, b.pmax.x)
             else if p.x > b.pmax.x then (b.pmin.x, p.x) else (b.pmin.x, b.pmax.x)
  let ymm := if p.y < b.pmin.y then (p.y, b.pmax.y)
             else if p.y > b.pmax.y then (b.pmin.y, p.y) else (b.pmin.y, b.pmax.y)
  let zmm := if p.z < b.pmin.z then (p.z, b.pmax.z)
             else if p.z > b.pmax.z then (b.pmin.z, p.z) else (b.pmin.z, b.pmax.z)
  ⟨⟨xmm.1, ymm.1, zmm.1⟩, ⟨xmm.2, ymm.2, zmm.2⟩⟩

/-- Model of `BBox3::encompass_all`, folding `encompass` over a list of
points. -/
def BBox3.encompass_all (b : BBox3) (ps : List V3) : BBox3 :=
  ps.foldl BBox3.encompass b

/-- Model of `BBox3::from` (named `fromPoints` here because `from` is a
Lean keyword): the bounding box of a sequence of points, a degenerate
zero box for the empty sequence. -/
def BBox3.fromPoints (ps : List V3) : BBox3 :=
  match ps with
  | [] => BBox3.new V3.zero V3.zero
  | head :: rest => (BBox3.new head head).encompass_all rest

/-- Model of `BBox3::is_empty`. -/
def BBox3.isEmptyBox (b : BBox3) : Bool :=
  b.pmin = b.pmax

/-- Model of `BBox3::contains` (inclusive on all three axes). -/
def BBox3.contains (b : BBox3) (p : V3) : Prop :=
  ¬(b.pmin.x > p.x ∨ p.x > b.pmax.x ∨
    b.pmin.y > p.y ∨ p.y > b.pmax.y ∨
    b.pmin.z > p.z ∨ p.z > b.pmax.z)

instance (b : BBox3) (p : V3) : Decidable (b.contains p) := by
  unfold BBox3.contains; infer_instance

/-- Componentwise order on the two corners of a box, the `min ≤ max`
well-formedness invariant of the data model. -/
def BBox3.WF (b : BBox3) : Prop :=
  b.pmin.x ≤ b.pmax.x ∧ b.pmin.y ≤ b.pmax.y ∧ b.pmin.z ≤ b.pmax.z

/-! ### Basic BBox3 lemmas -/

theorem BBox3.contains_iff (b : BBox3) (p : V3) :
    b.contains p ↔
      (b.pmin.x ≤ p.x ∧ p.x ≤ b.pmax.x) ∧
      (b.pmin.y ≤ p.y ∧ p.y ≤ b.pmax.y) ∧
      (b.pmin.z ≤ p.z ∧ p.z ≤ b.pmax.z) := by
  unfold BBox3.contains
  push_neg
  constructor
  · rintro ⟨h1, h2, h3, h4, h5, h6⟩
    exact ⟨⟨h1, h2⟩, ⟨h3, h4⟩, ⟨h5, h6⟩⟩
  · rintro ⟨⟨h1, h2⟩, ⟨h3, h4⟩, ⟨h5, h6⟩⟩
    exact ⟨h1, h2, h3, h4, h5, h6⟩

theorem BBox3.new_wf (p1 p2 : V3) : (BBox3.new p1 p2).WF := by
  unfold BBox3.new BBox3.WF
  refine ⟨?_, ?_, ?_⟩ <;> dsimp only [] <;> split <;> simp <;> linarith

theorem BBox3.center_between {b : BBox3} (h : b.WF) :
    b.pmin.x ≤ b.center.x ∧ b.center.x ≤ b.pmax.x ∧
    b.pmin.y ≤ b.center.y ∧ b.center.y ≤ b.pmax.y ∧
    b.pmin.z ≤ b.center.z ∧ b.center.z ≤ b.pmax.z := by
  obtain ⟨hx, hy, hz⟩ := h
  unfold BBox3.center
  refine ⟨?_, ?_, ?_, ?_, ?_, ?_⟩ <;> dsimp only [] <;> linarith

/-! ### Claim C5: subdivide / quadrant_index_for round-trip -/

theorem minmax_pair_bounds {a b q : ℚ} (h : a ≤ q ∧ q ≤ b ∨ b ≤ q ∧ q ≤ a) :
    (if a < b then (a, b) else (b, a)).1 ≤ q ∧
      q ≤ (if a < b then (a, b) else (b, a)).2 := by
  split_ifs <;> rcases h with ⟨h1, h2⟩ | ⟨h1, h2⟩ <;> exact ⟨by linarith, by linarith⟩

theorem BBox3.new_contains {p1 p2 q : V3}
    (hx : p1.x ≤ q.x ∧ q.x ≤ p2.x ∨ p2.x ≤ q.x ∧ q.x ≤ p1.x)
    (hy : p1.y ≤ q.y ∧ q.y ≤ p2.y ∨ p2.y ≤ q.y ∧ q.y ≤ p1.y)
    (hz : p1.z ≤ q.z ∧ q.z ≤ p2.z ∨ p2.z ≤ q.z ∧ q.z ≤ p1.z) :
    (BBox3.new p1 p2).contains q := by
  rw [BBox3.contains_iff]
  unfold BBox3.new
  exact ⟨minmax_pair_bounds hx, minmax_pair_bounds hy, minmax_pair_bounds hz⟩

theorem BBox3.subdivide_quadrant_contains {b : BBox3} {p : V3}
    (_hwf : b.WF) (hc : b.contains p) :
    ((b.subdivide).getD (b.quadrant_index_for p) (BBox3.new V3.zero V3.zero)).contains p := by
  obtain ⟨⟨hx1, hx2⟩, ⟨hy1, hy2⟩, ⟨hz1, hz2⟩⟩ := (BBox3.contains_iff b p).1 hc
  by_cases hx : p.x > b.center.x <;> by_cases hy : p.y > b.center.y <;>
    by_cases hz : p.z > b.center.z
  · have hix : b.quadrant_index_for p = 7 := by
      simp [BBox3.quadrant_index_for, hx, hy, hz]
    rw [hix]
    exact BBox3.new_contains (Or.inr ⟨hx.le, hx2⟩) (Or.inr ⟨hy.le, hy2⟩)
      (Or.inr ⟨hz.le, hz2⟩)
  · have hix : b.quadrant_index_for p = 3 := by
      simp [BBox3.quadrant_index_for, hx, hy, hz]
    rw [hix]
    exact BBox3.new_contains (Or.inr ⟨hx.le, hx2⟩) (Or.inr ⟨hy.le, hy2⟩)
      (Or.inl ⟨hz1, le_of_not_lt hz⟩)
  · have hix : b.quadrant_index_for p = 5 := by
      simp [BBox3.quadrant_index_for, hx, hy, hz]
    rw [hix]
    exact BBox3.new_contains (Or.inr ⟨hx.le, hx2⟩) (Or.inl ⟨hy1, le_of_not_lt hy⟩)
      (Or.inr ⟨hz.le, hz2⟩)
  · have hix : b.quadrant_index_for p = 1 := by
      simp [BBox3.quadrant_index_for, hx, hy, hz]
    rw [hix]
    exact BBox3.new_contains (Or.inr ⟨hx.le, hx2⟩) (Or.inl ⟨hy1, le_of_not_lt hy⟩)
      (Or.inl ⟨hz1, le_of_not_lt hz⟩)
  · have hix : b.quadrant_index_for p = 6 := by
      simp [BBox3.quadrant_index_for, hx, hy, hz]
    rw [hix]
    exact BBox3.new_contains (Or.inl ⟨hx1, le_of_not_lt hx⟩) (Or.inr ⟨hy.le, hy2⟩)
      (Or.inr ⟨hz.le, hz2⟩)
  · have hix : b.quadrant_index_for p = 2 := by
      simp [BBox3.quadrant_index_for, hx, hy, hz]
    rw [hix]
    exact BBox3.new_contains (Or.inl ⟨hx1, le_of_not_lt hx⟩) (Or.inr ⟨hy.le, hy2⟩)
      (Or.inl ⟨hz1, le_of_not_lt hz⟩)
  · have hix : b.quadrant_index_for p = 4 := by
      simp [BBox3.quadrant_index_for, hx, hy, hz]
    rw [hix]
    exact BBox3.new_contains (Or.inl ⟨hx1, le_of_not_lt hx⟩)
      (Or.inl ⟨hy1, le_of_not_lt hy⟩) (Or.inr ⟨hz.le, hz2⟩)
  · have hix : b.quadrant_index_for p = 0 := by
      simp [BBox3.quadrant_index_for, hx, hy, hz]
    rw [hix]
    exact BBox3.new_contains (Or.inl ⟨hx1, le_of_not_lt hx⟩)
      (Or.inl ⟨hy1, le_of_not_lt hy⟩) (Or.inl ⟨hz1, le_of_not_lt hz⟩)

/-- Claim C5: for every bounding box satisfying `min ≤ max` componentwise
and every point `p` contained in that box, the sub-box at index
`quadrant_index_for(p)` among the 8 boxes returned by `subdivide()`
contains `p`. -/
theorem claim_C5_subdivide_quadrant_roundtrip (b : BBox3) (p : V3)
    (hwf : b.WF) (hc : b.contains p) :
    ((b.subdivide).getD (b.quadrant_index_for p) (BBox3.new V3.zero V3.zero)).contains p :=
  BBox3.subdivide_quadrant_contains hwf hc

theorem claim_C5_witness :
    (BBox3.mk ⟨0, 0, 0⟩ ⟨1, 1, 1⟩).WF ∧
    (BBox3.mk ⟨0, 0, 0⟩ ⟨1, 1, 1⟩).contains ⟨3/4, 1/4, 1/2⟩ ∧
    (((BBox3.mk ⟨0, 0, 0⟩ ⟨1, 1, 1⟩).subdivide).getD
        ((BBox3.mk ⟨0, 0, 0⟩ ⟨1, 1, 1⟩).quadrant_index_for ⟨3/4, 1/4, 1/2⟩)
        (BBox3.new V3.zero V3.zero)).contains ⟨3/4, 1/4, 1/2⟩ := by
  have hwf : (BBox3.mk ⟨0, 0, 0⟩ ⟨1, 1, 1⟩).WF := by
    unfold BBox3.WF
    norm_num
  have hc : (BBox3.mk ⟨0, 0, 0⟩ ⟨1, 1, 1⟩).contains ⟨3/4, 1/4, 1/2⟩ := by
    rw [BBox3.contains_iff]
    norm_num
  exact ⟨hwf, hc, claim_C5_subdivide_quadrant_roundtrip _ _ hwf hc⟩

/-! ### Claim C10: BBox3::from is the minimal bounding box -/

theorem foldl_min_le_init (l : List ℚ) (a : ℚ) : l.foldl min a ≤ a := by
  induction l generalizing a with
  | nil => simp
  | cons p ps ih => exact le_trans (ih (min a p)) (min_le_left a p)

theorem foldl_min_le_mem {l : List ℚ} {x : ℚ} (h : x ∈ l) (a : ℚ) :
    l.foldl min a ≤ x := by
  induction l generalizing a with
  | nil => cases h
  | cons p ps ih =>
    rcases List.mem_cons.1 h with rfl | h'
    · exact le_trans (foldl_min_le_init ps (min a x)) (min_le_right a x)
    · exact ih h' (min a p)

theorem le_foldl_max_init (l : List ℚ) (a : ℚ) : a ≤ l.foldl max a := by
  induction l generalizing a with
  | nil => simp
  | cons p ps ih => exact le_trans (le_max_left a p) (ih (max a p))

theorem le_foldl_max_mem {l : List ℚ} {x : ℚ} (h : x ∈ l) (a : ℚ) :
    x ≤ l.foldl max a := by
  induction l generalizing a with
  | nil => cases h
  | cons p ps ih =>
    rcases List.mem_cons.1 h with rfl | h'
    · exact le_trans (le_max_right a x) (le_foldl_max_init ps (max a x))
    · exact ih h' (max a p)

theorem BBox3.encompass_eq {b : BBox3} (hwf : b.WF) (p : V3) :
    b.encompass p =
      ⟨⟨min b.pmin.x p.x, min b.pmin.y p.y, min b.pmin.z p.z⟩,
       ⟨max b.pmax.x p.x, max b.pmax.y p.y, max b.pmax.z p.z⟩⟩ := by
  obtain ⟨h1, h2, h3⟩ := hwf
  unfold BBox3.encompass
  simp only [BBox3.mk.injEq, V3.mk.injEq]
  refine ⟨⟨?_, ?_, ?_⟩, ?_, ?_, ?_⟩ <;> split_ifs <;>
    simp [min_def, max_def] <;> split_ifs <;> linarith

theorem BBox3.encompass_wf {b : BBox3} (hwf : b.WF) (p : V3) :
    (b.encompass p).WF := by
  rw [BBox3.encompass_eq hwf p]
  obtain ⟨h1, h2, h3⟩ := hwf
  refine ⟨?_, ?_, ?_⟩ <;>
    exact le_trans (min_le_left _ _) (le_trans (by assumption) (le_max_left _ _))

theorem BBox3.encompass_all_eq {b : BBox3} (hwf : b.WF) (ps : List V3) :
    b.encompass_all ps =
      ⟨⟨(ps.map V3.x).foldl min b.pmin.x, (ps.map V3.y).foldl min b.pmin.y,
        (ps.map V3.z).foldl min b.pmin.z⟩,
       ⟨(ps.map V3.x).foldl max b.pmax.x, (ps.map V3.y).foldl max b.pmax.y,
        (ps.map V3.z).foldl max b.pmax.z⟩⟩ := by
  induction ps generalizing b with
  | nil => rfl
  | cons p ps ih =>
    have step : b.encompass_all (p :: ps) = (b.encompass p).encompass_all ps := rfl
    rw [step, ih (BBox3.encompass_wf hwf p), BBox3.encompass_eq hwf p]
    simp [min_def, max_def]

theorem BBox3.new_self (p : V3) : BBox3.new p p = ⟨p, p⟩ := by
  unfold BBox3.new
  simp

theorem BBox3.fromPoints_eq (p0 : V3) (ps : List V3) :
    BBox3.fromPoints (p0 :: ps) =
      ⟨⟨(ps.map V3.x).foldl min p0.x, (ps.map V3.y).foldl min p0.y,
        (ps.map V3.z).foldl min p0.z⟩,
       ⟨(ps.map V3.x).foldl max p0.x, (ps.map V3.y).foldl max p0.y,
        (ps.map V3.z).foldl max p0.z⟩⟩ := by
  show (BBox3.new p0 p0).encompass_all ps = _
  rw [BBox3.new_self p0]
  exact BBox3.encompass_all_eq ⟨le_refl _, le_refl _, le_refl _⟩ ps

/-- Claim C10: for every non-empty sequence of points, `BBox3::from`
returns a box that contains every point of the sequence and is the
minimal axis-aligned such box: its min corner is the componentwise
minimum and its max corner the componentwise maximum of the points. -/
theorem claim_C10_fromPoints_minimal (p0 : V3) (ps : List V3) :
    (∀ q ∈ p0 :: ps, (BBox3.fromPoints (p0 :: ps)).contains q) ∧
    (BBox3.fromPoints (p0 :: ps)).pmin =
      ⟨(ps.map V3.x).foldl min p0.x, (ps.map V3.y).foldl min p0.y,
       (ps.map V3.z).foldl min p0.z⟩ ∧
    (BBox3.fromPoints (p0 :: ps)).pmax =
      ⟨(ps.map V3.x).foldl max p0.x, (ps.map V3.y).foldl max p0.y,
       (ps.map V3.z).foldl max p0.z⟩ := by
  rw [BBox3.fromPoints_eq p0 ps]
  refine ⟨?_, rfl, rfl⟩
  intro q hq
  rw [BBox3.contains_iff]
  rcases List.mem_cons.1 hq with rfl | hq'
  · exact ⟨⟨foldl_min_le_init _ _, le_foldl_max_init _ _⟩,
      ⟨foldl_min_le_init _ _, le_foldl_max_init _ _⟩,
      ⟨foldl_min_le_init _ _, le_foldl_max_init _ _⟩⟩
  · exact ⟨⟨foldl_min_le_mem (List.mem_map_of_mem V3.x hq') _,
        le_foldl_max_mem (List.mem_map_of_mem V3.x hq') _⟩,
      ⟨foldl_min_le_mem (List.mem_map_of_mem V3.y hq') _,
        le_foldl_max_mem (List.mem_map_of_mem V3.y hq') _⟩,
      ⟨foldl_min_le_mem (List.mem_map_of_mem V3.z hq') _,
        le_foldl_max_mem (List.mem_map_of_mem V3.z hq') _⟩⟩

/-! ### NBody and BHTreeNode -/

/-- Model of `NBody` from src/bhtree.rs. `bevy::Entity` is modelled as a
natural number. `NBody::new` ignores its local `density` variable and
just stores the four fields, so the structure literal is the model of
the constructor as well. Rust's `std::ptr::eq` identity comparison on
two `&NBody` borrowed from the tree is modelled by structural equality;
the two coincide whenever distinct tree-resident bodies are
distinguishable by value (in particular when positions are pairwise
distinct), which is the regime of all claims below. -/
structure NBody where
  entity : ℕ
  position : V3
  mass : ℚ
  radius : ℚ
deriving DecidableEq

/-- Model of `BHTreeNode`. The field `children : Option<Box<[BHTreeNode; 8]>>`
is modelled as a plain `List BHTreeNode`: `[]` stands for `None` and a
list of the 8 children in index order stands for `Some` (the code never
creates a `Some` with anything but exactly 8 children). -/
inductive BHTreeNode : Type where
  | mk (mass : ℚ) (center_of_mass : V3) (bounds : BBox3)
      (children : List BHTreeNode) (body : Option NBody) : BHTreeNode

/-- Field accessor for `mass`. -/
def BHTreeNode.mass : BHTreeNode → ℚ
  | .mk m _ _ _ _ => m

/-- Field accessor for `center_of_mass`. -/
def BHTreeNode.center_of_mass : BHTreeNode → V3
  | .mk _ cm _ _ _ => cm

/-- Field accessor for `bounds`. -/
def BHTreeNode.bounds : BHTreeNode → BBox3
  | .mk _ _ bb _ _ => bb

/-- Field accessor for `children`. -/
def BHTreeNode.children : BHTreeNode → List BHTreeNode
  | .mk _ _ _ ch _ => ch

/-- Field accessor for `body`. -/
def BHTreeNode.body : BHTreeNode → Option NBody
  | .mk _ _ _ _ b => b

/-- Model of `BHTreeNode::new`: an empty node over the given bounds,
with zero mass and center of mass at the box center. -/
def BHTreeNode.newNode (bounds : BBox3) : BHTreeNode :=
  .mk 0 bounds.center bounds [] none

/-- Model of the private `BHTreeNode::subdivide`: 8 fresh empty nodes over
the 8 sub-boxes, in index order. -/
def BHTreeNode.subdivideNode (n : BHTreeNode) : List BHTreeNode :=
  (n.bounds.subdivide).map BHTreeNode.newNode

/-- Model of `BHTreeNode::total_mass_and_center_of_mass`, the Kahan
(compensated) summation loop of the source, followed by the division by
the total mass. The fold state is `(total_mass, cm, compensation)`. -/
def BHTreeNode.total_mass_and_center_of_mass (nodes : List BHTreeNode) : ℚ × V3 :=
  let st := nodes.foldl
    (fun (acc : ℚ × V3 × V3) node =>
      let y := (node.center_of_mass.smul node.mass).sub acc.2.2
      let t := acc.2.1.add y
      (acc.1 + node.mass, t, (t.sub acc.2.1).sub y))
    (0, V3.zero, V3.zero)
  (st.1, st.2.1.divQ st.1)

/-- Model of `BHTreeNode::update`: recompute this node's mass and center
of mass, from the stored body if there is one, else from the immediate
children if there are any. -/
def BHTreeNode.update : BHTreeNode → BHTreeNode
  | .mk m cm bb ch obody =>
    match obody with
    | some b => .mk b.mass b.position bb ch obody
    | none =>
      match ch with
      | [] => .mk m cm bb ch obody
      | c :: cs =>
        let tc := BHTreeNode.total_mass_and_center_of_mass (c :: cs)
        .mk tc.1 tc.2 bb ch obody

/-- Model of `BHTreeNode::insert`. The Rust recursion has no structural
termination measure (a leaf split re-inserts into the same, now
subdivided, node), so the model takes explicit fuel and returns `none`
on fuel exhaustion; claim C8 shows enough fuel always exists for
distinct contained bodies. Indexing `children[ix]` is modelled with
`List.getD` (the index is always `< 8`, see
`BBox3.quadrant_index_lt_8`). Every branch ends in `update`, as the
source's final `self.update()` does. -/
def BHTreeNode.insert : ℕ → BHTreeNode → NBody → Option BHTreeNode
  | 0, _, _ => none
  | fuel + 1, .mk m cm bb ch obody, body =>
    match ch with
    | c :: cs =>
      let ix := bb.quadrant_index_for body.position
      (BHTreeNode.insert fuel ((c :: cs).getD ix (BHTreeNode.newNode bb)) body).map
        (fun child' => BHTreeNode.update (.mk m cm bb ((c :: cs).set ix child') obody))
    | [] =>
      match obody with
      | none => some (BHTreeNode.update (.mk m cm bb [] (some body)))
      | some ob =>
        let n' : BHTreeNode := .mk m cm bb ((BBox3.subdivide bb).map BHTreeNode.newNode) none
        (BHTreeNode.insert fuel n' ob).bind
          (fun n1 => (BHTreeNode.insert fuel n1 body).map BHTreeNode.update)

/-- Model of `BHTreeNode::insert_no_update`. Mirrors the source exactly:
the branch for a node with children calls the updating `insert` on the
child (as the source does), and in the leaf-split branch the new body is
re-inserted before the old one (the opposite order from `insert`); no
`update` happens at the node's own level. -/
def BHTreeNode.insert_no_update : ℕ → BHTreeNode → NBody → Option BHTreeNode
  | 0, _, _ => none
  | fuel + 1, .mk m cm bb ch obody, body =>
    match ch with
    | c :: cs =>
      let ix := bb.quadrant_index_for body.position
      (BHTreeNode.insert fuel ((c :: cs).getD ix (BHTreeNode.newNode bb)) body).map
        (fun child' => .mk m cm bb ((c :: cs).set ix child') obody)
    | [] =>
      match obody with
      | none => some (.mk m cm bb [] (some body))
      | some ob =>
        let n' : BHTreeNode := .mk m cm bb ((BBox3.subdivide bb).map BHTreeNode.newNode) none
        (BHTreeNode.insert_no_update fuel n' body).bind
          (fun n1 => BHTreeNode.insert_no_update fuel n1 ob)

mutual

/-- Model of `BHTreeNode::update_all`: recompute mass and center of mass
bottom-up for the whole subtree (structurally mutual with the list of
children). -/
def BHTreeNode.update_all : BHTreeNode → BHTreeNode
  | .mk m cm bb ch obody =>
    BHTreeNode.update (.mk m cm bb (BHTreeNode.update_all_list ch) obody)

def BHTreeNode.update_all_list : List BHTreeNode → List BHTreeNode
  | [] => []
  | c :: cs => BHTreeNode.update_all c :: BHTreeNode.update_all_list cs

end

/-- Model of `BHTreeNode::from` (named `fromBodies`): create a root over
the given bounds and insert all bodies in sequence. A single fuel value
is used for every insertion. -/
def BHTreeNode.fromBodies (fuel : ℕ) (bounds : BBox3) (bodies : List NBody) :
    Option BHTreeNode :=
  bodies.foldl (fun acc b => acc.bind (fun t => BHTreeNode.insert fuel t b))
    (some (BHTreeNode.newNode bounds))

mutual

/-- The multiset of bodies stored in a subtree, in tree order; this is
the specification-level measuring stick for the aggregate claims
(structurally mutual with the list of children). -/
def BHTreeNode.nodeBodies : BHTreeNode → List NBody
  | .mk _ _ _ ch obody => obody.toList ++ BHTreeNode.nodeBodiesList ch

def BHTreeNode.nodeBodiesList : List BHTreeNode → List NBody
  | [] => []
  | c :: cs => BHTreeNode.nodeBodies c ++ BHTreeNode.nodeBodiesList cs

end

theorem list_sizeOf_sum_lt {α : Type} [SizeOf α] (l : List α) :
    (l.map sizeOf).sum < sizeOf l := by
  induction l with
  | nil => simp
  | cons a l ih =>
    simp only [List.map_cons, List.sum_cons, List.cons.sizeOf_spec]
    omega

theorem BHTreeNode.sizeOf_children_lt (t : BHTreeNode) :
    ((t.children).map sizeOf).sum < sizeOf t := by
  cases t with
  | mk m cm bb ch obody =>
    have := list_sizeOf_sum_lt ch
    simp only [BHTreeNode.children, BHTreeNode.mk.sizeOf_spec]
    omega

theorem BHTreeNode.sizeOf_pos (t : BHTreeNode) : 0 < sizeOf t := by
  cases t
  simp only [BHTreeNode.mk.sizeOf_spec]
  omega

/-- Model of `BHTreeNodeIter::next`, run to exhaustion: the iterator
keeps an explicit stack (top at the head here; the Rust `Vec` pushes and
pops at the tail, so pushing the children in index order makes the
highest-index child be visited first). A node carrying a body yields it
without pushing its children; otherwise the children are pushed and
iteration continues. -/
def BHTreeNodeIter.run : List BHTreeNode → List NBody
  | [] => []
  | node :: rest =>
    match node.body with
    | some b => b :: BHTreeNodeIter.run rest
    | none => BHTreeNodeIter.run (node.children.reverse ++ rest)
termination_by stack => (stack.map sizeOf).sum
decreasing_by
  all_goals simp only [List.map_append, List.map_reverse, List.sum_append,
    List.sum_reverse, List.map_cons, List.sum_cons]
  · have := BHTreeNode.sizeOf_pos c
    omega
  · have := BHTreeNode.sizeOf_children_lt c
    omega

/-! ### V3 algebra and exactness of the Kahan loop over ℚ -/

theorem V3.add_zero' (a : V3) : a.add V3.zero = a := by
  cases a
  simp [V3.add, V3.zero]

theorem V3.zero_add' (a : V3) : V3.zero.add a = a := by
  cases a
  simp [V3.add, V3.zero]

theorem V3.sub_zero' (a : V3) : a.sub V3.zero = a := by
  cases a
  simp [V3.sub, V3.zero]

theorem V3.add_sub_cancel_left' (a b : V3) : (a.add b).sub a = b := by
  cases a
  cases b
  simp only [V3.add, V3.sub, V3.mk.injEq]
  refine ⟨by ring, by ring, by ring⟩

theorem V3.sub_self' (a : V3) : a.sub a = V3.zero := by
  cases a
  simp [V3.sub, V3.zero]

theorem V3.add_assoc' (a b c : V3) : (a.add b).add c = a.add (b.add c) := by
  cases a
  cases b
  cases c
  simp only [V3.add, V3.mk.injEq]
  refine ⟨by ring, by ring, by ring⟩

theorem V3.smul_zero_mass (v : V3) : V3.smul 0 v = V3.zero := by
  cases v
  simp [V3.smul, V3.zero]

theorem V3.smul_divQ_cancel {m : ℚ} (hm : m ≠ 0) (v : V3) :
    V3.smul m (v.divQ m) = v := by
  cases v
  simp [V3.smul, V3.divQ]
  refine ⟨?_, ?_, ?_⟩ <;> field_simp

/-- Sum of the stored masses of a list of nodes. -/
def BHTreeNode.massSum (nodes : List BHTreeNode) : ℚ :=
  (nodes.map BHTreeNode.mass).sum

/-- Sum of the mass-weighted stored centers of mass of a list of
nodes. -/
def BHTreeNode.weightedPosSum (nodes : List BHTreeNode) : V3 :=
  (nodes.map (fun n => V3.smul n.mass n.center_of_mass)).foldr V3.add V3.zero

theorem BHTreeNode.kahan_foldl (nodes : List BHTreeNode) (tm : ℚ) (cm : V3) :
    nodes.foldl
      (fun (acc : ℚ × V3 × V3) node =>
        let y := ((V3.smul node.mass node.center_of_mass).sub acc.2.2)
        let t := acc.2.1.add y
        (acc.1 + node.mass, t, (t.sub acc.2.1).sub y))
      (tm, cm, V3.zero) =
      (tm + BHTreeNode.massSum nodes, cm.add (BHTreeNode.weightedPosSum nodes),
        V3.zero) := by
  induction nodes generalizing tm cm with
  | nil =>
    simp [BHTreeNode.massSum, BHTreeNode.weightedPosSum, V3.add_zero']
  | cons n ns ih =>
    simp only [List.foldl_cons]
    have hy : (V3.smul n.mass n.center_of_mass).sub V3.zero =
        V3.smul n.mass n.center_of_mass := V3.sub_zero' _
    rw [hy]
    have hcomp : ((cm.add (V3.smul n.mass n.center_of_mass)).sub cm).sub
        (V3.smul n.mass n.center_of_mass) = V3.zero := by
      rw [V3.add_sub_cancel_left', V3.sub_self']
    rw [hcomp, ih]
    simp only [BHTreeNode.massSum, BHTreeNode.weightedPosSum, List.map_cons,
      List.sum_cons, List.foldr_cons, Prod.mk.injEq]
    exact ⟨by ring, by rw [V3.add_assoc'], by trivial⟩

theorem BHTreeNode.tmacm_spec (nodes : List BHTreeNode) :
    BHTreeNode.total_mass_and_center_of_mass nodes =
      (BHTreeNode.massSum nodes,
        (BHTreeNode.weightedPosSum nodes).divQ (BHTreeNode.massSum nodes)) := by
  unfold BHTreeNode.total_mass_and_center_of_mass
  rw [BHTreeNode.kahan_foldl nodes 0 V3.zero]
  simp [V3.zero_add']

/-! ### Structural and aggregate invariant maintained by insert -/

theorem BBox3.quadrant_index_lt_8 (b : BBox3) (p : V3) :
    b.quadrant_index_for p < 8 := by
  unfold BBox3.quadrant_index_for
  dsimp only
  split_ifs <;> norm_num

mutual

/-- Invariant of every tree reachable by `insert` from a fresh node:
a node with a body is a leaf whose aggregates are the body's mass and
position and which has no children; a node without body and without
children (only the transient state of a fresh child) has zero mass and
its center of mass at the box center; a node with children has exactly
8 of them, aggregates equal to `total_mass_and_center_of_mass` of the
children, and a non-empty set of bodies below it. -/
def BHTreeNode.Inv : BHTreeNode → Prop
  | .mk m cm bb ch obody =>
    BHTreeNode.InvList ch ∧
    (match obody with
     | some b => m = b.mass ∧ cm = b.position ∧ ch = []
     | none =>
       match ch with
       | [] => m = 0 ∧ cm = bb.center
       | c :: cs =>
         (m, cm) = BHTreeNode.total_mass_and_center_of_mass (c :: cs) ∧
         (c :: cs).length = 8 ∧ BHTreeNode.nodeBodiesList (c :: cs) ≠ [])

def BHTreeNode.InvList : List BHTreeNode → Prop
  | [] => True
  | c :: cs => BHTreeNode.Inv c ∧ BHTreeNode.InvList cs

end

/-- Weakening of `Inv` for the transient state right after a leaf split:
the children already satisfy the full invariant but the node's own
aggregates may be stale; the trailing `update` of `insert` repairs them. -/
def BHTreeNode.InvSub : BHTreeNode → Prop
  | .mk _ _ _ ch obody =>
    BHTreeNode.InvList ch ∧
    (match obody with
     | some _ => ch = []
     | none => ch = [] ∨ ch.length = 8)

theorem BHTreeNode.InvList_iff (l : List BHTreeNode) :
    BHTreeNode.InvList l ↔ ∀ c ∈ l, BHTreeNode.Inv c := by
  induction l with
  | nil => simp [BHTreeNode.InvList]
  | cons c cs ih =>
    rw [show BHTreeNode.InvList (c :: cs) = (BHTreeNode.Inv c ∧ BHTreeNode.InvList cs)
      from rfl, ih]
    simp

theorem BHTreeNode.Inv.toSub {t : BHTreeNode} (h : t.Inv) : t.InvSub := by
  cases t with
  | mk m cm bb ch obody =>
    obtain ⟨hl, hrest⟩ := h
    refine ⟨hl, ?_⟩
    cases obody with
    | some b => exact hrest.2.2
    | none =>
      cases ch with
      | nil => exact Or.inl rfl
      | cons c cs => exact Or.inr hrest.2.1

theorem BHTreeNode.Inv_newNode (bb : BBox3) : (BHTreeNode.newNode bb).Inv := by
  exact ⟨trivial, rfl, rfl⟩

theorem BHTreeNode.InvList_subdivide (bb : BBox3) :
    BHTreeNode.InvList ((BBox3.subdivide bb).map BHTreeNode.newNode) := by
  rw [BHTreeNode.InvList_iff]
  intro c hc
  obtain ⟨box, _, rfl⟩ := List.mem_map.1 hc
  exact BHTreeNode.Inv_newNode box

theorem BHTreeNode.nodeBodiesList_subdivide (bb : BBox3) :
    BHTreeNode.nodeBodiesList ((BBox3.subdivide bb).map BHTreeNode.newNode) = [] := by
  unfold BBox3.subdivide
  simp only [List.map_cons, List.map_nil]
  rfl

theorem List.getD_mem' {α : Type} {l : List α} {n : ℕ} {d : α} (h : n < l.length) :
    l.getD n d ∈ l := by
  induction l generalizing n with
  | nil => simp at h
  | cons a as ih =>
    cases n with
    | zero => simp [List.getD]
    | succ n =>
      simp only [List.getD_cons_succ]
      exact List.mem_cons_of_mem a (ih (by simpa using h))

theorem BHTreeNode.InvList_set {l : List BHTreeNode} {c' : BHTreeNode} {ix : ℕ}
    (hl : BHTreeNode.InvList l) (hc : c'.Inv) :
    BHTreeNode.InvList (l.set ix c') := by
  rw [BHTreeNode.InvList_iff] at hl ⊢
  intro c hcmem
  rcases List.mem_or_eq_of_mem_set hcmem with hmem | rfl
  · exact hl c hmem
  · exact hc

theorem BHTreeNode.nodeBodiesList_set_perm {l : List BHTreeNode} {ix : ℕ}
    {c' d : BHTreeNode} {b : NBody} (h : ix < l.length)
    (hrel : (BHTreeNode.nodeBodies c').Perm (b :: BHTreeNode.nodeBodies (l.getD ix d))) :
    (BHTreeNode.nodeBodiesList (l.set ix c')).Perm
      (b :: BHTreeNode.nodeBodiesList l) := by
  induction l generalizing ix with
  | nil => simp at h
  | cons a as ih =>
    cases ix with
    | zero =>
      simp only [List.set_cons_zero, List.getD_cons_zero] at hrel ⊢
      show (BHTreeNode.nodeBodies c' ++ BHTreeNode.nodeBodiesList as).Perm
        (b :: (BHTreeNode.nodeBodies a ++ BHTreeNode.nodeBodiesList as))
      exact hrel.append_right _
    | succ ix =>
      simp only [List.set_cons_succ, List.getD_cons_succ] at hrel ⊢
      have htail := ih (by simpa using h) hrel
      show (BHTreeNode.nodeBodies a ++ BHTreeNode.nodeBodiesList (as.set ix c')).Perm
        (b :: (BHTreeNode.nodeBodies a ++ BHTreeNode.nodeBodiesList as))
      exact (htail.append_left _).trans List.perm_middle

/-! ### Equation lemmas for update and insert -/

theorem BHTreeNode.update_body_some (m : ℚ) (cm : V3) (bb : BBox3)
    (ch : List BHTreeNode) (b : NBody) :
    BHTreeNode.update (.mk m cm bb ch (some b)) = .mk b.mass b.position bb ch (some b) := rfl

theorem BHTreeNode.update_nil (m : ℚ) (cm : V3) (bb : BBox3) :
    BHTreeNode.update (.mk m cm bb [] none) = .mk m cm bb [] none := rfl

theorem BHTreeNode.update_children (m : ℚ) (cm : V3) (bb : BBox3)
    {ch : List BHTreeNode} (h : ch ≠ []) :
    BHTreeNode.update (.mk m cm bb ch none) =
      .mk (BHTreeNode.total_mass_and_center_of_mass ch).1
        (BHTreeNode.total_mass_and_center_of_mass ch).2 bb ch none := by
  cases ch with
  | nil => exact absurd rfl h
  | cons c cs => rfl

theorem BHTreeNode.nodeBodies_mk (m : ℚ) (cm : V3) (bb : BBox3)
    (ch : List BHTreeNode) (obody : Option NBody) :
    (BHTreeNode.mk m cm bb ch obody).nodeBodies =
      obody.toList ++ BHTreeNode.nodeBodiesList ch := rfl

theorem BHTreeNode.nodeBodies_update (t : BHTreeNode) :
    (t.update).nodeBodies = t.nodeBodies := by
  cases t with
  | mk m cm bb ch obody =>
    cases obody with
    | some b => rfl
    | none =>
      cases ch with
      | nil => rfl
      | cons c cs => rfl

theorem BHTreeNode.bounds_update (t : BHTreeNode) : (t.update).bounds = t.bounds := by
  cases t with
  | mk m cm bb ch obody =>
    cases obody with
    | some b => rfl
    | none =>
      cases ch with
      | nil => rfl
      | cons c cs => rfl

theorem BHTreeNode.update_of_inv {t : BHTreeNode} (h : t.Inv) : t.update = t := by
  cases t with
  | mk m cm bb ch obody =>
    obtain ⟨_, hrest⟩ := h
    cases obody with
    | some b =>
      rw [BHTreeNode.update_body_some]
      rw [hrest.1, hrest.2.1]
    | none =>
      cases ch with
      | nil => rfl
      | cons c cs =>
        rw [BHTreeNode.update_children _ _ _ (by simp)]
        have h1 : BHTreeNode.total_mass_and_center_of_mass (c :: cs) = (m, cm) :=
          hrest.1.symm
        rw [h1]

theorem BHTreeNode.insert_zero (t : BHTreeNode) (b : NBody) :
    BHTreeNode.insert 0 t b = none := rfl

theorem BHTreeNode.insert_succ_children (fuel : ℕ) (m : ℚ) (cm : V3) (bb : BBox3)
    (c : BHTreeNode) (cs : List BHTreeNode) (obody : Option NBody) (body : NBody) :
    BHTreeNode.insert (fuel + 1) (.mk m cm bb (c :: cs) obody) body =
      (BHTreeNode.insert fuel
          ((c :: cs).getD (bb.quadrant_index_for body.position) (BHTreeNode.newNode bb))
          body).map
        (fun child' =>
          BHTreeNode.update
            (.mk m cm bb ((c :: cs).set (bb.quadrant_index_for body.position) child')
              obody)) := rfl

theorem BHTreeNode.insert_succ_empty (fuel : ℕ) (m : ℚ) (cm : V3) (bb : BBox3)
    (body : NBody) :
    BHTreeNode.insert (fuel + 1) (.mk m cm bb [] none) body =
      some (BHTreeNode.update (.mk m cm bb [] (some body))) := rfl

theorem BHTreeNode.insert_succ_leaf (fuel : ℕ) (m : ℚ) (cm : V3) (bb : BBox3)
    (ob body : NBody) :
    BHTreeNode.insert (fuel + 1) (.mk m cm bb [] (some ob)) body =
      (BHTreeNode.insert fuel
          (.mk m cm bb ((BBox3.subdivide bb).map BHTreeNode.newNode) none) ob).bind
        (fun n1 => (BHTreeNode.insert fuel n1 body).map BHTreeNode.update) := rfl

/-! ### Insert preserves the invariant and adds exactly the new body -/

theorem BHTreeNode.insert_inv :
    ∀ (fuel : ℕ) (t : BHTreeNode) (b : NBody) (t' : BHTreeNode),
      t.InvSub → BHTreeNode.insert fuel t b = some t' →
      t'.Inv ∧ (t'.nodeBodies).Perm (b :: t.nodeBodies) ∧ t'.bounds = t.bounds := by
  intro fuel
  induction fuel with
  | zero =>
    intro t b t' _ he
    rw [BHTreeNode.insert_zero] at he
    cases he
  | succ fuel ih =>
    intro t b t' hinv he
    cases t with
    | mk m cm bb ch obody =>
      cases ch with
      | cons c cs =>
        cases obody with
        | some ob =>
          obtain ⟨_, hshape⟩ := hinv
          exact absurd hshape (by simp)
        | none =>
          obtain ⟨hl, hshape⟩ := hinv
          have hlen : (c :: cs).length = 8 := by
            rcases hshape with h8 | h8
            · exact absurd h8 (by simp)
            · exact h8
          rw [BHTreeNode.insert_succ_children] at he
          rcases Option.map_eq_some'.1 he with ⟨child', hchild, rfl⟩
          have hix : bb.quadrant_index_for b.position < (c :: cs).length := by
            rw [hlen]
            exact BBox3.quadrant_index_lt_8 bb b.position
          have hchildInv :
              BHTreeNode.Inv
                ((c :: cs).getD (bb.quadrant_index_for b.position)
                  (BHTreeNode.newNode bb)) :=
            (BHTreeNode.InvList_iff _).1 hl _ (List.getD_mem' hix)
          obtain ⟨hInv', hperm', hbounds'⟩ := ih _ b child' hchildInv.toSub hchild
          have hperm :
              (BHTreeNode.nodeBodiesList
                ((c :: cs).set (bb.quadrant_index_for b.position) child')).Perm
              (b :: BHTreeNode.nodeBodiesList (c :: cs)) :=
            BHTreeNode.nodeBodiesList_set_perm hix hperm'
          have hsetne : (c :: cs).set (bb.quadrant_index_for b.position) child' ≠ [] := by
            intro hcon
            have := congrArg List.length hcon
            simp [List.length_set] at this
          rw [BHTreeNode.update_children _ _ _ hsetne]
          refine ⟨⟨BHTreeNode.InvList_set hl hInv', ?_⟩, ?_, rfl⟩
          · -- the internal-node part of the invariant for the updated node
            have hsetshape :
                ∃ d ds, (c :: cs).set (bb.quadrant_index_for b.position) child' = d :: ds := by
              cases hset : (c :: cs).set (bb.quadrant_index_for b.position) child' with
              | nil => exact absurd hset hsetne
              | cons d ds => exact ⟨d, ds, rfl⟩
            obtain ⟨d, ds, hds⟩ := hsetshape
            rw [hds]
            refine ⟨rfl, ?_, ?_⟩
            · rw [← hds, List.length_set, hlen]
            · rw [← hds]
              intro hnil
              have := hperm.length_eq
              rw [hnil] at this
              simp at this
          · rw [BHTreeNode.nodeBodies_mk]
            simp only [Option.toList_none, List.nil_append]
            exact hperm.trans (by
              rw [BHTreeNode.nodeBodies_mk]
              simp only [Option.toList_none, List.nil_append]
              exact List.Perm.refl _)
      | nil =>
        cases obody with
        | none =>
          rw [BHTreeNode.insert_succ_empty] at he
          injection he with he'
          subst he'
          rw [BHTreeNode.update_body_some]
          refine ⟨⟨trivial, rfl, rfl, rfl⟩, ?_, rfl⟩
          rw [BHTreeNode.nodeBodies_mk, BHTreeNode.nodeBodies_mk]
          exact List.Perm.refl _
        | some ob =>
          rw [BHTreeNode.insert_succ_leaf] at he
          rcases Option.bind_eq_some.1 he with ⟨n1, hn1, hrest⟩
          rcases Option.map_eq_some'.1 hrest with ⟨n2, hn2, rfl⟩
          have hsub :
              (BHTreeNode.mk m cm bb ((BBox3.subdivide bb).map BHTreeNode.newNode)
                none).InvSub := by
            refine ⟨BHTreeNode.InvList_subdivide bb, Or.inr ?_⟩
            rfl
          obtain ⟨hInv1, hperm1, hbounds1⟩ := ih _ ob n1 hsub hn1
          obtain ⟨hInv2, hperm2, hbounds2⟩ := ih _ b n2 hInv1.toSub hn2
          rw [BHTreeNode.update_of_inv hInv2]
          refine ⟨hInv2, ?_, ?_⟩
          · have hbodies_new :
                (BHTreeNode.mk m cm bb ((BBox3.subdivide bb).map BHTreeNode.newNode)
                  none).nodeBodies = [] := by
              rw [BHTreeNode.nodeBodies_mk, BHTreeNode.nodeBodiesList_subdivide]
              rfl
            rw [hbodies_new] at hperm1
            have : (BHTreeNode.nodeBodies n2).Perm (b :: [ob]) :=
              hperm2.trans (hperm1.cons b)
            rw [BHTreeNode.nodeBodies_mk]
            exact this
          · rw [hbounds2, hbounds1]
            rfl

/-! ### From local invariant to global aggregate statements -/

theorem nat_mem_le_sum {l : List ℕ} {a : ℕ} (h : a ∈ l) : a ≤ l.sum := by
  induction l with
  | nil => cases h
  | cons x xs ih =>
    rcases List.mem_cons.1 h with rfl | h'
    · simp
    · simp only [List.sum_cons]
      exact le_trans (ih h') (Nat.le_add_left _ _)

theorem BHTreeNode.inductionOn {P : BHTreeNode → Prop}
    (h : ∀ m cm bb ch obody, (∀ c ∈ ch, P c) → P (.mk m cm bb ch obody))
    (t : BHTreeNode) : P t := by
  have key : ∀ n (t : BHTreeNode), sizeOf t ≤ n → P t := by
    intro n
    induction n with
    | zero =>
      intro t ht
      have := BHTreeNode.sizeOf_pos t
      omega
    | succ n ihn =>
      intro t ht
      cases t with
      | mk m cm bb ch obody =>
        apply h
        intro c hc
        apply ihn
        have h1 : sizeOf c ≤ (ch.map sizeOf).sum :=
          nat_mem_le_sum (List.mem_map_of_mem sizeOf hc)
        have h2 := BHTreeNode.sizeOf_children_lt (.mk m cm bb ch obody)
        have h3 : (BHTreeNode.mk m cm bb ch obody).children = ch := rfl
        rw [h3] at h2
        omega
  exact key (sizeOf t) t (le_refl _)

/-- Specification-level sum of body masses. -/
def bodiesMassSum (l : List NBody) : ℚ :=
  (l.map NBody.mass).sum

/-- Specification-level sum of mass-weighted body positions. -/
def bodiesWeightedSum (l : List NBody) : V3 :=
  (l.map (fun b => V3.smul b.mass b.position)).foldr V3.add V3.zero

theorem bodiesMassSum_append (l1 l2 : List NBody) :
    bodiesMassSum (l1 ++ l2) = bodiesMassSum l1 + bodiesMassSum l2 := by
  simp [bodiesMassSum]

theorem foldr_vadd_shift (l : List V3) (x : V3) :
    l.foldr V3.add x = (l.foldr V3.add V3.zero).add x := by
  induction l with
  | nil => rw [List.foldr_nil, List.foldr_nil, V3.zero_add']
  | cons a as ih =>
    rw [List.foldr_cons, List.foldr_cons, ih, V3.add_assoc']

theorem bodiesWeightedSum_append (l1 l2 : List NBody) :
    bodiesWeightedSum (l1 ++ l2) = (bodiesWeightedSum l1).add (bodiesWeightedSum l2) := by
  unfold bodiesWeightedSum
  rw [List.map_append, List.foldr_append, foldr_vadd_shift]

theorem bodiesMassSum_pos {l : List NBody} (hne : l ≠ [])
    (hpos : ∀ b ∈ l, 0 < b.mass) : 0 < bodiesMassSum l := by
  cases l with
  | nil => exact absurd rfl hne
  | cons b bs =>
    have h1 : 0 < b.mass := hpos b (List.mem_cons_self b bs)
    have h2 : 0 ≤ bodiesMassSum bs := by
      unfold bodiesMassSum
      apply List.sum_nonneg
      intro x hx
      obtain ⟨c, hc, rfl⟩ := List.mem_map.1 hx
      exact (hpos c (List.mem_cons_of_mem b hc)).le
    unfold bodiesMassSum
    simp only [List.map_cons, List.sum_cons]
    unfold bodiesMassSum at h2
    linarith

theorem massSum_eq_bodies {l : List BHTreeNode}
    (h : ∀ c ∈ l, c.mass = bodiesMassSum c.nodeBodies) :
    BHTreeNode.massSum l = bodiesMassSum (BHTreeNode.nodeBodiesList l) := by
  induction l with
  | nil => rfl
  | cons c cs ih =>
    have hc := h c (List.mem_cons_self c cs)
    have hcs := ih (fun d hd => h d (List.mem_cons_of_mem c hd))
    show c.mass + BHTreeNode.massSum cs = _
    rw [hc, hcs, show BHTreeNode.nodeBodiesList (c :: cs) =
      c.nodeBodies ++ BHTreeNode.nodeBodiesList cs from rfl, bodiesMassSum_append]

theorem weightedPosSum_eq_bodies {l : List BHTreeNode}
    (h : ∀ c ∈ l, V3.smul c.mass c.center_of_mass = bodiesWeightedSum c.nodeBodies) :
    BHTreeNode.weightedPosSum l = bodiesWeightedSum (BHTreeNode.nodeBodiesList l) := by
  induction l with
  | nil => rfl
  | cons c cs ih =>
    have hc := h c (List.mem_cons_self c cs)
    have hcs := ih (fun d hd => h d (List.mem_cons_of_mem c hd))
    show (V3.smul c.mass c.center_of_mass).add (BHTreeNode.weightedPosSum cs) = _
    rw [hc, hcs, show BHTreeNode.nodeBodiesList (c :: cs) =
      c.nodeBodies ++ BHTreeNode.nodeBodiesList cs from rfl, bodiesWeightedSum_append]

theorem mem_nodeBodiesList_of_mem {c : BHTreeNode} {l : List BHTreeNode}
    (hc : c ∈ l) {b : NBody} (hb : b ∈ c.nodeBodies) :
    b ∈ BHTreeNode.nodeBodiesList l := by
  induction l with
  | nil => cases hc
  | cons d ds ih =>
    rcases List.mem_cons.1 hc with rfl | hc'
    · show b ∈ c.nodeBodies ++ BHTreeNode.nodeBodiesList ds
      exact List.mem_append_left _ hb
    · show b ∈ d.nodeBodies ++ BHTreeNode.nodeBodiesList ds
      exact List.mem_append_right _ (ih hc')

theorem BHTreeNode.inv_mass_weighted (t : BHTreeNode) :
    t.Inv → (∀ b ∈ t.nodeBodies, 0 < b.mass) →
    t.mass = bodiesMassSum t.nodeBodies ∧
      V3.smul t.mass t.center_of_mass = bodiesWeightedSum t.nodeBodies := by
  induction t using BHTreeNode.inductionOn with
  | h m cm bb ch obody ihc =>
    intro hinv hpos
    obtain ⟨hl, hrest⟩ := hinv
    cases obody with
    | some b =>
      obtain ⟨hm, hcm, hch⟩ := hrest
      subst hch
      subst hm
      subst hcm
      constructor
      · show b.mass = bodiesMassSum [b]
        simp [bodiesMassSum]
      · show V3.smul b.mass b.position = bodiesWeightedSum [b]
        unfold bodiesWeightedSum
        simp only [List.map_cons, List.map_nil, List.foldr_cons, List.foldr_nil]
        rw [V3.add_zero']
    | none =>
      cases ch with
      | nil =>
        obtain ⟨hm, _⟩ := hrest
        subst hm
        constructor
        · rfl
        · show V3.smul 0 cm = bodiesWeightedSum []
          rw [V3.smul_zero_mass]
          rfl
      | cons c cs =>
        obtain ⟨hagg, _, hne⟩ := hrest
        rw [BHTreeNode.tmacm_spec] at hagg
        have hmeq : m = BHTreeNode.massSum (c :: cs) := congrArg Prod.fst hagg
        have hcmeq : cm = (BHTreeNode.weightedPosSum (c :: cs)).divQ
            (BHTreeNode.massSum (c :: cs)) := congrArg Prod.snd hagg
        have hchfacts : ∀ d ∈ c :: cs,
            d.mass = bodiesMassSum d.nodeBodies ∧
              V3.smul d.mass d.center_of_mass = bodiesWeightedSum d.nodeBodies := by
          intro d hd
          apply ihc d hd ((BHTreeNode.InvList_iff _).1 hl d hd)
          intro b hb
          apply hpos
          show b ∈ (none : Option NBody).toList ++ BHTreeNode.nodeBodiesList (c :: cs)
          exact List.mem_append_right _ (mem_nodeBodiesList_of_mem hd hb)
        have hmass : BHTreeNode.massSum (c :: cs) =
            bodiesMassSum (BHTreeNode.nodeBodiesList (c :: cs)) :=
          massSum_eq_bodies (fun d hd => (hchfacts d hd).1)
        have hwps : BHTreeNode.weightedPosSum (c :: cs) =
            bodiesWeightedSum (BHTreeNode.nodeBodiesList (c :: cs)) :=
          weightedPosSum_eq_bodies (fun d hd => (hchfacts d hd).2)
        have hbodies_eq : (BHTreeNode.mk m cm bb (c :: cs) none).nodeBodies =
            BHTreeNode.nodeBodiesList (c :: cs) := rfl
        have hpos' : ∀ b ∈ BHTreeNode.nodeBodiesList (c :: cs), 0 < b.mass := by
          intro b hb
          apply hpos
          rw [hbodies_eq]
          exact hb
        have hmpos : 0 < BHTreeNode.massSum (c :: cs) := by
          rw [hmass]
          exact bodiesMassSum_pos hne hpos'
        constructor
        · rw [hbodies_eq]
          show m = _
          rw [hmeq, hmass]
        · rw [hbodies_eq]
          show V3.smul m cm = _
          rw [hmeq, hcmeq, V3.smul_divQ_cancel (ne_of_gt hmpos), hwps]

/-- Subtree relation: `Subtree s t` holds when `s` is `t` itself or a
subtree of one of `t`'s children. -/
inductive BHTreeNode.Subtree : BHTreeNode → BHTreeNode → Prop where
  | refl (t : BHTreeNode) : BHTreeNode.Subtree t t
  | child {s c t : BHTreeNode} :
      c ∈ t.children → BHTreeNode.Subtree s c → BHTreeNode.Subtree s t

theorem BHTreeNode.inv_children {t : BHTreeNode} (h : t.Inv) :
    ∀ c ∈ t.children, c.Inv := by
  cases t with
  | mk m cm bb ch obody =>
    exact fun c hc => (BHTreeNode.InvList_iff ch).1 h.1 c hc

theorem BHTreeNode.subtree_inv {s t : BHTreeNode} (hs : BHTreeNode.Subtree s t)
    (hinv : t.Inv) : s.Inv := by
  induction hs with
  | refl => exact hinv
  | child hc _ ih => exact ih (BHTreeNode.inv_children hinv _ hc)

theorem BHTreeNode.mem_nodeBodies_of_child {c t : BHTreeNode}
    (hc : c ∈ t.children) {b : NBody} (hb : b ∈ c.nodeBodies) :
    b ∈ t.nodeBodies := by
  cases t with
  | mk m cm bb ch obody =>
    show b ∈ obody.toList ++ BHTreeNode.nodeBodiesList ch
    exact List.mem_append_right _ (mem_nodeBodiesList_of_mem hc hb)

theorem BHTreeNode.subtree_bodies {s t : BHTreeNode} (hs : BHTreeNode.Subtree s t) :
    ∀ b ∈ s.nodeBodies, b ∈ t.nodeBodies := by
  induction hs with
  | refl => exact fun b hb => hb
  | child hc _ ih =>
    exact fun b hb => BHTreeNode.mem_nodeBodies_of_child hc (ih b hb)

/-! ### Building a tree: invariant and bodies of the result -/

theorem BHTreeNode.foldl_insert_none (fuel : ℕ) (l : List NBody) :
    l.foldl (fun acc b => acc.bind (fun t => BHTreeNode.insert fuel t b)) none = none := by
  induction l with
  | nil => rfl
  | cons b bs ih => simpa using ih

theorem BHTreeNode.foldl_insert_inv (fuel : ℕ) :
    ∀ (l : List NBody) (t0 t : BHTreeNode), t0.Inv →
      l.foldl (fun acc b => acc.bind (fun t => BHTreeNode.insert fuel t b))
        (some t0) = some t →
      t.Inv ∧ (t.nodeBodies).Perm (l ++ t0.nodeBodies) ∧ t.bounds = t0.bounds := by
  intro l
  induction l with
  | nil =>
    intro t0 t h0 he
    injection he with he'
    subst he'
    exact ⟨h0, List.Perm.refl _, rfl⟩
  | cons b bs ih =>
    intro t0 t h0 he
    simp only [List.foldl_cons, Option.some_bind] at he
    cases h1 : BHTreeNode.insert fuel t0 b with
    | none =>
      rw [h1] at he
      rw [BHTreeNode.foldl_insert_none] at he
      cases he
    | some t1 =>
      rw [h1] at he
      obtain ⟨hInv1, hperm1, hbounds1⟩ := BHTreeNode.insert_inv fuel t0 b t1 h0.toSub h1
      obtain ⟨hInv, hperm, hbounds⟩ := ih t1 t hInv1 he
      refine ⟨hInv, ?_, by rw [hbounds, hbounds1]⟩
      have step1 : (t.nodeBodies).Perm (bs ++ (b :: t0.nodeBodies)) :=
        hperm.trans (hperm1.append_left bs)
      exact step1.trans List.perm_middle

theorem V3.divQ_smul_cancel {m : ℚ} (hm : m ≠ 0) (v : V3) :
    (V3.smul m v).divQ m = v := by
  cases v
  simp only [V3.smul, V3.divQ, V3.mk.injEq]
  refine ⟨?_, ?_, ?_⟩ <;> exact mul_div_cancel_left₀ _ hm

theorem BHTreeNode.fromBodies_inv {fuel : ℕ} {bounds : BBox3} {l : List NBody}
    {t : BHTreeNode} (he : BHTreeNode.fromBodies fuel bounds l = some t) :
    t.Inv ∧ (t.nodeBodies).Perm l ∧ t.bounds = bounds := by
  unfold BHTreeNode.fromBodies at he
  obtain ⟨hInv, hperm, hbounds⟩ :=
    BHTreeNode.foldl_insert_inv fuel l (BHTreeNode.newNode bounds) t
      (BHTreeNode.Inv_newNode bounds) he
  refine ⟨hInv, ?_, hbounds⟩
  have : (BHTreeNode.newNode bounds).nodeBodies = [] := rfl
  rw [this] at hperm
  simpa using hperm

/-- Claim C2: after building a tree from any finite body sequence (with
exact arithmetic; positive masses so that the mass-weighted average is
well defined), every node that has children has aggregate mass equal to
the sum of the masses of all bodies in its subtree and aggregate center
of mass equal to the mass-weighted average of those bodies' positions,
and every node holding a body has aggregates equal to that body's mass
and position. -/
theorem claim_C2_aggregates (fuel : ℕ) (bounds : BBox3) (l : List NBody)
    (t s : BHTreeNode) (hpos : ∀ b ∈ l, 0 < b.mass)
    (hbuild : BHTreeNode.fromBodies fuel bounds l = some t)
    (hs : BHTreeNode.Subtree s t) :
    (∀ b, s.body = some b → s.mass = b.mass ∧ s.center_of_mass = b.position) ∧
    (s.children ≠ [] →
      s.mass = bodiesMassSum s.nodeBodies ∧
      s.center_of_mass =
        (bodiesWeightedSum s.nodeBodies).divQ (bodiesMassSum s.nodeBodies)) := by
  obtain ⟨hInv, hperm, _⟩ := BHTreeNode.fromBodies_inv hbuild
  have hsInv := BHTreeNode.subtree_inv hs hInv
  have hposs : ∀ b ∈ s.nodeBodies, 0 < b.mass := fun b hb =>
    hpos b (hperm.mem_iff.1 (BHTreeNode.subtree_bodies hs b hb))
  obtain ⟨hm, hw⟩ := BHTreeNode.inv_mass_weighted s hsInv hposs
  constructor
  · intro b hb
    cases s with
    | mk m cm bb ch obody =>
      obtain ⟨_, hrest⟩ := hsInv
      cases obody with
      | none =>
        have : (none : Option NBody) = some b := hb
        cases this
      | some b' =>
        have hb' : some b' = some b := hb
        injection hb' with hb''
        subst hb''
        exact ⟨hrest.1, hrest.2.1⟩
  · intro hchne
    cases s with
    | mk m cm bb ch obody =>
      obtain ⟨hl, hrest⟩ := hsInv
      cases obody with
      | some b' =>
        have : ch ≠ [] := hchne
        exact absurd hrest.2.2 this
      | none =>
        cases ch with
        | nil => exact absurd rfl hchne
        | cons c cs =>
          obtain ⟨hagg, hlen, hne⟩ := hrest
          refine ⟨hm, ?_⟩
          have hbodne : (BHTreeNode.mk m cm bb (c :: cs) none).nodeBodies ≠ [] := by
            show (none : Option NBody).toList ++ BHTreeNode.nodeBodiesList (c :: cs) ≠ []
            simpa using hne
          have hmpos : 0 < bodiesMassSum (BHTreeNode.mk m cm bb (c :: cs) none).nodeBodies :=
            bodiesMassSum_pos hbodne hposs
          have hmass_ne : (BHTreeNode.mk m cm bb (c :: cs) none).mass ≠ 0 := by
            rw [hm]
            exact ne_of_gt hmpos
          have hstep : (BHTreeNode.mk m cm bb (c :: cs) none).center_of_mass =
              (V3.smul (BHTreeNode.mk m cm bb (c :: cs) none).mass
                (BHTreeNode.mk m cm bb (c :: cs) none).center_of_mass).divQ
                (BHTreeNode.mk m cm bb (c :: cs) none).mass :=
            (V3.divQ_smul_cancel hmass_ne _).symm
          rw [hstep, hw, hm]

theorem claim_C2_witness :
    (∀ b ∈ [NBody.mk 0 ⟨0, 0, 0⟩ 1 0], 0 < b.mass) ∧
    BHTreeNode.fromBodies 1 ⟨⟨0, 0, 0⟩, ⟨1, 1, 1⟩⟩ [NBody.mk 0 ⟨0, 0, 0⟩ 1 0] =
      some (.mk 1 ⟨0, 0, 0⟩ ⟨⟨0, 0, 0⟩, ⟨1, 1, 1⟩⟩ [] (some (NBody.mk 0 ⟨0, 0, 0⟩ 1 0))) ∧
    ((∀ b, (BHTreeNode.mk 1 ⟨0, 0, 0⟩ ⟨⟨0, 0, 0⟩, ⟨1, 1, 1⟩⟩ []
          (some (NBody.mk 0 ⟨0, 0, 0⟩ 1 0))).body = some b →
        (BHTreeNode.mk 1 ⟨0, 0, 0⟩ ⟨⟨0, 0, 0⟩, ⟨1, 1, 1⟩⟩ []
          (some (NBody.mk 0 ⟨0, 0, 0⟩ 1 0))).mass = b.mass ∧
        (BHTreeNode.mk 1 ⟨0, 0, 0⟩ ⟨⟨0, 0, 0⟩, ⟨1, 1, 1⟩⟩ []
          (some (NBody.mk 0 ⟨0, 0, 0⟩ 1 0))).center_of_mass = b.position) ∧
      ((BHTreeNode.mk 1 ⟨0, 0, 0⟩ ⟨⟨0, 0, 0⟩, ⟨1, 1, 1⟩⟩ []
          (some (NBody.mk 0 ⟨0, 0, 0⟩ 1 0))).children ≠ [] →
        (BHTreeNode.mk 1 ⟨0, 0, 0⟩ ⟨⟨0, 0, 0⟩, ⟨1, 1, 1⟩⟩ []
          (some (NBody.mk 0 ⟨0, 0, 0⟩ 1 0))).mass =
          bodiesMassSum (BHTreeNode.mk 1 ⟨0, 0, 0⟩ ⟨⟨0, 0, 0⟩, ⟨1, 1, 1⟩⟩ []
            (some (NBody.mk 0 ⟨0, 0, 0⟩ 1 0))).nodeBodies ∧
        (BHTreeNode.mk 1 ⟨0, 0, 0⟩ ⟨⟨0, 0, 0⟩, ⟨1, 1, 1⟩⟩ []
          (some (NBody.mk 0 ⟨0, 0, 0⟩ 1 0))).center_of_mass =
          (bodiesWeightedSum (BHTreeNode.mk 1 ⟨0, 0, 0⟩ ⟨⟨0, 0, 0⟩, ⟨1, 1, 1⟩⟩ []
            (some (NBody.mk 0 ⟨0, 0, 0⟩ 1 0))).nodeBodies).divQ
            (bodiesMassSum (BHTreeNode.mk 1 ⟨0, 0, 0⟩ ⟨⟨0, 0, 0⟩, ⟨1, 1, 1⟩⟩ []
              (some (NBody.mk 0 ⟨0, 0, 0⟩ 1 0))).nodeBodies))) := by
  have hpos : ∀ b ∈ [NBody.mk 0 ⟨0, 0, 0⟩ 1 0], 0 < b.mass := by
    intro b hb
    rcases List.mem_singleton.1 hb with rfl
    norm_num [NBody.mass]
  have hbuild : BHTreeNode.fromBodies 1 ⟨⟨0, 0, 0⟩, ⟨1, 1, 1⟩⟩ [NBody.mk 0 ⟨0, 0, 0⟩ 1 0] =
      some (.mk 1 ⟨0, 0, 0⟩ ⟨⟨0, 0, 0⟩, ⟨1, 1, 1⟩⟩ [] (some (NBody.mk 0 ⟨0, 0, 0⟩ 1 0))) := rfl
  exact ⟨hpos, hbuild,
    claim_C2_aggregates 1 ⟨⟨0, 0, 0⟩, ⟨1, 1, 1⟩⟩ [NBody.mk 0 ⟨0, 0, 0⟩ 1 0] _ _ hpos hbuild
      (BHTreeNode.Subtree.refl _)⟩

/-! ### Claim C6: the depth-first iterator yields exactly the stored bodies -/

theorem BHTreeNode.nodeBodiesList_append (l1 l2 : List BHTreeNode) :
    BHTreeNode.nodeBodiesList (l1 ++ l2) =
      BHTreeNode.nodeBodiesList l1 ++ BHTreeNode.nodeBodiesList l2 := by
  induction l1 with
  | nil => rfl
  | cons c cs ih =>
    show c.nodeBodies ++ BHTreeNode.nodeBodiesList (cs ++ l2) = _
    rw [ih]
    show _ = (c.nodeBodies ++ BHTreeNode.nodeBodiesList cs) ++ _
    rw [List.append_assoc]

theorem BHTreeNode.nodeBodiesList_perm_of_perm {l1 l2 : List BHTreeNode}
    (h : l1.Perm l2) :
    (BHTreeNode.nodeBodiesList l1).Perm (BHTreeNode.nodeBodiesList l2) := by
  induction h with
  | nil => exact List.Perm.refl _
  | cons x _ ih =>
    show (x.nodeBodies ++ _).Perm (x.nodeBodies ++ _)
    exact ih.append_left _
  | swap x y l =>
    show (y.nodeBodies ++ (x.nodeBodies ++ _)).Perm
      (x.nodeBodies ++ (y.nodeBodies ++ _))
    rw [← List.append_assoc, ← List.append_assoc]
    exact (List.perm_append_comm).append_right _
  | trans _ _ ih1 ih2 => exact ih1.trans ih2

theorem BHTreeNode.inv_body_children {t : BHTreeNode} {b : NBody}
    (h : t.Inv) (hb : t.body = some b) : t.children = [] := by
  cases t with
  | mk m cm bb ch obody =>
    cases obody with
    | none => cases hb
    | some b' =>
      have : b' = b := by injection hb
      exact h.2.2.2

theorem BHTreeNode.nodeBodies_body_some {t : BHTreeNode} {b : NBody}
    (hb : t.body = some b) (hch : t.children = []) : t.nodeBodies = [b] := by
  cases t with
  | mk m cm bb ch obody =>
    have hch' : ch = [] := hch
    have hb' : obody = some b := hb
    subst hch'
    subst hb'
    rfl

theorem BHTreeNode.nodeBodies_body_none {t : BHTreeNode} (hb : t.body = none) :
    t.nodeBodies = BHTreeNode.nodeBodiesList t.children := by
  cases t with
  | mk m cm bb ch obody =>
    have hb' : obody = none := hb
    subst hb'
    rfl

theorem BHTreeNodeIter.run_cons_some {node : BHTreeNode} {rest : List BHTreeNode}
    {b : NBody} (hb : node.body = some b) :
    BHTreeNodeIter.run (node :: rest) = b :: BHTreeNodeIter.run rest := by
  conv_lhs => unfold BHTreeNodeIter.run
  rw [hb]

theorem BHTreeNodeIter.run_cons_none {node : BHTreeNode} {rest : List BHTreeNode}
    (hb : node.body = none) :
    BHTreeNodeIter.run (node :: rest) =
      BHTreeNodeIter.run (node.children.reverse ++ rest) := by
  conv_lhs => unfold BHTreeNodeIter.run
  rw [hb]

theorem BHTreeNodeIter.run_perm :
    ∀ (stack : List BHTreeNode), (∀ n ∈ stack, n.Inv) →
      (BHTreeNodeIter.run stack).Perm (BHTreeNode.nodeBodiesList stack)
  | [], _ => by
    unfold BHTreeNodeIter.run
    exact List.Perm.refl _
  | node :: rest, hinv => by
    have hnode := hinv node (List.mem_cons_self node rest)
    have hrest : ∀ n ∈ rest, n.Inv := fun n hn => hinv n (List.mem_cons_of_mem node hn)
    cases hb : node.body with
    | some b =>
      have hch := BHTreeNode.inv_body_children hnode hb
      rw [BHTreeNodeIter.run_cons_some hb]
      have hrec := BHTreeNodeIter.run_perm rest hrest
      have hsplit : BHTreeNode.nodeBodiesList (node :: rest) =
          node.nodeBodies ++ BHTreeNode.nodeBodiesList rest := rfl
      rw [hsplit, BHTreeNode.nodeBodies_body_some hb hch]
      exact hrec.cons b
    | none =>
      have hstack' : ∀ n ∈ node.children.reverse ++ rest, n.Inv := by
        intro n hn
        rcases List.mem_append.1 hn with hn' | hn'
        · exact BHTreeNode.inv_children hnode n (List.mem_reverse.1 hn')
        · exact hrest n hn'
      rw [BHTreeNodeIter.run_cons_none hb]
      have hrec := BHTreeNodeIter.run_perm (node.children.reverse ++ rest) hstack'
      refine hrec.trans ?_
      rw [BHTreeNode.nodeBodiesList_append]
      have hsplit : BHTreeNode.nodeBodiesList (node :: rest) =
          node.nodeBodies ++ BHTreeNode.nodeBodiesList rest := rfl
      rw [hsplit, BHTreeNode.nodeBodies_body_none hb]
      exact (BHTreeNode.nodeBodiesList_perm_of_perm
        (List.reverse_perm node.children)).append_right _
termination_by stack => (stack.map sizeOf).sum
decreasing_by
  all_goals simp only [List.map_append, List.map_reverse, List.sum_append,
    List.sum_reverse, List.map_cons, List.sum_cons]
  all_goals have _h1 := BHTreeNode.sizeOf_children_lt node
  all_goals have _h2 := BHTreeNode.sizeOf_pos node
  all_goals omega

/-- Claim C6: for every tree built by inserting a finite sequence of
bodies with pairwise distinct positions, the depth-first iterator yields
exactly the multiset of inserted bodies — each exactly once, no
duplicates, no omissions — regardless of the insertion order. -/
theorem claim_C6_iterator_yields_all (fuel : ℕ) (bounds : BBox3) (l : List NBody)
    (t : BHTreeNode)
    (hdist : l.Pairwise (fun a b => a.position ≠ b.position))
    (hbuild : BHTreeNode.fromBodies fuel bounds l = some t) :
    (BHTreeNodeIter.run [t]).Perm l ∧ (BHTreeNodeIter.run [t]).Nodup := by
  obtain ⟨hInv, hperm, _⟩ := BHTreeNode.fromBodies_inv hbuild
  have hrun := BHTreeNodeIter.run_perm [t] (by
    intro n hn
    rcases List.mem_singleton.1 hn with rfl
    exact hInv)
  have hlist : BHTreeNode.nodeBodiesList [t] = t.nodeBodies := by
    show t.nodeBodies ++ BHTreeNode.nodeBodiesList [] = t.nodeBodies
    show t.nodeBodies ++ [] = t.nodeBodies
    rw [List.append_nil]
  rw [hlist] at hrun
  have hfull : (BHTreeNodeIter.run [t]).Perm l := hrun.trans hperm
  refine ⟨hfull, ?_⟩
  have hnodup : l.Nodup := by
    apply List.Pairwise.imp _ hdist
    intro a b hab
    intro hcon
    exact hab (by rw [hcon])
  exact hfull.nodup_iff.2 hnodup

theorem claim_C6_witness :
    ([NBody.mk 0 ⟨0, 0, 0⟩ 1 0].Pairwise (fun a b => a.position ≠ b.position)) ∧
    BHTreeNode.fromBodies 1 ⟨⟨0, 0, 0⟩, ⟨1, 1, 1⟩⟩ [NBody.mk 0 ⟨0, 0, 0⟩ 1 0] =
      some (.mk 1 ⟨0, 0, 0⟩ ⟨⟨0, 0, 0⟩, ⟨1, 1, 1⟩⟩ [] (some (NBody.mk 0 ⟨0, 0, 0⟩ 1 0))) ∧
    ((BHTreeNodeIter.run
        [BHTreeNode.mk 1 ⟨0, 0, 0⟩ ⟨⟨0, 0, 0⟩, ⟨1, 1, 1⟩⟩ []
          (some (NBody.mk 0 ⟨0, 0, 0⟩ 1 0))]).Perm [NBody.mk 0 ⟨0, 0, 0⟩ 1 0] ∧
      (BHTreeNodeIter.run
        [BHTreeNode.mk 1 ⟨0, 0, 0⟩ ⟨⟨0, 0, 0⟩, ⟨1, 1, 1⟩⟩ []
          (some (NBody.mk 0 ⟨0, 0, 0⟩ 1 0))]).Nodup) :=
  ⟨List.pairwise_singleton _ _, rfl,
    claim_C6_iterator_yields_all 1 ⟨⟨0, 0, 0⟩, ⟨1, 1, 1⟩⟩ [NBody.mk 0 ⟨0, 0, 0⟩ 1 0] _
      (List.pairwise_singleton _ _) rfl⟩

/-! ### Claim C9: the division by total mass never sees a zero divisor -/

/-- Division-guard instrumented variant of `update`: the source's
`total_mass_and_center_of_mass` divides `cm` by the accumulated total
mass; that code path is executed exactly when the node has no body and
has children, and the accumulated divisor equals `massSum` of the
children (see `tmacm_spec`). The instrumented version fails instead of
dividing by zero. -/
def BHTreeNode.updateChecked : BHTreeNode → Option BHTreeNode
  | .mk m cm bb ch obody =>
    match obody, ch with
    | none, c :: cs =>
      if BHTreeNode.massSum (c :: cs) = 0 then none
      else some (BHTreeNode.update (.mk m cm bb (c :: cs) none))
    | some b, _ => some (BHTreeNode.update (.mk m cm bb ch (some b)))
    | none, [] => some (BHTreeNode.update (.mk m cm bb [] none))

/-- Division-guard instrumented variant of `insert`: identical recursion,
with every `update` call site replaced by `updateChecked`. -/
def BHTreeNode.insertChecked : ℕ → BHTreeNode → NBody → Option BHTreeNode
  | 0, _, _ => none
  | fuel + 1, .mk m cm bb ch obody, body =>
    match ch with
    | c :: cs =>
      let ix := bb.quadrant_index_for body.position
      (BHTreeNode.insertChecked fuel ((c :: cs).getD ix (BHTreeNode.newNode bb)) body).bind
        (fun child' => BHTreeNode.updateChecked (.mk m cm bb ((c :: cs).set ix child') obody))
    | [] =>
      match obody with
      | none => BHTreeNode.updateChecked (.mk m cm bb [] (some body))
      | some ob =>
        let n' : BHTreeNode := .mk m cm bb ((BBox3.subdivide bb).map BHTreeNode.newNode) none
        (BHTreeNode.insertChecked fuel n' ob).bind
          (fun n1 => (BHTreeNode.insertChecked fuel n1 body).bind BHTreeNode.updateChecked)

/-- Division-guard instrumented variant of `BHTreeNode::from`. -/
def BHTreeNode.fromBodiesChecked (fuel : ℕ) (bounds : BBox3) (bodies : List NBody) :
    Option BHTreeNode :=
  bodies.foldl (fun acc b => acc.bind (fun t => BHTreeNode.insertChecked fuel t b))
    (some (BHTreeNode.newNode bounds))

mutual

/-- Division-guard instrumented variant of `update_all`. -/
def BHTreeNode.update_allChecked : BHTreeNode → Option BHTreeNode
  | .mk m cm bb ch obody =>
    (BHTreeNode.update_allCheckedList ch).bind
      (fun ch' => BHTreeNode.updateChecked (.mk m cm bb ch' obody))

def BHTreeNode.update_allCheckedList : List BHTreeNode → Option (List BHTreeNode)
  | [] => some []
  | c :: cs =>
    (BHTreeNode.update_allChecked c).bind
      (fun c' => (BHTreeNode.update_allCheckedList cs).map (c' :: ·))

end

theorem BHTreeNode.massSum_pos_of_inv {ch : List BHTreeNode}
    (hl : BHTreeNode.InvList ch)
    (hpos : ∀ b ∈ BHTreeNode.nodeBodiesList ch, 0 < b.mass)
    (hne : BHTreeNode.nodeBodiesList ch ≠ []) :
    0 < BHTreeNode.massSum ch := by
  have hmasses : ∀ c ∈ ch, c.mass = bodiesMassSum c.nodeBodies := by
    intro c hc
    exact (BHTreeNode.inv_mass_weighted c ((BHTreeNode.InvList_iff ch).1 hl c hc)
      (fun b hb => hpos b (mem_nodeBodiesList_of_mem hc hb))).1
  rw [massSum_eq_bodies hmasses]
  exact bodiesMassSum_pos hne hpos

theorem BHTreeNode.updateChecked_of_inv {t : BHTreeNode} (hinv : t.Inv)
    (hpos : ∀ b ∈ t.nodeBodies, 0 < b.mass) :
    BHTreeNode.updateChecked t = some t.update := by
  cases t with
  | mk m cm bb ch obody =>
    cases obody with
    | some b => rfl
    | none =>
      cases ch with
      | nil => rfl
      | cons c cs =>
        obtain ⟨hl, hagg, hlen, hne⟩ := hinv
        have hpos' : ∀ b ∈ BHTreeNode.nodeBodiesList (c :: cs), 0 < b.mass := by
          intro b hb
          exact hpos b (by
            show b ∈ (none : Option NBody).toList ++ BHTreeNode.nodeBodiesList (c :: cs)
            simpa using hb)
        have hms := BHTreeNode.massSum_pos_of_inv hl hpos' hne
        show (if BHTreeNode.massSum (c :: cs) = 0 then none
          else some (BHTreeNode.update (.mk m cm bb (c :: cs) none))) = _
        rw [if_neg (ne_of_gt hms)]

theorem BHTreeNode.updateChecked_children_ok {m : ℚ} {cm : V3} {bb : BBox3}
    {ch : List BHTreeNode} (hl : BHTreeNode.InvList ch)
    (hpos : ∀ b ∈ BHTreeNode.nodeBodiesList ch, 0 < b.mass)
    (hne : BHTreeNode.nodeBodiesList ch ≠ []) :
    BHTreeNode.updateChecked (.mk m cm bb ch none) =
      some (BHTreeNode.update (.mk m cm bb ch none)) := by
  cases ch with
  | nil => rfl
  | cons c cs =>
    have hms := BHTreeNode.massSum_pos_of_inv hl hpos hne
    show (if BHTreeNode.massSum (c :: cs) = 0 then none
      else some (BHTreeNode.update (.mk m cm bb (c :: cs) none))) = _
    rw [if_neg (ne_of_gt hms)]

theorem BHTreeNode.insertChecked_zero (t : BHTreeNode) (b : NBody) :
    BHTreeNode.insertChecked 0 t b = none := rfl

theorem BHTreeNode.insertChecked_succ_children (fuel : ℕ) (m : ℚ) (cm : V3)
    (bb : BBox3) (c : BHTreeNode) (cs : List BHTreeNode) (obody : Option NBody)
    (body : NBody) :
    BHTreeNode.insertChecked (fuel + 1) (.mk m cm bb (c :: cs) obody) body =
      (BHTreeNode.insertChecked fuel
          ((c :: cs).getD (bb.quadrant_index_for body.position) (BHTreeNode.newNode bb))
          body).bind
        (fun child' =>
          BHTreeNode.updateChecked
            (.mk m cm bb ((c :: cs).set (bb.quadrant_index_for body.position) child')
              obody)) := rfl

theorem BHTreeNode.insertChecked_succ_leaf (fuel : ℕ) (m : ℚ) (cm : V3) (bb : BBox3)
    (ob body : NBody) :
    BHTreeNode.insertChecked (fuel + 1) (.mk m cm bb [] (some ob)) body =
      (BHTreeNode.insertChecked fuel
          (.mk m cm bb ((BBox3.subdivide bb).map BHTreeNode.newNode) none) ob).bind
        (fun n1 =>
          (BHTreeNode.insertChecked fuel n1 body).bind BHTreeNode.updateChecked) := rfl

theorem BHTreeNode.insertChecked_eq_insert :
    ∀ (fuel : ℕ) (t : BHTreeNode) (b : NBody),
      t.InvSub → (∀ x ∈ b :: t.nodeBodies, 0 < x.mass) →
      BHTreeNode.insertChecked fuel t b = BHTreeNode.insert fuel t b := by
  intro fuel
  induction fuel with
  | zero => intro t b _ _; rfl
  | succ fuel ih =>
    intro t b hinv hpos
    cases t with
    | mk m cm bb ch obody =>
      cases ch with
      | cons c cs =>
        cases obody with
        | some ob => exact absurd hinv.2 (by simp)
        | none =>
          obtain ⟨hl, hshape⟩ := hinv
          have hlen : (c :: cs).length = 8 := by
            rcases hshape with h8 | h8
            · exact absurd h8 (by simp)
            · exact h8
          have hix : bb.quadrant_index_for b.position < (c :: cs).length := by
            rw [hlen]
            exact BBox3.quadrant_index_lt_8 bb b.position
          have hchildInv :
              BHTreeNode.Inv
                ((c :: cs).getD (bb.quadrant_index_for b.position)
                  (BHTreeNode.newNode bb)) :=
            (BHTreeNode.InvList_iff _).1 hl _ (List.getD_mem' hix)
          have hbodies_t : (BHTreeNode.mk m cm bb (c :: cs) none).nodeBodies =
              BHTreeNode.nodeBodiesList (c :: cs) := rfl
          have hchild_pos : ∀ x ∈ b ::
              ((c :: cs).getD (bb.quadrant_index_for b.position)
                (BHTreeNode.newNode bb)).nodeBodies, 0 < x.mass := by
            intro x hx
            rcases List.mem_cons.1 hx with rfl | hx'
            · exact hpos x (List.mem_cons_self _ _)
            · refine hpos x (List.mem_cons_of_mem _ ?_)
              rw [hbodies_t]
              exact mem_nodeBodiesList_of_mem (List.getD_mem' hix) hx'
          rw [BHTreeNode.insertChecked_succ_children, BHTreeNode.insert_succ_children,
            ih _ b hchildInv.toSub hchild_pos]
          cases hres : BHTreeNode.insert fuel
              ((c :: cs).getD (bb.quadrant_index_for b.position)
                (BHTreeNode.newNode bb)) b with
          | none => rfl
          | some child' =>
            obtain ⟨hInv', hperm', _⟩ :=
              BHTreeNode.insert_inv fuel _ b child' hchildInv.toSub hres
            have hperm :=
              BHTreeNode.nodeBodiesList_set_perm hix hperm'
            simp only [Option.some_bind, Option.map_some']
            apply BHTreeNode.updateChecked_children_ok
              (BHTreeNode.InvList_set hl hInv')
            · intro x hx
              have hx' := hperm.mem_iff.1 hx
              rcases List.mem_cons.1 hx' with rfl | hx''
              · exact hpos x (List.mem_cons_self _ _)
              · refine hpos x (List.mem_cons_of_mem _ ?_)
                rw [hbodies_t]
                exact hx''
            · intro hcon
              have := hperm.length_eq
              rw [hcon] at this
              simp at this
      | nil =>
        cases obody with
        | none => rfl
        | some ob =>
          rw [BHTreeNode.insertChecked_succ_leaf, BHTreeNode.insert_succ_leaf]
          have hsub' :
              (BHTreeNode.mk m cm bb ((BBox3.subdivide bb).map BHTreeNode.newNode)
                none).InvSub :=
            ⟨BHTreeNode.InvList_subdivide bb, Or.inr rfl⟩
          have hbodies_new :
              (BHTreeNode.mk m cm bb ((BBox3.subdivide bb).map BHTreeNode.newNode)
                none).nodeBodies = [] := by
            rw [BHTreeNode.nodeBodies_mk, BHTreeNode.nodeBodiesList_subdivide]
            rfl
          have hbodies_leaf : (BHTreeNode.mk m cm bb [] (some ob)).nodeBodies = [ob] := rfl
          have hpos1 : ∀ x ∈ ob ::
              (BHTreeNode.mk m cm bb ((BBox3.subdivide bb).map BHTreeNode.newNode)
                none).nodeBodies, 0 < x.mass := by
            intro x hx
            rw [hbodies_new] at hx
            rcases List.mem_singleton.1 hx with rfl
            refine hpos x (List.mem_cons_of_mem _ ?_)
            rw [hbodies_leaf]
            exact List.mem_singleton.2 rfl
          rw [ih _ ob hsub' hpos1]
          cases hres1 : BHTreeNode.insert fuel
              (.mk m cm bb ((BBox3.subdivide bb).map BHTreeNode.newNode) none) ob with
          | none => rfl
          | some n1 =>
            obtain ⟨hInv1, hperm1, _⟩ :=
              BHTreeNode.insert_inv fuel _ ob n1 hsub' hres1
            rw [hbodies_new] at hperm1
            simp only [Option.some_bind]
            have hpos2 : ∀ x ∈ b :: n1.nodeBodies, 0 < x.mass := by
              intro x hx
              rcases List.mem_cons.1 hx with rfl | hx'
              · exact hpos x (List.mem_cons_self _ _)
              · have := hperm1.mem_iff.1 hx'
                rcases List.mem_singleton.1 this with rfl
                refine hpos x (List.mem_cons_of_mem _ ?_)
                rw [hbodies_leaf]
                exact List.mem_singleton.2 rfl
            rw [ih _ b hInv1.toSub hpos2]
            cases hres2 : BHTreeNode.insert fuel n1 b with
            | none => rfl
            | some n2 =>
              obtain ⟨hInv2, hperm2, _⟩ :=
                BHTreeNode.insert_inv fuel _ b n2 hInv1.toSub hres2
              have hpos3 : ∀ x ∈ n2.nodeBodies, 0 < x.mass := by
                intro x hx
                exact hpos2 x (hperm2.mem_iff.1 hx)
              simp only [Option.some_bind, Option.map_some']
              exact BHTreeNode.updateChecked_of_inv hInv2 hpos3

theorem BHTreeNode.update_all_list_eq {ch : List BHTreeNode}
    (h : ∀ c ∈ ch, BHTreeNode.update_all c = c) :
    BHTreeNode.update_all_list ch = ch := by
  induction ch with
  | nil => rfl
  | cons c cs ih =>
    show BHTreeNode.update_all c :: BHTreeNode.update_all_list cs = c :: cs
    rw [h c (List.mem_cons_self c cs), ih (fun d hd => h d (List.mem_cons_of_mem c hd))]

theorem BHTreeNode.update_all_of_inv (t : BHTreeNode) :
    t.Inv → BHTreeNode.update_all t = t := by
  induction t using BHTreeNode.inductionOn with
  | h m cm bb ch obody ihc =>
    intro hinv
    have hch : BHTreeNode.update_all_list ch = ch :=
      BHTreeNode.update_all_list_eq
        (fun c hc => ihc c hc ((BHTreeNode.InvList_iff ch).1 hinv.1 c hc))
    show BHTreeNode.update (.mk m cm bb (BHTreeNode.update_all_list ch) obody) = _
    rw [hch]
    exact BHTreeNode.update_of_inv hinv

theorem BHTreeNode.update_allCheckedList_eq {ch : List BHTreeNode}
    (h : ∀ c ∈ ch, BHTreeNode.update_allChecked c = some c) :
    BHTreeNode.update_allCheckedList ch = some ch := by
  induction ch with
  | nil => rfl
  | cons c cs ih =>
    show (BHTreeNode.update_allChecked c).bind _ = some (c :: cs)
    rw [h c (List.mem_cons_self c cs), Option.some_bind,
      ih (fun d hd => h d (List.mem_cons_of_mem c hd)), Option.map_some']

theorem BHTreeNode.update_allChecked_of_inv (t : BHTreeNode) :
    t.Inv → (∀ b ∈ t.nodeBodies, 0 < b.mass) →
    BHTreeNode.update_allChecked t = some (BHTreeNode.update_all t) := by
  induction t using BHTreeNode.inductionOn with
  | h m cm bb ch obody ihc =>
    intro hinv hpos
    have hch : BHTreeNode.update_allCheckedList ch = some ch := by
      apply BHTreeNode.update_allCheckedList_eq
      intro c hc
      have hcInv := (BHTreeNode.InvList_iff ch).1 hinv.1 c hc
      have hcpos : ∀ b ∈ c.nodeBodies, 0 < b.mass := by
        intro b hb
        apply hpos
        show b ∈ obody.toList ++ BHTreeNode.nodeBodiesList ch
        exact List.mem_append_right _ (mem_nodeBodiesList_of_mem hc hb)
      rw [ihc c hc hcInv hcpos, BHTreeNode.update_all_of_inv c hcInv]
    show (BHTreeNode.update_allCheckedList ch).bind _ = _
    rw [hch, Option.some_bind,
      BHTreeNode.update_all_of_inv _ hinv,
      BHTreeNode.updateChecked_of_inv hinv hpos,
      BHTreeNode.update_of_inv hinv]

theorem BHTreeNode.foldl_insertChecked_none (fuel : ℕ) (l : List NBody) :
    l.foldl (fun acc b => acc.bind (fun t => BHTreeNode.insertChecked fuel t b)) none =
      none := by
  induction l with
  | nil => rfl
  | cons b bs ih => simpa using ih

theorem BHTreeNode.foldl_insertChecked_eq (fuel : ℕ) :
    ∀ (l : List NBody) (t0 : BHTreeNode), t0.Inv →
      (∀ x ∈ l ++ t0.nodeBodies, 0 < x.mass) →
      l.foldl (fun acc b => acc.bind (fun t => BHTreeNode.insertChecked fuel t b))
        (some t0) =
      l.foldl (fun acc b => acc.bind (fun t => BHTreeNode.insert fuel t b)) (some t0) := by
  intro l
  induction l with
  | nil => intro t0 _ _; rfl
  | cons b bs ih =>
    intro t0 h0 hpos
    simp only [List.foldl_cons, Option.some_bind]
    have hstep : BHTreeNode.insertChecked fuel t0 b = BHTreeNode.insert fuel t0 b := by
      apply BHTreeNode.insertChecked_eq_insert fuel t0 b h0.toSub
      intro x hx
      rcases List.mem_cons.1 hx with rfl | hx'
      · exact hpos x (List.mem_append_left _ (List.mem_cons_self _ _))
      · exact hpos x (List.mem_append_right _ hx')
    rw [hstep]
    cases hres : BHTreeNode.insert fuel t0 b with
    | none =>
      rw [BHTreeNode.foldl_insertChecked_none, BHTreeNode.foldl_insert_none]
    | some t1 =>
      obtain ⟨hInv1, hperm1, _⟩ := BHTreeNode.insert_inv fuel t0 b t1 h0.toSub hres
      apply ih t1 hInv1
      intro x hx
      rcases List.mem_append.1 hx with hx' | hx'
      · exact hpos x (List.mem_append_left _ (List.mem_cons_of_mem _ hx'))
      · rcases List.mem_cons.1 (hperm1.mem_iff.1 hx') with rfl | hx''
        · exact hpos x (List.mem_append_left _ (List.mem_cons_self _ _))
        · exact hpos x (List.mem_append_right _ hx'')

/-- Claim C9: for every tree built by inserting bodies whose masses are
all strictly positive, every execution of the division by total mass in
the aggregate center-of-mass computation — reached from `update` during
`insert`, or from `update_all` — has a nonzero divisor. This is stated
by replaying the same computations with a division-guard instrumented
variant (`insertChecked` / `update_allChecked` fail exactly where the
original would divide by a zero total mass) and showing the guarded run
succeeds with the same results. -/
theorem claim_C9_no_zero_divisor (fuel : ℕ) (bounds : BBox3) (l : List NBody)
    (t : BHTreeNode) (hpos : ∀ b ∈ l, 0 < b.mass)
    (hbuild : BHTreeNode.fromBodies fuel bounds l = some t) :
    BHTreeNode.fromBodiesChecked fuel bounds l = some t ∧
    BHTreeNode.update_allChecked t = some (BHTreeNode.update_all t) := by
  obtain ⟨hInv, hperm, _⟩ := BHTreeNode.fromBodies_inv hbuild
  constructor
  · unfold BHTreeNode.fromBodiesChecked
    rw [BHTreeNode.foldl_insertChecked_eq fuel l (BHTreeNode.newNode bounds)
      (BHTreeNode.Inv_newNode bounds)
      (by
        intro x hx
        have hbn : (BHTreeNode.newNode bounds).nodeBodies = [] := rfl
        rw [hbn, List.append_nil] at hx
        exact hpos x hx)]
    exact hbuild
  · apply BHTreeNode.update_allChecked_of_inv t hInv
    intro b hb
    exact hpos b (hperm.mem_iff.1 hb)

theorem claim_C9_witness :
    (∀ b ∈ [NBody.mk 0 ⟨0, 0, 0⟩ 1 0], 0 < b.mass) ∧
    BHTreeNode.fromBodies 1 ⟨⟨0, 0, 0⟩, ⟨1, 1, 1⟩⟩ [NBody.mk 0 ⟨0, 0, 0⟩ 1 0] =
      some (.mk 1 ⟨0, 0, 0⟩ ⟨⟨0, 0, 0⟩, ⟨1, 1, 1⟩⟩ [] (some (NBody.mk 0 ⟨0, 0, 0⟩ 1 0))) ∧
    (BHTreeNode.fromBodiesChecked 1 ⟨⟨0, 0, 0⟩, ⟨1, 1, 1⟩⟩ [NBody.mk 0 ⟨0, 0, 0⟩ 1 0] =
      some (.mk 1 ⟨0, 0, 0⟩ ⟨⟨0, 0, 0⟩, ⟨1, 1, 1⟩⟩ [] (some (NBody.mk 0 ⟨0, 0, 0⟩ 1 0))) ∧
    BHTreeNode.update_allChecked
        (.mk 1 ⟨0, 0, 0⟩ ⟨⟨0, 0, 0⟩, ⟨1, 1, 1⟩⟩ [] (some (NBody.mk 0 ⟨0, 0, 0⟩ 1 0))) =
      some (BHTreeNode.update_all
        (.mk 1 ⟨0, 0, 0⟩ ⟨⟨0, 0, 0⟩, ⟨1, 1, 1⟩⟩ [] (some (NBody.mk 0 ⟨0, 0, 0⟩ 1 0))))) := by
  have hpos : ∀ b ∈ [NBody.mk 0 ⟨0, 0, 0⟩ 1 0], 0 < b.mass := by
    intro b hb
    rcases List.mem_singleton.1 hb with rfl
    norm_num [NBody.mass]
  exact ⟨hpos, rfl,
    claim_C9_no_zero_divisor 1 ⟨⟨0, 0, 0⟩, ⟨1, 1, 1⟩⟩ [NBody.mk 0 ⟨0, 0, 0⟩ 1 0] _ hpos rfl⟩

/-! ### Claim C7: bulk insert_no_update plus a single update_all -/

theorem list_getD_set_ne {α : Type} {l : List α} {i j : ℕ} (h : i ≠ j) (a d : α) :
    (l.set i a).getD j d = l.getD j d := by
  simp [List.getD, List.getElem?_set_ne h]

theorem list_getD_set_eq {α : Type} {l : List α} {i : ℕ} (h : i < l.length) (a d : α) :
    (l.set i a).getD i d = a := by
  simp [List.getD, List.getElem?_set_self, h]

/-- Replace only the aggregate fields (mass, center of mass) at the root
of a tree. -/
def BHTreeNode.setTopAgg (m : ℚ) (cm : V3) : BHTreeNode → BHTreeNode
  | .mk _ _ bb ch obody => .mk m cm bb ch obody

theorem BHTreeNode.setTopAgg_self (t : BHTreeNode) :
    BHTreeNode.setTopAgg t.mass t.center_of_mass t = t := by
  cases t
  rfl

theorem BHTreeNode.update_mk_top_irrel {m1 m2 : ℚ} {cm1 cm2 : V3} {bb : BBox3}
    {ch : List BHTreeNode} {obody : Option NBody}
    (h : ch ≠ [] ∨ obody.isSome = true) :
    BHTreeNode.update (.mk m1 cm1 bb ch obody) =
      BHTreeNode.update (.mk m2 cm2 bb ch obody) := by
  cases obody with
  | some b => rfl
  | none =>
    cases ch with
    | nil =>
      rcases h with h' | h'
      · exact absurd rfl h'
      · cases h'
    | cons c cs => rfl

theorem BHTreeNode.update_update (t : BHTreeNode) :
    BHTreeNode.update (BHTreeNode.update t) = BHTreeNode.update t := by
  cases t with
  | mk m cm bb ch obody =>
    cases obody with
    | some b => rfl
    | none =>
      cases ch with
      | nil => rfl
      | cons c cs => rfl

theorem BHTreeNode.insert_succ_children' (fuel : ℕ) (m : ℚ) (cm : V3) (bb : BBox3)
    {ch : List BHTreeNode} (h : ch ≠ []) (obody : Option NBody) (body : NBody) :
    BHTreeNode.insert (fuel + 1) (.mk m cm bb ch obody) body =
      (BHTreeNode.insert fuel
          (ch.getD (bb.quadrant_index_for body.position) (BHTreeNode.newNode bb))
          body).map
        (fun child' =>
          BHTreeNode.update
            (.mk m cm bb (ch.set (bb.quadrant_index_for body.position) child')
              obody)) := by
  cases ch with
  | nil => exact absurd rfl h
  | cons c cs => rfl

theorem BHTreeNode.insert_top_irrel (fuel : ℕ) {m1 m2 : ℚ} {cm1 cm2 : V3}
    {bb : BBox3} {ch : List BHTreeNode} (h : ch ≠ []) (obody : Option NBody)
    (body : NBody) :
    BHTreeNode.insert fuel (.mk m1 cm1 bb ch obody) body =
      BHTreeNode.insert fuel (.mk m2 cm2 bb ch obody) body := by
  cases fuel with
  | zero => rfl
  | succ fuel =>
    rw [BHTreeNode.insert_succ_children' fuel m1 cm1 bb h obody body,
      BHTreeNode.insert_succ_children' fuel m2 cm2 bb h obody body]
    cases BHTreeNode.insert fuel
        (ch.getD (bb.quadrant_index_for body.position) (BHTreeNode.newNode bb)) body with
    | none => rfl
    | some child' =>
      rw [Option.map_some', Option.map_some']
      have hne : ch.set (bb.quadrant_index_for body.position) child' ≠ [] := by
        intro hcon
        have := congrArg List.length hcon
        rw [List.length_set] at this
        exact h (List.length_eq_zero.1 this)
      rw [BHTreeNode.update_mk_top_irrel (Or.inl hne)]

theorem BHTreeNode.subdivideChildren_length (bb : BBox3) :
    ((BBox3.subdivide bb).map BHTreeNode.newNode).length = 8 := by
  unfold BBox3.subdivide
  simp

theorem BHTreeNode.subdivideChildren_ne_nil (bb : BBox3) :
    (BBox3.subdivide bb).map BHTreeNode.newNode ≠ [] := by
  intro h
  have := congrArg List.length h
  rw [BHTreeNode.subdivideChildren_length] at this
  simp at this

theorem BHTreeNode.subdivideChildren_getD_empty (bb : BBox3) (i : ℕ) (hi : i < 8)
    (d : BHTreeNode) :
    ∃ bb', ((BBox3.subdivide bb).map BHTreeNode.newNode).getD i d =
      BHTreeNode.newNode bb' := by
  have hmem : ((BBox3.subdivide bb).map BHTreeNode.newNode).getD i d ∈
      (BBox3.subdivide bb).map BHTreeNode.newNode :=
    List.getD_mem' (by rw [BHTreeNode.subdivideChildren_length]; exact hi)
  obtain ⟨box, _, heq⟩ := List.mem_map.1 hmem
  exact ⟨box, heq.symm⟩

theorem BHTreeNode.insert_into_empty (e : ℕ) (m : ℚ) (cm : V3) (bb : BBox3)
    (x : NBody) :
    BHTreeNode.insert (e + 1) (.mk m cm bb [] none) x =
      some (.mk x.mass x.position bb [] (some x)) := rfl

theorem BHTreeNode.insert_succ_leaf' (fuel : ℕ) (m : ℚ) (cm : V3) (bb : BBox3)
    (ob body : NBody) :
    BHTreeNode.insert (fuel + 1) (.mk m cm bb [] (some ob)) body =
      (BHTreeNode.insert fuel
          (.mk 0 bb.center bb ((BBox3.subdivide bb).map BHTreeNode.newNode) none) ob).bind
        (fun n1 => (BHTreeNode.insert fuel n1 body).map BHTreeNode.update) := by
  rw [BHTreeNode.insert_succ_leaf]
  rw [BHTreeNode.insert_top_irrel fuel (BHTreeNode.subdivideChildren_ne_nil bb) none ob]

theorem BHTreeNode.set_subdivideChildren_ne_nil (bb : BBox3) (i : ℕ) (c : BHTreeNode) :
    ((BBox3.subdivide bb).map BHTreeNode.newNode).set i c ≠ [] := by
  intro h
  have := congrArg List.length h
  rw [List.length_set, BHTreeNode.subdivideChildren_length] at this
  simp at this

theorem BHTreeNode.swap_pair :
    ∀ (g : ℕ) (bb : BBox3) (x y : NBody),
      BHTreeNode.insert g (.mk x.mass x.position bb [] (some x)) y =
        BHTreeNode.insert g (.mk y.mass y.position bb [] (some y)) x := by
  intro g
  induction g using Nat.strong_induction_on with
  | _ g ih =>
    match g with
    | 0 => intro bb x y; rfl
    | f + 1 =>
      intro bb x y
      rw [BHTreeNode.insert_succ_leaf' f x.mass x.position bb x y,
          BHTreeNode.insert_succ_leaf' f y.mass y.position bb y x]
      match f with
      | 0 => rfl
      | e + 1 =>
        rw [BHTreeNode.insert_succ_children' e 0 bb.center bb
            (BHTreeNode.subdivideChildren_ne_nil bb) none x,
          BHTreeNode.insert_succ_children' e 0 bb.center bb
            (BHTreeNode.subdivideChildren_ne_nil bb) none y]
        match e with
        | 0 => rfl
        | d + 1 =>
          obtain ⟨bbx, hbbx⟩ := BHTreeNode.subdivideChildren_getD_empty bb
            (bb.quadrant_index_for x.position)
            (BBox3.quadrant_index_lt_8 bb x.position) (BHTreeNode.newNode bb)
          obtain ⟨bby, hbby⟩ := BHTreeNode.subdivideChildren_getD_empty bb
            (bb.quadrant_index_for y.position)
            (BBox3.quadrant_index_lt_8 bb y.position) (BHTreeNode.newNode bb)
          rw [hbbx, hbby]
          rw [show BHTreeNode.insert (d + 1) (BHTreeNode.newNode bbx) x =
              some (.mk x.mass x.position bbx [] (some x)) from rfl,
            show BHTreeNode.insert (d + 1) (BHTreeNode.newNode bby) y =
              some (.mk y.mass y.position bby [] (some y)) from rfl]
          rw [Option.map_some', Option.map_some', Option.some_bind, Option.some_bind]
          rw [BHTreeNode.update_children 0 bb.center bb
              (BHTreeNode.set_subdivideChildren_ne_nil bb _ _),
            BHTreeNode.update_children 0 bb.center bb
              (BHTreeNode.set_subdivideChildren_ne_nil bb _ _)]
          rw [BHTreeNode.insert_succ_children' (d + 1) _ _ bb
              (BHTreeNode.set_subdivideChildren_ne_nil bb _ _) none y,
            BHTreeNode.insert_succ_children' (d + 1) _ _ bb
              (BHTreeNode.set_subdivideChildren_ne_nil bb _ _) none x]
          by_cases hxy : bb.quadrant_index_for x.position =
              bb.quadrant_index_for y.position
          · -- both bodies fall in the same octant: recurse via the
            -- induction hypothesis inside that child
            rw [← hxy] at hbby ⊢
            have hbbeq : bbx = bby :=
              congrArg BHTreeNode.bounds (hbbx.symm.trans hbby)
            subst hbbeq
            rw [list_getD_set_eq (by
                rw [BHTreeNode.subdivideChildren_length]
                exact BBox3.quadrant_index_lt_8 bb x.position) _ _,
              list_getD_set_eq (by
                rw [BHTreeNode.subdivideChildren_length]
                exact BBox3.quadrant_index_lt_8 bb x.position) _ _]
            rw [ih (d + 1) (by omega) bbx x y]
            simp only [List.set_set]
            cases BHTreeNode.insert (d + 1) (.mk y.mass y.position bbx [] (some y)) x with
            | none => rfl
            | some r =>
              simp only [Option.map_some']
              rw [BHTreeNode.update_update, BHTreeNode.update_update,
                BHTreeNode.update_mk_top_irrel
                  (Or.inl (BHTreeNode.set_subdivideChildren_ne_nil bb _ _))]
          · -- the two bodies fall in different octants: the two
            -- single-body child insertions commute
            rw [list_getD_set_ne hxy _ _, list_getD_set_ne (Ne.symm hxy) _ _,
              hbbx, hbby]
            rw [show BHTreeNode.insert (d + 1) (BHTreeNode.newNode bby) y =
                some (.mk y.mass y.position bby [] (some y)) from rfl,
              show BHTreeNode.insert (d + 1) (BHTreeNode.newNode bbx) x =
                some (.mk x.mass x.position bbx [] (some x)) from rfl]
            simp only [Option.map_some']
            rw [BHTreeNode.update_update, BHTreeNode.update_update]
            rw [List.set_comm _ _ _ hxy]
            rw [BHTreeNode.update_mk_top_irrel
              (Or.inl (by
                intro hcon
                have := congrArg List.length hcon
                rw [List.length_set, List.length_set,
                  BHTreeNode.subdivideChildren_length] at this
                simp at this))]

theorem BHTreeNode.insertNU_succ_children' (fuel : ℕ) (m : ℚ) (cm : V3) (bb : BBox3)
    {ch : List BHTreeNode} (h : ch ≠ []) (obody : Option NBody) (body : NBody) :
    BHTreeNode.insert_no_update (fuel + 1) (.mk m cm bb ch obody) body =
      (BHTreeNode.insert fuel
          (ch.getD (bb.quadrant_index_for body.position) (BHTreeNode.newNode bb))
          body).map
        (fun child' =>
          .mk m cm bb (ch.set (bb.quadrant_index_for body.position) child') obody) := by
  cases ch with
  | nil => exact absurd rfl h
  | cons c cs => rfl

theorem BHTreeNode.insertNU_succ_empty (fuel : ℕ) (m : ℚ) (cm : V3) (bb : BBox3)
    (body : NBody) :
    BHTreeNode.insert_no_update (fuel + 1) (.mk m cm bb [] none) body =
      some (.mk m cm bb [] (some body)) := rfl

theorem BHTreeNode.insertNU_succ_leaf (fuel : ℕ) (m : ℚ) (cm : V3) (bb : BBox3)
    (ob body : NBody) :
    BHTreeNode.insert_no_update (fuel + 1) (.mk m cm bb [] (some ob)) body =
      (BHTreeNode.insert_no_update fuel
          (.mk m cm bb ((BBox3.subdivide bb).map BHTreeNode.newNode) none) body).bind
        (fun n1 => BHTreeNode.insert_no_update fuel n1 ob) := rfl

theorem BHTreeNode.insertNU_eq_insert_setTop :
    ∀ (F : ℕ) (mB : ℚ) (cmB : V3) (tA : BHTreeNode) (b : NBody),
      BHTreeNode.insert_no_update F (BHTreeNode.setTopAgg mB cmB tA) b =
        (BHTreeNode.insert F tA b).map (BHTreeNode.setTopAgg mB cmB) := by
  intro F mB cmB tA b
  cases tA with
  | mk mA cmA bb ch obody =>
    show BHTreeNode.insert_no_update F (.mk mB cmB bb ch obody) b = _
    cases F with
    | zero => rfl
    | succ f =>
      cases ch with
      | cons c cs =>
        rw [BHTreeNode.insertNU_succ_children' f mB cmB bb (by simp) obody b,
          BHTreeNode.insert_succ_children' f mA cmA bb (by simp) obody b]
        cases BHTreeNode.insert f
            ((c :: cs).getD (bb.quadrant_index_for b.position) (BHTreeNode.newNode bb))
            b with
        | none => rfl
        | some child' =>
          simp only [Option.map_some']
          show _ = some (BHTreeNode.setTopAgg mB cmB (BHTreeNode.update _))
          congr 1
          cases obody with
          | some o => rfl
          | none =>
            rw [BHTreeNode.update_children mA cmA bb (by
              intro hcon
              have := congrArg List.length hcon
              rw [List.length_set] at this
              simp at this)]
            rfl
      | nil =>
        cases obody with
        | none => rfl
        | some ob =>
          rw [BHTreeNode.insertNU_succ_leaf f mB cmB bb ob b,
            BHTreeNode.insert_succ_leaf f mA cmA bb ob b]
          cases f with
          | zero => rfl
          | succ e =>
            rw [BHTreeNode.insertNU_succ_children' e mB cmB bb
                (BHTreeNode.subdivideChildren_ne_nil bb) none b,
              BHTreeNode.insert_succ_children' e mA cmA bb
                (BHTreeNode.subdivideChildren_ne_nil bb) none ob]
            cases e with
            | zero => rfl
            | succ d =>
              obtain ⟨bbo, hbbo⟩ := BHTreeNode.subdivideChildren_getD_empty bb
                (bb.quadrant_index_for ob.position)
                (BBox3.quadrant_index_lt_8 bb ob.position) (BHTreeNode.newNode bb)
              obtain ⟨bbb, hbbb⟩ := BHTreeNode.subdivideChildren_getD_empty bb
                (bb.quadrant_index_for b.position)
                (BBox3.quadrant_index_lt_8 bb b.position) (BHTreeNode.newNode bb)
              rw [hbbo, hbbb]
              rw [show BHTreeNode.insert (d + 1) (BHTreeNode.newNode bbo) ob =
                  some (.mk ob.mass ob.position bbo [] (some ob)) from rfl,
                show BHTreeNode.insert (d + 1) (BHTreeNode.newNode bbb) b =
                  some (.mk b.mass b.position bbb [] (some b)) from rfl]
              simp only [Option.map_some', Option.some_bind]
              rw [BHTreeNode.update_children mA cmA bb
                  (BHTreeNode.set_subdivideChildren_ne_nil bb _ _)]
              rw [BHTreeNode.insertNU_succ_children' (d + 1) mB cmB bb (by
                  intro hcon
                  have := congrArg List.length hcon
                  rw [List.length_set, BHTreeNode.subdivideChildren_length] at this
                  simp at this) none ob,
                BHTreeNode.insert_succ_children' (d + 1) _ _ bb (by
                  intro hcon
                  have := congrArg List.length hcon
                  rw [List.length_set, BHTreeNode.subdivideChildren_length] at this
                  simp at this) none b]
              by_cases hxy : bb.quadrant_index_for ob.position =
                  bb.quadrant_index_for b.position
              · rw [← hxy] at hbbb ⊢
                have hbbeq : bbo = bbb :=
                  congrArg BHTreeNode.bounds (hbbo.symm.trans hbbb)
                subst hbbeq
                rw [list_getD_set_eq (by
                    rw [BHTreeNode.subdivideChildren_length]
                    exact BBox3.quadrant_index_lt_8 bb ob.position) _ _,
                  list_getD_set_eq (by
                    rw [BHTreeNode.subdivideChildren_length]
                    exact BBox3.quadrant_index_lt_8 bb ob.position) _ _]
                rw [BHTreeNode.swap_pair (d + 1) bbo b ob]
                simp only [List.set_set]
                cases BHTreeNode.insert (d + 1)
                    (.mk ob.mass ob.position bbo [] (some ob)) b with
                | none => rfl
                | some r =>
                  simp only [Option.map_some']
                  rw [BHTreeNode.update_update]
                  rw [BHTreeNode.update_children _ _ bb
                    (BHTreeNode.set_subdivideChildren_ne_nil bb _ _)]
                  rfl
              · rw [list_getD_set_ne (Ne.symm hxy) _ _, list_getD_set_ne hxy _ _,
                  hbbo, hbbb]
                rw [show BHTreeNode.insert (d + 1) (BHTreeNode.newNode bbo) ob =
                    some (.mk ob.mass ob.position bbo [] (some ob)) from rfl,
                  show BHTreeNode.insert (d + 1) (BHTreeNode.newNode bbb) b =
                    some (.mk b.mass b.position bbb [] (some b)) from rfl]
                simp only [Option.map_some']
                rw [BHTreeNode.update_update]
                rw [List.set_comm _ _ _ hxy]
                rw [BHTreeNode.update_children _ _ bb (by
                  intro hcon
                  have := congrArg List.length hcon
                  rw [List.length_set, List.length_set,
                    BHTreeNode.subdivideChildren_length] at this
                  simp at this)]
                rfl

/-- Model of the bulk-build variant: insert every body with
`insert_no_update`, starting from a fresh root (callers then run
`update_all` once, as in the commented-out alternative of
`BHTreeNode::from`). -/
def BHTreeNode.fromBodiesNoUpdate (fuel : ℕ) (bounds : BBox3) (bodies : List NBody) :
    Option BHTreeNode :=
  bodies.foldl (fun acc b => acc.bind (fun t => BHTreeNode.insert_no_update fuel t b))
    (some (BHTreeNode.newNode bounds))

theorem BHTreeNode.foldl_insertNU_none (fuel : ℕ) (l : List NBody) :
    l.foldl (fun acc b => acc.bind (fun t => BHTreeNode.insert_no_update fuel t b))
      none = none := by
  induction l with
  | nil => rfl
  | cons b bs ih => simpa using ih

theorem BHTreeNode.foldl_insertNU_setTop (fuel : ℕ) :
    ∀ (l : List NBody) (mB : ℚ) (cmB : V3) (t0 : BHTreeNode),
      l.foldl (fun acc b => acc.bind (fun t => BHTreeNode.insert_no_update fuel t b))
        (some (BHTreeNode.setTopAgg mB cmB t0)) =
      (l.foldl (fun acc b => acc.bind (fun t => BHTreeNode.insert fuel t b))
        (some t0)).map (BHTreeNode.setTopAgg mB cmB) := by
  intro l
  induction l with
  | nil => intro mB cmB t0; rfl
  | cons b bs ih =>
    intro mB cmB t0
    simp only [List.foldl_cons, Option.some_bind]
    rw [BHTreeNode.insertNU_eq_insert_setTop fuel mB cmB t0 b]
    cases BHTreeNode.insert fuel t0 b with
    | none =>
      simp only [Option.map_none']
      rw [BHTreeNode.foldl_insertNU_none, BHTreeNode.foldl_insert_none]
      rfl
    | some t1 =>
      simp only [Option.map_some']
      exact ih mB cmB t1

theorem BHTreeNode.update_all_setTopAgg {tA : BHTreeNode} (hInv : tA.Inv)
    (m : ℚ) (cm : V3) (hcond : tA.children ≠ [] ∨ tA.body.isSome = true) :
    BHTreeNode.update_all (BHTreeNode.setTopAgg m cm tA) = tA := by
  cases tA with
  | mk mA cmA bb ch obody =>
    show BHTreeNode.update_all (.mk m cm bb ch obody) = _
    have hch : BHTreeNode.update_all_list ch = ch :=
      BHTreeNode.update_all_list_eq
        (fun c hc => BHTreeNode.update_all_of_inv c
          ((BHTreeNode.InvList_iff ch).1 hInv.1 c hc))
    show BHTreeNode.update (.mk m cm bb (BHTreeNode.update_all_list ch) obody) = _
    rw [hch]
    have hup : BHTreeNode.update (.mk m cm bb ch obody) =
        BHTreeNode.update (.mk mA cmA bb ch obody) :=
      BHTreeNode.update_mk_top_irrel hcond
    rw [hup]
    exact BHTreeNode.update_of_inv hInv

/-- Claim C7: for every bounding box and every finite body sequence with
pairwise distinct positions, inserting each body with `insert_no_update`
and then calling `update_all` once produces exactly the same tree — same
shape and identical aggregate mass and center of mass at every node — as
inserting each body with `insert` (arithmetic interpreted exactly, so
"bit for bit" is equality of the exact values; both runs are given the
same fuel and both are assumed to succeed). -/
theorem claim_C7_bulk_insert_equiv (fuel : ℕ) (bounds : BBox3) (l : List NBody)
    (tA tB : BHTreeNode)
    (_hdist : l.Pairwise (fun a b => a.position ≠ b.position))
    (hA : BHTreeNode.fromBodies fuel bounds l = some tA)
    (hB : BHTreeNode.fromBodiesNoUpdate fuel bounds l = some tB) :
    BHTreeNode.update_all tB = tA := by
  obtain ⟨hInv, _, hbounds⟩ := BHTreeNode.fromBodies_inv hA
  have hstart : BHTreeNode.newNode bounds =
      BHTreeNode.setTopAgg 0 bounds.center (BHTreeNode.newNode bounds) := rfl
  unfold BHTreeNode.fromBodiesNoUpdate at hB
  rw [hstart, BHTreeNode.foldl_insertNU_setTop] at hB
  have hA' : l.foldl (fun acc b => acc.bind (fun t => BHTreeNode.insert fuel t b))
      (some (BHTreeNode.newNode bounds)) = some tA := hA
  rw [hA', Option.map_some'] at hB
  injection hB with hB'
  subst hB'
  cases htA : tA with
  | mk mA cmA bb ch obody =>
    cases ch with
    | cons c cs =>
      exact BHTreeNode.update_all_setTopAgg (htA ▸ hInv) 0 bounds.center
        (Or.inl (fun hcon => List.noConfusion hcon))
    | nil =>
      cases obody with
      | some ob =>
        exact BHTreeNode.update_all_setTopAgg (htA ▸ hInv) 0 bounds.center
          (Or.inr rfl)
      | none =>
        -- the empty tree: the invariant pins its aggregates to zero mass
        -- and the box center, and its bounds to the given bounds, so the
        -- top replacement is the identity
        have hInv' := htA ▸ hInv
        obtain ⟨_, hm, hcm⟩ := hInv'
        have hbb : bb = bounds := by
          have := htA ▸ hbounds
          exact this
        subst hm
        subst hbb
        rw [hcm]
        rfl

theorem claim_C7_witness :
    ([NBody.mk 0 ⟨0, 0, 0⟩ 1 0].Pairwise (fun a b => a.position ≠ b.position)) ∧
    BHTreeNode.fromBodies 1 ⟨⟨0, 0, 0⟩, ⟨1, 1, 1⟩⟩ [NBody.mk 0 ⟨0, 0, 0⟩ 1 0] =
      some (.mk 1 ⟨0, 0, 0⟩ ⟨⟨0, 0, 0⟩, ⟨1, 1, 1⟩⟩ [] (some (NBody.mk 0 ⟨0, 0, 0⟩ 1 0))) ∧
    BHTreeNode.fromBodiesNoUpdate 1 ⟨⟨0, 0, 0⟩, ⟨1, 1, 1⟩⟩ [NBody.mk 0 ⟨0, 0, 0⟩ 1 0] =
      some (.mk 0 (BBox3.center ⟨⟨0, 0, 0⟩, ⟨1, 1, 1⟩⟩) ⟨⟨0, 0, 0⟩, ⟨1, 1, 1⟩⟩ []
        (some (NBody.mk 0 ⟨0, 0, 0⟩ 1 0))) ∧
    BHTreeNode.update_all
        (.mk 0 (BBox3.center ⟨⟨0, 0, 0⟩, ⟨1, 1, 1⟩⟩) ⟨⟨0, 0, 0⟩, ⟨1, 1, 1⟩⟩ []
          (some (NBody.mk 0 ⟨0, 0, 0⟩ 1 0))) =
      .mk 1 ⟨0, 0, 0⟩ ⟨⟨0, 0, 0⟩, ⟨1, 1, 1⟩⟩ [] (some (NBody.mk 0 ⟨0, 0, 0⟩ 1 0)) :=
  ⟨List.pairwise_singleton _ _, rfl, rfl,
    claim_C7_bulk_insert_equiv 1 ⟨⟨0, 0, 0⟩, ⟨1, 1, 1⟩⟩ [NBody.mk 0 ⟨0, 0, 0⟩ 1 0] _ _
      (List.pairwise_singleton _ _) rfl rfl⟩

/-! ### Claim C8: building from distinct contained bodies terminates -/

theorem list_getD_map {α β : Type} (f : α → β) (l : List α) (i : ℕ) (d : α) :
    (l.map f).getD i (f d) = f (l.getD i d) := by
  induction l generalizing i with
  | nil => simp [List.getD]
  | cons a as ih =>
    cases i with
    | zero => simp [List.getD]
    | succ i => simp only [List.map_cons, List.getD_cons_succ]
                exact ih i

theorem list_getD_default_irrel {α : Type} {l : List α} {i : ℕ} (h : i < l.length)
    (d1 d2 : α) : l.getD i d1 = l.getD i d2 := by
  induction l generalizing i with
  | nil => simp at h
  | cons a as ih =>
    cases i with
    | zero => rfl
    | succ i => exact ih (by simpa using h)

theorem list_set_getD_self {α : Type} {l : List α} {i : ℕ} (h : i < l.length) (d : α) :
    l.set i (l.getD i d) = l := by
  induction l generalizing i with
  | nil => rfl
  | cons a as ih =>
    cases i with
    | zero => rfl
    | succ i =>
      show a :: as.set i (as.getD i d) = a :: as
      rw [ih (by simpa using h)]

mutual

/-- Geometric well-formedness of a tree: each box satisfies `min ≤ max`,
a stored body lies inside its node's box, and the children's boxes are
exactly the `subdivide` of the parent box, in index order. -/
def BHTreeNode.GeomWF : BHTreeNode → Prop
  | .mk _ _ bb ch obody =>
    bb.WF ∧
    (∀ b, obody = some b → bb.contains b.position) ∧
    (ch = [] ∨ ch.map BHTreeNode.bounds = bb.subdivide) ∧
    BHTreeNode.GeomWFList ch

def BHTreeNode.GeomWFList : List BHTreeNode → Prop
  | [] => True
  | c :: cs => BHTreeNode.GeomWF c ∧ BHTreeNode.GeomWFList cs

end

theorem BHTreeNode.GeomWFList_iff (l : List BHTreeNode) :
    BHTreeNode.GeomWFList l ↔ ∀ c ∈ l, BHTreeNode.GeomWF c := by
  induction l with
  | nil => simp [BHTreeNode.GeomWFList]
  | cons c cs ih =>
    rw [show BHTreeNode.GeomWFList (c :: cs) =
      (BHTreeNode.GeomWF c ∧ BHTreeNode.GeomWFList cs) from rfl, ih]
    simp

theorem BBox3.subdivide_mem_wf {bb : BBox3} {box : BBox3}
    (h : box ∈ bb.subdivide) : box.WF := by
  unfold BBox3.subdivide at h
  simp only [List.mem_cons, List.not_mem_nil, or_false] at h
  rcases h with rfl | rfl | rfl | rfl | rfl | rfl | rfl | rfl <;> exact BBox3.new_wf _ _

theorem BHTreeNode.GeomWF_newNode {bb : BBox3} (h : bb.WF) :
    (BHTreeNode.newNode bb).GeomWF := by
  refine ⟨h, ?_, Or.inl rfl, trivial⟩
  intro b hb
  cases hb

theorem BHTreeNode.GeomWFList_subdivide {bb : BBox3} (_h : bb.WF) :
    BHTreeNode.GeomWFList ((BBox3.subdivide bb).map BHTreeNode.newNode) := by
  rw [BHTreeNode.GeomWFList_iff]
  intro c hc
  obtain ⟨box, hbox, rfl⟩ := List.mem_map.1 hc
  exact BHTreeNode.GeomWF_newNode (BBox3.subdivide_mem_wf hbox)

theorem BHTreeNode.map_bounds_subdivide (bb : BBox3) :
    ((BBox3.subdivide bb).map BHTreeNode.newNode).map BHTreeNode.bounds =
      bb.subdivide := by
  rw [List.map_map]
  exact List.map_id _

theorem BHTreeNode.GeomWFList_set {l : List BHTreeNode} {c' : BHTreeNode} {ix : ℕ}
    (hl : BHTreeNode.GeomWFList l) (hc : c'.GeomWF) :
    BHTreeNode.GeomWFList (l.set ix c') := by
  rw [BHTreeNode.GeomWFList_iff] at hl ⊢
  intro c hcmem
  rcases List.mem_or_eq_of_mem_set hcmem with hmem | rfl
  · exact hl c hmem
  · exact hc

theorem BHTreeNode.insert_bounds :
    ∀ (fuel : ℕ) (t : BHTreeNode) (b : NBody) (t' : BHTreeNode),
      BHTreeNode.insert fuel t b = some t' → t'.bounds = t.bounds := by
  intro fuel
  induction fuel with
  | zero =>
    intro t b t' he
    cases he
  | succ fuel ih =>
    intro t b t' he
    cases t with
    | mk m cm bb ch obody =>
      cases ch with
      | cons c cs =>
        rw [BHTreeNode.insert_succ_children] at he
        rcases Option.map_eq_some'.1 he with ⟨child', _, rfl⟩
        rw [BHTreeNode.bounds_update]
        rfl
      | nil =>
        cases obody with
        | none =>
          rw [BHTreeNode.insert_succ_empty] at he
          injection he with he'
          subst he'
          rfl
        | some ob =>
          rw [BHTreeNode.insert_succ_leaf] at he
          rcases Option.bind_eq_some.1 he with ⟨n1, hn1, hrest⟩
          rcases Option.map_eq_some'.1 hrest with ⟨n2, hn2, rfl⟩
          rw [BHTreeNode.bounds_update, ih _ b n2 hn2, ih _ ob n1 hn1]
          rfl

theorem BHTreeNode.GeomWF_update {t : BHTreeNode} (h : t.GeomWF) :
    (BHTreeNode.update t).GeomWF := by
  cases t with
  | mk m cm bb ch obody =>
    cases obody with
    | some b =>
      rw [BHTreeNode.update_body_some]
      exact h
    | none =>
      cases ch with
      | nil => exact h
      | cons c cs =>
        rw [BHTreeNode.update_children _ _ _ (by simp)]
        exact h

theorem BHTreeNode.insert_geom :
    ∀ (fuel : ℕ) (t : BHTreeNode) (b : NBody) (t' : BHTreeNode),
      t.GeomWF → t.bounds.contains b.position →
      BHTreeNode.insert fuel t b = some t' → t'.GeomWF := by
  intro fuel
  induction fuel with
  | zero =>
    intro t b t' _ _ he
    cases he
  | succ fuel ih =>
    intro t b t' hgeom hcont he
    cases t with
    | mk m cm bb ch obody =>
      obtain ⟨hwf, hbody, hsub, hlist⟩ := hgeom
      cases ch with
      | cons c cs =>
        have hmap : (c :: cs).map BHTreeNode.bounds = bb.subdivide := by
          rcases hsub with h' | h'
          · exact absurd h' (by simp)
          · exact h'
        have hlen8 : (c :: cs).length = 8 := by
          have := congrArg List.length hmap
          rw [List.length_map] at this
          rw [this]
          unfold BBox3.subdivide
          simp
        rw [BHTreeNode.insert_succ_children] at he
        rcases Option.map_eq_some'.1 he with ⟨child', hchild, rfl⟩
        have hix : bb.quadrant_index_for b.position < (c :: cs).length := by
          rw [hlen8]
          exact BBox3.quadrant_index_lt_8 bb b.position
        have hchildwf : ((c :: cs).getD (bb.quadrant_index_for b.position)
            (BHTreeNode.newNode bb)).GeomWF :=
          (BHTreeNode.GeomWFList_iff _).1 hlist _ (List.getD_mem' hix)
        have hchildbounds : ((c :: cs).getD (bb.quadrant_index_for b.position)
            (BHTreeNode.newNode bb)).bounds =
            (bb.subdivide).getD (bb.quadrant_index_for b.position)
              (BBox3.new V3.zero V3.zero) := by
          have h1 := list_getD_map BHTreeNode.bounds (c :: cs)
            (bb.quadrant_index_for b.position) (BHTreeNode.newNode bb)
          rw [hmap] at h1
          rw [← h1]
          exact (list_getD_default_irrel (by
            rw [← hmap, List.length_map]
            exact hix) _ _).symm
        have hchildcont : ((c :: cs).getD (bb.quadrant_index_for b.position)
            (BHTreeNode.newNode bb)).bounds.contains b.position := by
          rw [hchildbounds]
          exact BBox3.subdivide_quadrant_contains hwf hcont
        have hchild'wf := ih _ b child' hchildwf hchildcont hchild
        have hchild'bounds := BHTreeNode.insert_bounds fuel _ b child' hchild
        apply BHTreeNode.GeomWF_update
        refine ⟨hwf, hbody, Or.inr ?_, BHTreeNode.GeomWFList_set hlist hchild'wf⟩
        rw [List.map_set, hchild'bounds]
        have hgd := list_getD_map BHTreeNode.bounds (c :: cs)
          (bb.quadrant_index_for b.position) (BHTreeNode.newNode bb)
        rw [← hgd, list_set_getD_self (by rw [List.length_map]; exact hix), hmap]
      | nil =>
        cases obody with
        | none =>
          rw [BHTreeNode.insert_succ_empty] at he
          injection he with he'
          subst he'
          rw [BHTreeNode.update_body_some]
          refine ⟨hwf, ?_, Or.inl rfl, trivial⟩
          intro x hx
          injection hx with hx'
          subst hx'
          exact hcont
        | some ob =>
          rw [BHTreeNode.insert_succ_leaf] at he
          rcases Option.bind_eq_some.1 he with ⟨n1, hn1, hrest⟩
          rcases Option.map_eq_some'.1 hrest with ⟨n2, hn2, rfl⟩
          have hn'geom : (BHTreeNode.mk m cm bb
              ((BBox3.subdivide bb).map BHTreeNode.newNode) none).GeomWF := by
            refine ⟨hwf, ?_, Or.inr (BHTreeNode.map_bounds_subdivide bb),
              BHTreeNode.GeomWFList_subdivide hwf⟩
            intro x hx
            cases hx
          have hobcont : bb.contains ob.position := hbody ob rfl
          have h1 := ih _ ob n1 hn'geom hobcont hn1
          have hb1 : n1.bounds = bb := BHTreeNode.insert_bounds fuel _ ob n1 hn1
          have h2 := ih _ b n2 h1 (by rw [hb1]; exact hcont) hn2
          exact BHTreeNode.GeomWF_update h2

theorem BHTreeNode.insert_mono :
    ∀ (F F' : ℕ) (t : BHTreeNode) (b : NBody) (t' : BHTreeNode), F ≤ F' →
      BHTreeNode.insert F t b = some t' → BHTreeNode.insert F' t b = some t' := by
  intro F
  induction F with
  | zero =>
    intro F' t b t' _ he
    cases he
  | succ f ih =>
    intro F' t b t' hle he
    cases F' with
    | zero => omega
    | succ f' =>
      have hle' : f ≤ f' := by omega
      cases t with
      | mk m cm bb ch obody =>
        cases ch with
        | cons c cs =>
          rw [BHTreeNode.insert_succ_children] at he ⊢
          rcases Option.map_eq_some'.1 he with ⟨child', hc, rfl⟩
          rw [ih f' _ b child' hle' hc]
          rfl
        | nil =>
          cases obody with
          | none => exact he
          | some ob =>
            rw [BHTreeNode.insert_succ_leaf] at he ⊢
            rcases Option.bind_eq_some.1 he with ⟨n1, hn1, hrest⟩
            rcases Option.map_eq_some'.1 hrest with ⟨n2, hn2, rfl⟩
            rw [ih f' _ ob n1 hle' hn1, Option.some_bind, ih f' n1 b n2 hle' hn2]
            rfl

theorem BHTreeNode.foldl_insert_mono (l : List NBody) :
    ∀ (F F' : ℕ) (t0 t : BHTreeNode), F ≤ F' →
      l.foldl (fun acc b => acc.bind (fun s => BHTreeNode.insert F s b)) (some t0) =
        some t →
      l.foldl (fun acc b => acc.bind (fun s => BHTreeNode.insert F' s b)) (some t0) =
        some t := by
  induction l with
  | nil =>
    intro F F' t0 t _ he
    exact he
  | cons b bs ih =>
    intro F F' t0 t hle he
    simp only [List.foldl_cons, Option.some_bind] at he ⊢
    cases hres : BHTreeNode.insert F t0 b with
    | none =>
      rw [hres, BHTreeNode.foldl_insert_none] at he
      cases he
    | some t1 =>
      rw [hres] at he
      rw [BHTreeNode.insert_mono F F' t0 b t1 hle hres]
      exact ih F F' t1 t hle he

/-- Separation bound: along some axis where `p` and `q` differ, the box
width is less than `2 ^ k` times the coordinate gap, so at most `k`
halvings separate the two points. -/
def SepBound (bb : BBox3) (p q : V3) (k : ℕ) : Prop :=
  (p.x ≠ q.x ∧ bb.pmax.x - bb.pmin.x < |p.x - q.x| * 2 ^ k) ∨
  (p.y ≠ q.y ∧ bb.pmax.y - bb.pmin.y < |p.y - q.y| * 2 ^ k) ∨
  (p.z ≠ q.z ∧ bb.pmax.z - bb.pmin.z < |p.z - q.z| * 2 ^ k)

theorem sep_exists (bb : BBox3) (p q : V3) (hne : p ≠ q) :
    ∃ k, SepBound bb p q k := by
  have haxis : p.x ≠ q.x ∨ p.y ≠ q.y ∨ p.z ≠ q.z := by
    by_contra hcon
    push_neg at hcon
    obtain ⟨h1, h2, h3⟩ := hcon
    apply hne
    cases p
    cases q
    simp only [V3.mk.injEq]
    exact ⟨h1, h2, h3⟩
  rcases haxis with hax | hax | hax
  · have hpos : 0 < |p.x - q.x| := abs_pos.2 (sub_ne_zero.2 hax)
    obtain ⟨n, hn⟩ := pow_unbounded_of_one_lt
      ((bb.pmax.x - bb.pmin.x) / |p.x - q.x|) (by norm_num : (1 : ℚ) < 2)
    exact ⟨n, Or.inl ⟨hax, by
      rw [div_lt_iff₀ hpos] at hn
      linarith [hn]⟩⟩
  · have hpos : 0 < |p.y - q.y| := abs_pos.2 (sub_ne_zero.2 hax)
    obtain ⟨n, hn⟩ := pow_unbounded_of_one_lt
      ((bb.pmax.y - bb.pmin.y) / |p.y - q.y|) (by norm_num : (1 : ℚ) < 2)
    exact ⟨n, Or.inr (Or.inl ⟨hax, by
      rw [div_lt_iff₀ hpos] at hn
      linarith [hn]⟩)⟩
  · have hpos : 0 < |p.z - q.z| := abs_pos.2 (sub_ne_zero.2 hax)
    obtain ⟨n, hn⟩ := pow_unbounded_of_one_lt
      ((bb.pmax.z - bb.pmin.z) / |p.z - q.z|) (by norm_num : (1 : ℚ) < 2)
    exact ⟨n, Or.inr (Or.inr ⟨hax, by
      rw [div_lt_iff₀ hpos] at hn
      linarith [hn]⟩)⟩

theorem sep_zero_absurd {bb : BBox3} {p q : V3} (hs : SepBound bb p q 0)
    (hp : bb.contains p) (hq : bb.contains q) : False := by
  obtain ⟨⟨hp1, hp2⟩, ⟨hp3, hp4⟩, ⟨hp5, hp6⟩⟩ := (BBox3.contains_iff bb p).1 hp
  obtain ⟨⟨hq1, hq2⟩, ⟨hq3, hq4⟩, ⟨hq5, hq6⟩⟩ := (BBox3.contains_iff bb q).1 hq
  rcases hs with ⟨_, hlt⟩ | ⟨_, hlt⟩ | ⟨_, hlt⟩
  · have habs : |p.x - q.x| ≤ bb.pmax.x - bb.pmin.x :=
      abs_le.2 ⟨by linarith, by linarith⟩
    rw [pow_zero, mul_one] at hlt
    linarith
  · have habs : |p.y - q.y| ≤ bb.pmax.y - bb.pmin.y :=
      abs_le.2 ⟨by linarith, by linarith⟩
    rw [pow_zero, mul_one] at hlt
    linarith
  · have habs : |p.z - q.z| ≤ bb.pmax.z - bb.pmin.z :=
      abs_le.2 ⟨by linarith, by linarith⟩
    rw [pow_zero, mul_one] at hlt
    linarith

theorem BBox3.new_width_x (p1 p2 : V3) :
    (BBox3.new p1 p2).pmax.x - (BBox3.new p1 p2).pmin.x = |p1.x - p2.x| := by
  unfold BBox3.new
  dsimp only
  split_ifs with h
  · rw [abs_sub_comm, abs_of_pos (by linarith)]
  · rw [abs_of_nonneg (by linarith)]

theorem BBox3.new_width_y (p1 p2 : V3) :
    (BBox3.new p1 p2).pmax.y - (BBox3.new p1 p2).pmin.y = |p1.y - p2.y| := by
  unfold BBox3.new
  dsimp only
  split_ifs with h
  · rw [abs_sub_comm, abs_of_pos (by linarith)]
  · rw [abs_of_nonneg (by linarith)]

theorem BBox3.new_width_z (p1 p2 : V3) :
    (BBox3.new p1 p2).pmax.z - (BBox3.new p1 p2).pmin.z = |p1.z - p2.z| := by
  unfold BBox3.new
  dsimp only
  split_ifs with h
  · rw [abs_sub_comm, abs_of_pos (by linarith)]
  · rw [abs_of_nonneg (by linarith)]

theorem BBox3.center_dists {bb : BBox3} (hwf : bb.WF) :
    |bb.pmin.x - bb.center.x| = (bb.pmax.x - bb.pmin.x) / 2 ∧
    |bb.pmax.x - bb.center.x| = (bb.pmax.x - bb.pmin.x) / 2 ∧
    |bb.pmin.y - bb.center.y| = (bb.pmax.y - bb.pmin.y) / 2 ∧
    |bb.pmax.y - bb.center.y| = (bb.pmax.y - bb.pmin.y) / 2 ∧
    |bb.pmin.z - bb.center.z| = (bb.pmax.z - bb.pmin.z) / 2 ∧
    |bb.pmax.z - bb.center.z| = (bb.pmax.z - bb.pmin.z) / 2 := by
  obtain ⟨h1, h2, h3⟩ := hwf
  unfold BBox3.center
  dsimp only
  refine ⟨?_, ?_, ?_, ?_, ?_, ?_⟩
  · rw [show bb.pmin.x - (bb.pmin.x + (bb.pmax.x - bb.pmin.x) / 2) =
      -((bb.pmax.x - bb.pmin.x) / 2) from by ring, abs_neg,
      abs_of_nonneg (by linarith)]
  · rw [show bb.pmax.x - (bb.pmin.x + (bb.pmax.x - bb.pmin.x) / 2) =
      (bb.pmax.x - bb.pmin.x) / 2 from by ring, abs_of_nonneg (by linarith)]
  · rw [show bb.pmin.y - (bb.pmin.y + (bb.pmax.y - bb.pmin.y) / 2) =
      -((bb.pmax.y - bb.pmin.y) / 2) from by ring, abs_neg,
      abs_of_nonneg (by linarith)]
  · rw [show bb.pmax.y - (bb.pmin.y + (bb.pmax.y - bb.pmin.y) / 2) =
      (bb.pmax.y - bb.pmin.y) / 2 from by ring, abs_of_nonneg (by linarith)]
  · rw [show bb.pmin.z - (bb.pmin.z + (bb.pmax.z - bb.pmin.z) / 2) =
      -((bb.pmax.z - bb.pmin.z) / 2) from by ring, abs_neg,
      abs_of_nonneg (by linarith)]
  · rw [show bb.pmax.z - (bb.pmin.z + (bb.pmax.z - bb.pmin.z) / 2) =
      (bb.pmax.z - bb.pmin.z) / 2 from by ring, abs_of_nonneg (by linarith)]

theorem BBox3.subdivide_mem_width {bb : BBox3} (hwf : bb.WF) {box : BBox3}
    (h : box ∈ bb.subdivide) :
    box.pmax.x - box.pmin.x = (bb.pmax.x - bb.pmin.x) / 2 ∧
    box.pmax.y - box.pmin.y = (bb.pmax.y - bb.pmin.y) / 2 ∧
    box.pmax.z - box.pmin.z = (bb.pmax.z - bb.pmin.z) / 2 := by
  obtain ⟨hc1, hc2, hc3, hc4, hc5, hc6⟩ := BBox3.center_dists hwf
  unfold BBox3.subdivide at h
  simp only [List.mem_cons, List.not_mem_nil, or_false] at h
  rcases h with rfl | rfl | rfl | rfl | rfl | rfl | rfl | rfl <;>
    exact ⟨by rw [BBox3.new_width_x]; first | exact hc1 | exact hc2,
      by rw [BBox3.new_width_y]; first | exact hc3 | exact hc4,
      by rw [BBox3.new_width_z]; first | exact hc5 | exact hc6⟩

theorem sep_step {bb : BBox3} (hwf : bb.WF) {p q : V3} {k : ℕ}
    (hs : SepBound bb p q (k + 1)) {box : BBox3} (hbox : box ∈ bb.subdivide) :
    SepBound box p q k := by
  obtain ⟨hwx, hwy, hwz⟩ := BBox3.subdivide_mem_width hwf hbox
  have h2k : (0 : ℚ) < 2 ^ k := by positivity
  rcases hs with ⟨hne, hlt⟩ | ⟨hne, hlt⟩ | ⟨hne, hlt⟩
  · refine Or.inl ⟨hne, ?_⟩
    rw [hwx]
    rw [pow_succ] at hlt
    linarith
  · refine Or.inr (Or.inl ⟨hne, ?_⟩)
    rw [hwy]
    rw [pow_succ] at hlt
    linarith
  · refine Or.inr (Or.inr ⟨hne, ?_⟩)
    rw [hwz]
    rw [pow_succ] at hlt
    linarith

theorem BBox3.subdivide_length (bb : BBox3) : (bb.subdivide).length = 8 := by
  unfold BBox3.subdivide
  simp

theorem BHTreeNode.pair_total :
    ∀ (k : ℕ) (bb : BBox3) (m : ℚ) (cm : V3) (ob b : NBody),
      bb.WF → bb.contains ob.position → bb.contains b.position →
      SepBound bb ob.position b.position k →
      ∃ F t', BHTreeNode.insert F (.mk m cm bb [] (some ob)) b = some t' := by
  intro k
  induction k with
  | zero =>
    intro bb m cm ob b _ hcob hcb hsep
    exact (sep_zero_absurd hsep hcob hcb).elim
  | succ k ihk =>
    intro bb m cm ob b hwf hcob hcb hsep
    have hlto : bb.quadrant_index_for ob.position < (bb.subdivide).length := by
      rw [BBox3.subdivide_length]
      exact BBox3.quadrant_index_lt_8 bb ob.position
    have hltb : bb.quadrant_index_for b.position < (bb.subdivide).length := by
      rw [BBox3.subdivide_length]
      exact BBox3.quadrant_index_lt_8 bb b.position
    by_cases hix : bb.quadrant_index_for ob.position = bb.quadrant_index_for b.position
    · -- both in the same octant: recurse into the sub-box
      have hgdo :
          ((BBox3.subdivide bb).map BHTreeNode.newNode).getD
            (bb.quadrant_index_for ob.position) (BHTreeNode.newNode bb) =
          BHTreeNode.newNode
            ((bb.subdivide).getD (bb.quadrant_index_for ob.position) bb) :=
        list_getD_map BHTreeNode.newNode (bb.subdivide)
          (bb.quadrant_index_for ob.position) bb
      have hmem : (bb.subdivide).getD (bb.quadrant_index_for ob.position) bb ∈
          bb.subdivide := List.getD_mem' hlto
      have hwfI := BBox3.subdivide_mem_wf hmem
      have hcobI : ((bb.subdivide).getD (bb.quadrant_index_for ob.position) bb).contains
          ob.position := by
        have h1 := BBox3.subdivide_quadrant_contains hwf hcob
        rwa [list_getD_default_irrel hlto (BBox3.new V3.zero V3.zero) bb] at h1
      have hcbI : ((bb.subdivide).getD (bb.quadrant_index_for ob.position) bb).contains
          b.position := by
        have h1 := BBox3.subdivide_quadrant_contains hwf hcb
        rw [← hix] at h1
        rwa [list_getD_default_irrel hlto (BBox3.new V3.zero V3.zero) bb] at h1
      have hsepI : SepBound ((bb.subdivide).getD (bb.quadrant_index_for ob.position) bb)
          ob.position b.position k := sep_step hwf hsep hmem
      obtain ⟨Fc, t'', hFc⟩ := ihk _ ob.mass ob.position ob b hwfI hcobI hcbI hsepI
      obtain ⟨e, rfl⟩ : ∃ e, Fc = e + 1 := by
        cases Fc with
        | zero => cases hFc
        | succ e => exact ⟨e, rfl⟩
      refine ⟨(e + 2) + 1, Option.isSome_iff_exists.mp ?_⟩
      rw [BHTreeNode.insert_succ_leaf (e + 2) m cm bb ob b]
      rw [BHTreeNode.insert_succ_children' (e + 1) m cm bb
        (BHTreeNode.subdivideChildren_ne_nil bb) none ob]
      rw [hgdo]
      rw [show BHTreeNode.insert (e + 1)
          (BHTreeNode.newNode ((bb.subdivide).getD (bb.quadrant_index_for ob.position) bb))
          ob = some (.mk ob.mass ob.position
            ((bb.subdivide).getD (bb.quadrant_index_for ob.position) bb) [] (some ob))
        from rfl]
      simp only [Option.map_some', Option.some_bind]
      rw [BHTreeNode.update_children m cm bb
        (BHTreeNode.set_subdivideChildren_ne_nil bb _ _)]
      rw [BHTreeNode.insert_succ_children' (e + 1) _ _ bb (by
        intro hcon
        have := congrArg List.length hcon
        rw [List.length_set, BHTreeNode.subdivideChildren_length] at this
        simp at this) none b]
      rw [← hix]
      rw [list_getD_set_eq (by
        rw [BHTreeNode.subdivideChildren_length]
        exact BBox3.quadrant_index_lt_8 bb ob.position) _ _]
      rw [hFc]
      simp only [Option.map_some']
      rfl
    · -- different octants: three units of fuel suffice
      have hgdo :
          ((BBox3.subdivide bb).map BHTreeNode.newNode).getD
            (bb.quadrant_index_for ob.position) (BHTreeNode.newNode bb) =
          BHTreeNode.newNode
            ((bb.subdivide).getD (bb.quadrant_index_for ob.position) bb) :=
        list_getD_map BHTreeNode.newNode (bb.subdivide)
          (bb.quadrant_index_for ob.position) bb
      have hgdb :
          ((BBox3.subdivide bb).map BHTreeNode.newNode).getD
            (bb.quadrant_index_for b.position) (BHTreeNode.newNode bb) =
          BHTreeNode.newNode
            ((bb.subdivide).getD (bb.quadrant_index_for b.position) bb) :=
        list_getD_map BHTreeNode.newNode (bb.subdivide)
          (bb.quadrant_index_for b.position) bb
      refine ⟨2 + 1, Option.isSome_iff_exists.mp ?_⟩
      rw [BHTreeNode.insert_succ_leaf 2 m cm bb ob b]
      rw [BHTreeNode.insert_succ_children' 1 m cm bb
        (BHTreeNode.subdivideChildren_ne_nil bb) none ob]
      rw [hgdo]
      rw [show BHTreeNode.insert 1
          (BHTreeNode.newNode ((bb.subdivide).getD (bb.quadrant_index_for ob.position) bb))
          ob = some (.mk ob.mass ob.position
            ((bb.subdivide).getD (bb.quadrant_index_for ob.position) bb) [] (some ob))
        from rfl]
      simp only [Option.map_some', Option.some_bind]
      rw [BHTreeNode.update_children m cm bb
        (BHTreeNode.set_subdivideChildren_ne_nil bb _ _)]
      rw [BHTreeNode.insert_succ_children' 1 _ _ bb (by
        intro hcon
        have := congrArg List.length hcon
        rw [List.length_set, BHTreeNode.subdivideChildren_length] at this
        simp at this) none b]
      rw [list_getD_set_ne hix _ _]
      rw [hgdb]
      rw [show BHTreeNode.insert 1
          (BHTreeNode.newNode ((bb.subdivide).getD (bb.quadrant_index_for b.position) bb))
          b = some (.mk b.mass b.position
            ((bb.subdivide).getD (bb.quadrant_index_for b.position) bb) [] (some b))
        from rfl]
      simp only [Option.map_some']
      rfl

theorem BHTreeNode.insert_total (t : BHTreeNode) :
    ∀ b : NBody, t.Inv → t.GeomWF → t.bounds.contains b.position →
      (∀ x ∈ t.nodeBodies, x.position ≠ b.position) →
      ∃ F t', BHTreeNode.insert F t b = some t' := by
  induction t using BHTreeNode.inductionOn with
  | h m cm bb ch obody ihc =>
    intro b hinv hgeom hcont hdist
    obtain ⟨hwf, hbody, hsub, hglist⟩ := hgeom
    cases ch with
    | cons c cs =>
      have hmap : (c :: cs).map BHTreeNode.bounds = bb.subdivide := by
        rcases hsub with h' | h'
        · exact absurd h' (by simp)
        · exact h'
      have hlen8 : (c :: cs).length = 8 := by
        have := congrArg List.length hmap
        rw [List.length_map, BBox3.subdivide_length] at this
        exact this
      have hix : bb.quadrant_index_for b.position < (c :: cs).length := by
        rw [hlen8]
        exact BBox3.quadrant_index_lt_8 bb b.position
      have hmemc : (c :: cs).getD (bb.quadrant_index_for b.position)
          (BHTreeNode.newNode bb) ∈ c :: cs := List.getD_mem' hix
      have hcInv : ((c :: cs).getD (bb.quadrant_index_for b.position)
          (BHTreeNode.newNode bb)).Inv :=
        (BHTreeNode.InvList_iff _).1 hinv.1 _ hmemc
      have hcGeom : ((c :: cs).getD (bb.quadrant_index_for b.position)
          (BHTreeNode.newNode bb)).GeomWF :=
        (BHTreeNode.GeomWFList_iff _).1 hglist _ hmemc
      have hcbounds : ((c :: cs).getD (bb.quadrant_index_for b.position)
          (BHTreeNode.newNode bb)).bounds.contains b.position := by
        have h1 := list_getD_map BHTreeNode.bounds (c :: cs)
          (bb.quadrant_index_for b.position) (BHTreeNode.newNode bb)
        rw [hmap] at h1
        have h2 := BBox3.subdivide_quadrant_contains hwf hcont
        rw [list_getD_default_irrel (by
          rw [BBox3.subdivide_length]
          exact BBox3.quadrant_index_lt_8 bb b.position)
          (BBox3.new V3.zero V3.zero) ((BHTreeNode.newNode bb).bounds)] at h2
        rw [h1] at h2
        exact h2
      have hcdist : ∀ x ∈ ((c :: cs).getD (bb.quadrant_index_for b.position)
          (BHTreeNode.newNode bb)).nodeBodies, x.position ≠ b.position := by
        intro x hx
        apply hdist
        show x ∈ obody.toList ++ BHTreeNode.nodeBodiesList (c :: cs)
        exact List.mem_append_right _ (mem_nodeBodiesList_of_mem hmemc hx)
      obtain ⟨Fc, t'', hFc⟩ := ihc _ hmemc b hcInv hcGeom hcbounds hcdist
      refine ⟨Fc + 1, Option.isSome_iff_exists.mp ?_⟩
      rw [BHTreeNode.insert_succ_children]
      rw [hFc]
      rfl
    | nil =>
      cases obody with
      | none => exact ⟨1, _, BHTreeNode.insert_succ_empty 0 m cm bb b⟩
      | some ob =>
        have hobcont : bb.contains ob.position := hbody ob rfl
        have hobdist : ob.position ≠ b.position := by
          apply hdist
          show ob ∈ (some ob : Option NBody).toList ++ BHTreeNode.nodeBodiesList []
          simp
        obtain ⟨k, hk⟩ := sep_exists bb ob.position b.position hobdist
        exact BHTreeNode.pair_total k bb m cm ob b hwf hobcont hcont hk

theorem BHTreeNode.fold_insert_total :
    ∀ (l : List NBody) (t0 : BHTreeNode), t0.Inv → t0.GeomWF →
      (∀ b ∈ l, t0.bounds.contains b.position) →
      (∀ b ∈ l, ∀ x ∈ t0.nodeBodies, x.position ≠ b.position) →
      l.Pairwise (fun a b => a.position ≠ b.position) →
      ∃ F t, l.foldl (fun acc b => acc.bind (fun s => BHTreeNode.insert F s b))
        (some t0) = some t := by
  intro l
  induction l with
  | nil =>
    intro t0 _ _ _ _ _
    exact ⟨0, t0, rfl⟩
  | cons b bs ih =>
    intro t0 hInv hGeom hcont hdist hpair
    obtain ⟨F1, t1, h1⟩ := BHTreeNode.insert_total t0 b hInv hGeom
      (hcont b (List.mem_cons_self _ _)) (fun x hx =>
        hdist b (List.mem_cons_self _ _) x hx)
    obtain ⟨hInv1, hperm1, hbounds1⟩ := BHTreeNode.insert_inv F1 t0 b t1 hInv.toSub h1
    have hGeom1 := BHTreeNode.insert_geom F1 t0 b t1 hGeom
      (hcont b (List.mem_cons_self _ _)) h1
    have hcont1 : ∀ b' ∈ bs, t1.bounds.contains b'.position := by
      intro b' hb'
      rw [hbounds1]
      exact hcont b' (List.mem_cons_of_mem _ hb')
    have hdist1 : ∀ b' ∈ bs, ∀ x ∈ t1.nodeBodies, x.position ≠ b'.position := by
      intro b' hb' x hx
      rcases List.mem_cons.1 (hperm1.mem_iff.1 hx) with rfl | hx'
      · exact (List.pairwise_cons.1 hpair).1 b' hb'
      · exact hdist b' (List.mem_cons_of_mem _ hb') x hx'
    obtain ⟨F2, t, h2⟩ := ih t1 hInv1 hGeom1 hcont1 hdist1
      (List.pairwise_cons.1 hpair).2
    refine ⟨max F1 F2, t, ?_⟩
    simp only [List.foldl_cons, Option.some_bind]
    rw [BHTreeNode.insert_mono F1 (max F1 F2) t0 b t1 (le_max_left _ _) h1]
    exact BHTreeNode.foldl_insert_mono bs F2 (max F1 F2) t1 t (le_max_right _ _) h2

/-- Termination of the build in the exact-rational model: for every
finite body sequence whose positions are pairwise distinct and all
contained in the (well-formed) root bounding volume, some finite fuel
makes every insertion of the fuelled model succeed. This is a property
of the idealized arithmetic only — it rests on subdivision strictly
shrinking every non-degenerate axis (`sep_step`), which the `f32`
midpoint of the source does not guarantee: when the computed center
rounds onto a corner, octant 0 equals its parent box and the source's
`insert` recurses forever on two distinct contained positions one ulp
apart. -/
theorem BHTreeNode.build_terminates_exact (bounds : BBox3) (l : List NBody)
    (hwf : bounds.WF) (hcont : ∀ b ∈ l, bounds.contains b.position)
    (hdist : l.Pairwise (fun a b => a.position ≠ b.position)) :
    ∃ F t, BHTreeNode.fromBodies F bounds l = some t := by
  have h := BHTreeNode.fold_insert_total l (BHTreeNode.newNode bounds)
    (BHTreeNode.Inv_newNode bounds) (BHTreeNode.GeomWF_newNode hwf)
    (by intro b hb; exact hcont b hb)
    (by
      intro b _ x hx
      have : (BHTreeNode.newNode bounds).nodeBodies = [] := rfl
      rw [this] at hx
      cases hx)
    hdist
  exact h

theorem BHTreeNode.build_terminates_exact_example :
    (BBox3.mk ⟨0, 0, 0⟩ ⟨4, 4, 4⟩).WF ∧
    (∀ b ∈ [NBody.mk 0 ⟨1, 1, 1⟩ 1 0, NBody.mk 1 ⟨3, 3, 3⟩ 1 0],
      (BBox3.mk ⟨0, 0, 0⟩ ⟨4, 4, 4⟩).contains b.position) ∧
    ([NBody.mk 0 ⟨1, 1, 1⟩ 1 0, NBody.mk 1 ⟨3, 3, 3⟩ 1 0].Pairwise
      (fun a b => a.position ≠ b.position)) ∧
    ∃ F t, BHTreeNode.fromBodies F (BBox3.mk ⟨0, 0, 0⟩ ⟨4, 4, 4⟩)
      [NBody.mk 0 ⟨1, 1, 1⟩ 1 0, NBody.mk 1 ⟨3, 3, 3⟩ 1 0] = some t := by
  have hwf : (BBox3.mk ⟨0, 0, 0⟩ ⟨4, 4, 4⟩).WF := by
    unfold BBox3.WF
    norm_num
  have hcont : ∀ b ∈ [NBody.mk 0 ⟨1, 1, 1⟩ 1 0, NBody.mk 1 ⟨3, 3, 3⟩ 1 0],
      (BBox3.mk ⟨0, 0, 0⟩ ⟨4, 4, 4⟩).contains b.position := by
    intro b hb
    rcases List.mem_cons.1 hb with rfl | hb'
    · rw [BBox3.contains_iff]
      norm_num [NBody.position]
    · rcases List.mem_singleton.1 hb' with rfl
      rw [BBox3.contains_iff]
      norm_num [NBody.position]
  have hdist : [NBody.mk 0 ⟨1, 1, 1⟩ 1 0, NBody.mk 1 ⟨3, 3, 3⟩ 1 0].Pairwise
      (fun a b => a.position ≠ b.position) := by
    refine List.pairwise_cons.2 ⟨?_, List.pairwise_singleton _ _⟩
    intro b hb
    rcases List.mem_singleton.1 hb with rfl
    intro hcon
    have hx : (1 : ℚ) = 3 := congrArg V3.x hcon
    norm_num at hx
  exact ⟨hwf, hcont, hdist,
    BHTreeNode.build_terminates_exact (BBox3.mk ⟨0, 0, 0⟩ ⟨4, 4, 4⟩)
      [NBody.mk 0 ⟨1, 1, 1⟩ 1 0, NBody.mk 1 ⟨3, 3, 3⟩ 1 0] hwf hcont hdist⟩

/-! ### The force and collision traversal -/

/-- The gravitational constant from src/main.rs,
`const G: f32 = 6.674*10e-11;` (note that `10e-11` is `1e-10`), modelled
as the exact rational value of that expression. -/
def G : ℚ := 6.674 * 10e-11

/-- The opening-angle threshold `BHTreeNode::THETA = 0.5`. -/
def THETA : ℚ := 0.5

/-- Model of the private `BHTreeNode::size`: the largest axis dimension
of the node's bounding box, `dim.x.max(dim.y.max(dim.z))`. -/
def BHTreeNode.size : BHTreeNode → ℚ
  | .mk _ _ bb _ _ =>
    max (bb.pmax.x - bb.pmin.x) (max (bb.pmax.y - bb.pmin.y) (bb.pmax.z - bb.pmin.z))

/-- The traversal's opening test
`self.size() / self.center_of_mass.distance(body.position) >= Self::THETA`,
as a decidable predicate on the size `s` and the squared distance `d2`:
since `THETA = 1/2 > 0`, for `0 ≤ s` and `0 < d2` the test
`s / √d2 ≥ THETA` holds iff `THETA² · d2 ≤ s²` (see `opens_iff_real`),
and for `d2 = 0 < s` IEEE gives `s / 0 = +∞ ≥ THETA`, matched here by
`THETA² · 0 ≤ s²`. Every node reached by the traversal on a built tree
has `0 ≤ s` (boxes are well formed). -/
def BHTreeNode.opens (s d2 : ℚ) : Prop := THETA ^ 2 * d2 ≤ s ^ 2

instance (s d2 : ℚ) : Decidable (BHTreeNode.opens s d2) := by
  unfold BHTreeNode.opens
  infer_instance

theorem opens_iff_real (s d2 : ℚ) (hs : 0 ≤ s) (hd2 : 0 < d2) :
    BHTreeNode.opens s d2 ↔ ((THETA : ℚ) : ℝ) ≤ (s : ℝ) / Real.sqrt ((d2 : ℚ) : ℝ) := by
  have hsq : (0 : ℝ) < Real.sqrt ((d2 : ℚ) : ℝ) :=
    Real.sqrt_pos.2 (by exact_mod_cast hd2)
  rw [le_div_iff₀ hsq]
  unfold BHTreeNode.opens
  constructor
  · intro h
    have hθ : ((THETA : ℚ) : ℝ) = 1 / 2 := by norm_num [THETA]
    have hs2 : ((THETA : ℚ) : ℝ) ^ 2 * ((d2 : ℚ) : ℝ) ≤ ((s : ℚ) : ℝ) ^ 2 := by
      exact_mod_cast h
    nlinarith [Real.sq_sqrt (le_of_lt (show (0:ℝ) < ((d2:ℚ):ℝ) by exact_mod_cast hd2)),
      Real.sqrt_nonneg ((d2 : ℚ) : ℝ), sq_nonneg ((s : ℚ) : ℝ),
      hsq, (show (0:ℝ) ≤ (s:ℚ) by exact_mod_cast hs)]
  · intro h
    have hs2 : (((THETA : ℚ) : ℝ) * Real.sqrt ((d2 : ℚ) : ℝ)) ^ 2 ≤ ((s : ℚ) : ℝ) ^ 2 := by
      apply sq_le_sq'
      · nlinarith [hsq, (show (0:ℝ) ≤ (s:ℚ) by exact_mod_cast hs),
          (show (0:ℝ) < ((THETA:ℚ):ℝ) by norm_num [THETA])]
      · exact h
    rw [mul_pow] at hs2
    rw [Real.sq_sqrt (le_of_lt (show (0:ℝ) < ((d2:ℚ):ℝ) by exact_mod_cast hd2))] at hs2
    exact_mod_cast hs2

/-- Real-valued 3-vector, for the quantities of the traversal that pass
through `Vec3::normalize` (a square root). -/
structure R3 where
  x : ℝ
  y : ℝ
  z : ℝ

noncomputable def R3.addR (a b : R3) : R3 := ⟨a.x + b.x, a.y + b.y, a.z + b.z⟩

noncomputable def R3.subR (a b : R3) : R3 := ⟨a.x - b.x, a.y - b.y, a.z - b.z⟩

noncomputable def R3.smulR (c : ℝ) (a : R3) : R3 := ⟨c * a.x, c * a.y, c * a.z⟩

noncomputable def R3.zero : R3 := ⟨0, 0, 0⟩

/-- Vector length, `Vec3::length`. -/
noncomputable def R3.norm (a : R3) : ℝ := Real.sqrt (a.x ^ 2 + a.y ^ 2 + a.z ^ 2)

/-- Model of `Vec3::normalize`: multiply by the reciprocal of the
length. (For the zero vector IEEE produces NaN components; the model
yields the zero vector, and in every use below the result is in that
case multiplied by a zero scalar or clamped, so the final accelerations
agree with the source's non-finite-to-zero clamp.) -/
noncomputable def R3.normalize (a : R3) : R3 := a.smulR (1 / a.norm)

/-- Cast a rational vector into the real vector space. -/
noncomputable def V3.toR3 (v : V3) : R3 := ⟨(v.x : ℝ), (v.y : ℝ), (v.z : ℝ)⟩

mutual

/-- Model of `BHTreeNode::calculate_acceleration`. Branch structure and
all comparisons mirror the source: a stored body is handled first
(`ptr::eq` modelled as structural equality, see `NBody`); otherwise the
node is opened when the box contains the target or the opening test
passes, summing the children's contributions in index order; otherwise
the node is approximated by its aggregates, with the source's near-field
guard comparing the squared distance against `radius + radius`
unsquared. The final non-finite clamp of the source is the identity
here: the only division by zero the model can reach produces `0`
directly where IEEE produces the non-finite values that the source
clamps to `0`. -/
noncomputable def BHTreeNode.calculate_acceleration :
    BHTreeNode → NBody → R3 × List ℕ
  | .mk mss cm bb ch obody, body =>
    match obody with
    | some other =>
      if other = body then (R3.zero, [])
      else
        let dir := ((other.position.toR3).subR (body.position.toR3)).normalize
        let dist2 := other.position.distance_squared body.position
        let radaii := body.radius + other.radius
        let radaii2 := radaii * radaii
        if radaii2 < dist2 then
          (dir.smulR (((G * other.mass / dist2 : ℚ) : ℝ)), [])
        else (R3.zero, [body.entity])
    | none =>
      if bb.contains body.position ∨
          BHTreeNode.opens (BHTreeNode.size (.mk mss cm bb ch obody))
            (cm.distance_squared body.position) then
        BHTreeNode.calc_children ch body
      else
        let dir := ((cm.toR3).subR (body.position.toR3)).normalize
        let dist2 := cm.distance_squared body.position
        let radaii := body.radius + body.radius
        if radaii ≤ dist2 then
          (dir.smulR (((G * mss / dist2 : ℚ) : ℝ)), [])
        else (R3.zero, [])

/-- The children loop of `calculate_acceleration`: accumulate the
children's accelerations and concatenate their collision lists, in index
order. -/
noncomputable def BHTreeNode.calc_children : List BHTreeNode → NBody → R3 × List ℕ
  | [], _ => (R3.zero, [])
  | c :: cs, body =>
    let r := BHTreeNode.calculate_acceleration c body
    let rest := BHTreeNode.calc_children cs body
    (r.1.addR rest.1, r.2 ++ rest.2)

end

/-- Model of `BHTreeNode::collect_accelerations`: one result per body
yielded by the iterator. (`rayon`'s `par_bridge` evaluates the bodies in
unspecified order over the shared tree; each traversal is a pure
function of the tree and the body, modelled here in iterator order.) -/
noncomputable def BHTreeNode.collect_accelerations (t : BHTreeNode) :
    List (ℕ × R3 × List ℕ) :=
  (BHTreeNodeIter.run [t]).map (fun body =>
    ((body.entity, (BHTreeNode.calculate_acceleration t body).1,
      (BHTreeNode.calculate_acceleration t body).2) : ℕ × R3 × List ℕ))

mutual

/-- The collision component of `calculate_acceleration`, as a computable
function (the branch conditions are all rational comparisons; only the
acceleration values need real arithmetic). `calcCollisions_spec` proves
it equal to the second component of `calculate_acceleration`. -/
def BHTreeNode.calcCollisions : BHTreeNode → NBody → List ℕ
  | .mk mss cm bb ch obody, body =>
    match obody with
    | some other =>
      if other = body then []
      else
        let dist2 := other.position.distance_squared body.position
        let radaii := body.radius + other.radius
        let radaii2 := radaii * radaii
        if radaii2 < dist2 then [] else [body.entity]
    | none =>
      if bb.contains body.position ∨
          BHTreeNode.opens (BHTreeNode.size (.mk mss cm bb ch obody))
            (cm.distance_squared body.position) then
        BHTreeNode.calcCollisionsList ch body
      else []

def BHTreeNode.calcCollisionsList : List BHTreeNode → NBody → List ℕ
  | [], _ => []
  | c :: cs, body =>
    BHTreeNode.calcCollisions c body ++ BHTreeNode.calcCollisionsList cs body

end

theorem BHTreeNode.calc_leaf_self {mss : ℚ} {cm : V3} {bb : BBox3}
    {ch : List BHTreeNode} {o body : NBody} (h : o = body) :
    BHTreeNode.calculate_acceleration (.mk mss cm bb ch (some o)) body =
      (R3.zero, []) := by
  unfold BHTreeNode.calculate_acceleration
  dsimp only
  rw [if_pos h]

theorem BHTreeNode.calc_leaf_far {mss : ℚ} {cm : V3} {bb : BBox3}
    {ch : List BHTreeNode} {o body : NBody} (h : ¬(o = body))
    (hfar : (body.radius + o.radius) * (body.radius + o.radius) <
      o.position.distance_squared body.position) :
    BHTreeNode.calculate_acceleration (.mk mss cm bb ch (some o)) body =
      (((o.position.toR3).subR (body.position.toR3)).normalize.smulR
        (((G * o.mass / o.position.distance_squared body.position : ℚ) : ℝ)), []) := by
  unfold BHTreeNode.calculate_acceleration
  dsimp only
  rw [if_neg h, if_pos hfar]

theorem BHTreeNode.calc_leaf_near {mss : ℚ} {cm : V3} {bb : BBox3}
    {ch : List BHTreeNode} {o body : NBody} (h : ¬(o = body))
    (hnear : ¬((body.radius + o.radius) * (body.radius + o.radius) <
      o.position.distance_squared body.position)) :
    BHTreeNode.calculate_acceleration (.mk mss cm bb ch (some o)) body =
      (R3.zero, [body.entity]) := by
  unfold BHTreeNode.calculate_acceleration
  dsimp only
  rw [if_neg h, if_neg hnear]

theorem BHTreeNode.calc_internal_open {mss : ℚ} {cm : V3} {bb : BBox3}
    {ch : List BHTreeNode} {body : NBody}
    (hcond : bb.contains body.position ∨
      BHTreeNode.opens (BHTreeNode.size (.mk mss cm bb ch none))
        (cm.distance_squared body.position)) :
    BHTreeNode.calculate_acceleration (.mk mss cm bb ch none) body =
      BHTreeNode.calc_children ch body := by
  unfold BHTreeNode.calculate_acceleration
  dsimp only
  rw [if_pos hcond]

theorem BHTreeNode.calc_internal_approx_far {mss : ℚ} {cm : V3} {bb : BBox3}
    {ch : List BHTreeNode} {body : NBody}
    (hcond : ¬(bb.contains body.position ∨
      BHTreeNode.opens (BHTreeNode.size (.mk mss cm bb ch none))
        (cm.distance_squared body.position)))
    (hfar : body.radius + body.radius ≤ cm.distance_squared body.position) :
    BHTreeNode.calculate_acceleration (.mk mss cm bb ch none) body =
      (((cm.toR3).subR (body.position.toR3)).normalize.smulR
        (((G * mss / cm.distance_squared body.position : ℚ) : ℝ)), []) := by
  unfold BHTreeNode.calculate_acceleration
  dsimp only
  rw [if_neg hcond, if_pos hfar]

theorem BHTreeNode.calc_internal_approx_near {mss : ℚ} {cm : V3} {bb : BBox3}
    {ch : List BHTreeNode} {body : NBody}
    (hcond : ¬(bb.contains body.position ∨
      BHTreeNode.opens (BHTreeNode.size (.mk mss cm bb ch none))
        (cm.distance_squared body.position)))
    (hnear : ¬(body.radius + body.radius ≤ cm.distance_squared body.position)) :
    BHTreeNode.calculate_acceleration (.mk mss cm bb ch none) body =
      (R3.zero, []) := by
  unfold BHTreeNode.calculate_acceleration
  dsimp only
  rw [if_neg hcond, if_neg hnear]

theorem BHTreeNode.calc_children_nil (body : NBody) :
    BHTreeNode.calc_children [] body = (R3.zero, []) := by
  unfold BHTreeNode.calc_children
  exact rfl

theorem BHTreeNode.calc_children_cons (c : BHTreeNode) (cs : List BHTreeNode)
    (body : NBody) :
    BHTreeNode.calc_children (c :: cs) body =
      ((BHTreeNode.calculate_acceleration c body).1.addR
          (BHTreeNode.calc_children cs body).1,
        (BHTreeNode.calculate_acceleration c body).2 ++
          (BHTreeNode.calc_children cs body).2) := by
  conv_lhs => unfold BHTreeNode.calc_children

/-- The collision component of the traversal is exactly `calcCollisions`:
the branch structure is identical and the collision output never depends
on the real-valued accelerations. -/
theorem BHTreeNode.calcCollisions_spec (t : BHTreeNode) (body : NBody) :
    (BHTreeNode.calculate_acceleration t body).2 =
      BHTreeNode.calcCollisions t body := by
  induction t using BHTreeNode.inductionOn with
  | h m cm bb ch obody ihc =>
    cases obody with
    | some o =>
      by_cases h : o = body
      · rw [BHTreeNode.calc_leaf_self h]
        unfold BHTreeNode.calcCollisions
        dsimp only
        rw [if_pos h]
      · by_cases hfar : (body.radius + o.radius) * (body.radius + o.radius) <
            o.position.distance_squared body.position
        · rw [BHTreeNode.calc_leaf_far h hfar]
          unfold BHTreeNode.calcCollisions
          dsimp only
          rw [if_neg h, if_pos hfar]
        · rw [BHTreeNode.calc_leaf_near h hfar]
          unfold BHTreeNode.calcCollisions
          dsimp only
          rw [if_neg h, if_neg hfar]
    | none =>
      have hlist : ∀ (l : List BHTreeNode),
          (∀ c ∈ l, (BHTreeNode.calculate_acceleration c body).2 =
            BHTreeNode.calcCollisions c body) →
          (BHTreeNode.calc_children l body).2 =
            BHTreeNode.calcCollisionsList l body := by
        intro l
        induction l with
        | nil =>
          intro _
          rw [BHTreeNode.calc_children_nil]
          rfl
        | cons c cs ihl =>
          intro hmem
          rw [BHTreeNode.calc_children_cons]
          show (BHTreeNode.calculate_acceleration c body).2 ++
              (BHTreeNode.calc_children cs body).2 = _
          rw [hmem c (List.mem_cons_self c cs),
            ihl (fun d hd => hmem d (List.mem_cons_of_mem c hd))]
          rfl
      by_cases hcond : bb.contains body.position ∨
          BHTreeNode.opens (BHTreeNode.size (.mk m cm bb ch none))
            (cm.distance_squared body.position)
      · rw [BHTreeNode.calc_internal_open hcond]
        unfold BHTreeNode.calcCollisions
        dsimp only
        rw [if_pos hcond]
        exact hlist ch ihc
      · by_cases hfar : body.radius + body.radius ≤
            cm.distance_squared body.position
        · rw [BHTreeNode.calc_internal_approx_far hcond hfar]
          unfold BHTreeNode.calcCollisions
          dsimp only
          rw [if_neg hcond]
        · rw [BHTreeNode.calc_internal_approx_near hcond hfar]
          unfold BHTreeNode.calcCollisions
          dsimp only
          rw [if_neg hcond]

theorem R3.norm_smulR (c : ℝ) (a : R3) : (a.smulR c).norm = |c| * a.norm := by
  unfold R3.smulR R3.norm
  dsimp only
  rw [show (c * a.x) ^ 2 + (c * a.y) ^ 2 + (c * a.z) ^ 2 =
      c ^ 2 * (a.x ^ 2 + a.y ^ 2 + a.z ^ 2) by ring]
  rw [Real.sqrt_mul (sq_nonneg c), Real.sqrt_sq_eq_abs]

theorem R3.norm_nonneg' (a : R3) : 0 ≤ a.norm := Real.sqrt_nonneg _

theorem R3.smulR_smulR (a : R3) (c k : ℝ) :
    (a.smulR c).smulR k = a.smulR (k * c) := by
  unfold R3.smulR
  dsimp only
  rw [mul_assoc k c a.x, mul_assoc k c a.y, mul_assoc k c a.z]

theorem R3.norm_normalize {a : R3} (h : a.norm ≠ 0) : a.normalize.norm = 1 := by
  unfold R3.normalize
  rw [R3.norm_smulR, abs_of_nonneg (one_div_nonneg.mpr (R3.norm_nonneg' a)),
    one_div, inv_mul_cancel₀ h]

theorem V3.norm_sub_toR3 (a b : V3) :
    ((a.toR3).subR (b.toR3)).norm =
      Real.sqrt (((a.distance_squared b : ℚ) : ℝ)) := by
  unfold V3.toR3 R3.subR R3.norm V3.distance_squared
  dsimp only
  congr 1
  push_cast
  ring

/-- C3: at a node holding a body `o` (with nonnegative mass), evaluated
for a target `body`: (i) if `o` is the same body as the target
(`ptr::eq`, modelled as structural equality) the node contributes zero
acceleration and no collision; (ii) if `o` is a different body at
squared distance `d2` from the target with combined radii `r` and
`r*r < d2`, the node records no collision and contributes an
acceleration of magnitude `G * o.mass / d2` directed from the target
toward `o`; (iii) if `o` is different and `d2 ≤ r*r`, the node
contributes no acceleration and records the target's own entity id as
the collision partner. -/
theorem claim_C3_leaf_interaction
    (m : ℚ) (cm : V3) (bb : BBox3) (ch : List BHTreeNode) (o body : NBody)
    (hmass : 0 ≤ o.mass) :
    (o = body →
      BHTreeNode.calculate_acceleration (.mk m cm bb ch (some o)) body =
        (R3.zero, [])) ∧
    (o ≠ body →
      ((body.radius + o.radius) * (body.radius + o.radius) <
          o.position.distance_squared body.position →
        (BHTreeNode.calculate_acceleration (.mk m cm bb ch (some o)) body).2 =
          [] ∧
        ((BHTreeNode.calculate_acceleration (.mk m cm bb ch (some o)) body).1).norm =
          ((G * o.mass / o.position.distance_squared body.position : ℚ) : ℝ) ∧
        ∃ c : ℝ, 0 ≤ c ∧
          (BHTreeNode.calculate_acceleration (.mk m cm bb ch (some o)) body).1 =
            ((o.position.toR3).subR (body.position.toR3)).smulR c) ∧
      (o.position.distance_squared body.position ≤
          (body.radius + o.radius) * (body.radius + o.radius) →
        BHTreeNode.calculate_acceleration (.mk m cm bb ch (some o)) body =
          (R3.zero, [body.entity]))) := by
  refine ⟨fun h => BHTreeNode.calc_leaf_self h,
    fun h => ⟨fun hfar => ?_, fun hnear => ?_⟩⟩
  · rw [BHTreeNode.calc_leaf_far h hfar]
    have hd2 : 0 < o.position.distance_squared body.position :=
      lt_of_le_of_lt (mul_self_nonneg _) hfar
    have hΔ : ((o.position.toR3).subR (body.position.toR3)).norm =
        Real.sqrt (((o.position.distance_squared body.position : ℚ) : ℝ)) :=
      V3.norm_sub_toR3 _ _
    have hnpos : 0 < ((o.position.toR3).subR (body.position.toR3)).norm := by
      rw [hΔ]
      exact Real.sqrt_pos.2 (by exact_mod_cast hd2)
    have hknn : (0 : ℝ) ≤
        ((G * o.mass / o.position.distance_squared body.position : ℚ) : ℝ) := by
      have : (0 : ℚ) ≤ G * o.mass / o.position.distance_squared body.position :=
        div_nonneg (mul_nonneg (by norm_num [G]) hmass) (le_of_lt hd2)
      exact_mod_cast this
    refine ⟨rfl, ?_, ?_⟩
    · show (((o.position.toR3).subR (body.position.toR3)).normalize.smulR _).norm = _
      rw [R3.norm_smulR, R3.norm_normalize (ne_of_gt hnpos), mul_one,
        abs_of_nonneg hknn]
    · refine ⟨((G * o.mass / o.position.distance_squared body.position : ℚ) : ℝ) *
        (1 / ((o.position.toR3).subR (body.position.toR3)).norm), ?_, ?_⟩
      · exact mul_nonneg hknn (one_div_nonneg.mpr (le_of_lt hnpos))
      · show ((o.position.toR3).subR (body.position.toR3)).normalize.smulR _ = _
        unfold R3.normalize
        rw [R3.smulR_smulR]
  · exact BHTreeNode.calc_leaf_near h (not_lt.mpr hnear)

theorem claim_C3_witness :
    0 ≤ ((⟨5, ⟨3, 0, 0⟩, 2, 2⟩ : NBody)).mass ∧
    BHTreeNode.calculate_acceleration
      (.mk 0 V3.zero (BBox3.new V3.zero V3.zero) []
        (some ⟨5, ⟨3, 0, 0⟩, 2, 2⟩))
      ⟨7, ⟨0, 0, 0⟩, 1, 2⟩ = (R3.zero, [7]) := by
  refine ⟨by norm_num, ?_⟩
  have h := (claim_C3_leaf_interaction 0 V3.zero (BBox3.new V3.zero V3.zero) []
    ⟨5, ⟨3, 0, 0⟩, 2, 2⟩ ⟨7, ⟨0, 0, 0⟩, 1, 2⟩ (by norm_num)).2
  have hne : (⟨5, ⟨3, 0, 0⟩, 2, 2⟩ : NBody) ≠ ⟨7, ⟨0, 0, 0⟩, 1, 2⟩ := by
    intro hcon
    exact absurd (congrArg NBody.entity hcon) (by decide)
  exact (h hne).2 (by norm_num [V3.distance_squared])

/-- C4, counterexample: the near-field guard of the approximation branch
compares the SQUARED distance against `radius + radius` UNSQUARED
(`if dist2 >= radaii` with `radaii = body.radius + body.radius`), so it
does not suppress exactly "within twice the body's own radius". Target
body of radius `1/10` at distance `3/10` from the node's center of mass:
the distance exceeds twice the radius (`3/10 > 2/10`), so per the claim
the node must contribute an acceleration of magnitude `G·mass/d²`, which
is strictly positive here; but `dist² = 9/100 < 2/10 = radaii`, so the
code takes the suppressed branch and contributes zero. -/
theorem claim_C4_counterexample :
    (2 * (⟨0, ⟨0, 0, 0⟩, 1, 1/10⟩ : NBody).radius) *
        (2 * (⟨0, ⟨0, 0, 0⟩, 1, 1/10⟩ : NBody).radius) <
      (V3.distance_squared ⟨3/10, 0, 0⟩
        (⟨0, ⟨0, 0, 0⟩, 1, 1/10⟩ : NBody).position) ∧
    (0 : ℚ) < G * 1 / (V3.distance_squared ⟨3/10, 0, 0⟩
        (⟨0, ⟨0, 0, 0⟩, 1, 1/10⟩ : NBody).position) ∧
    BHTreeNode.calculate_acceleration
      (.mk 1 ⟨3/10, 0, 0⟩ ⟨⟨1, 1, 1⟩, ⟨101/100, 101/100, 101/100⟩⟩
        [BHTreeNode.newNode ⟨⟨1, 1, 1⟩, ⟨101/100, 101/100, 101/100⟩⟩] none)
      ⟨0, ⟨0, 0, 0⟩, 1, 1/10⟩ = (R3.zero, []) := by
  refine ⟨by norm_num [V3.distance_squared], by norm_num [V3.distance_squared, G], ?_⟩
  apply BHTreeNode.calc_internal_approx_near
  · rw [not_or]
    constructor
    · norm_num [BBox3.contains]
    · norm_num [BHTreeNode.opens, BHTreeNode.size, THETA, V3.distance_squared]
  · norm_num [V3.distance_squared]

/-- C4, amended: at an internal node (no stored body) with nonnegative
aggregate mass, for a target of positive radius: if the target's
position lies inside the node's box or the opening test `s/d ≥ θ`
passes, the node recurses into its children and sums their
contributions; otherwise no collision is ever recorded and the node is
approximated as a point mass — contributing a single acceleration of
magnitude `G·m/d²` directed toward the center of mass whenever
`d² ≥ 2·radius` (the source compares the SQUARED distance against
`radius + radius` unsquared), and zero when `d² < 2·radius`. The
suppression region is thus `d² < 2·radius`, not the claimed
`d < 2·radius`. -/
theorem claim_C4_internal_node (m : ℚ) (cm : V3) (bb : BBox3)
    (ch : List BHTreeNode) (body : NBody) (hm : 0 ≤ m)
    (hr : 0 < body.radius) :
    (bb.contains body.position ∨
        BHTreeNode.opens (BHTreeNode.size (.mk m cm bb ch none))
          (cm.distance_squared body.position) →
      BHTreeNode.calculate_acceleration (.mk m cm bb ch none) body =
        BHTreeNode.calc_children ch body) ∧
    (¬(bb.contains body.position ∨
        BHTreeNode.opens (BHTreeNode.size (.mk m cm bb ch none))
          (cm.distance_squared body.position)) →
      (BHTreeNode.calculate_acceleration (.mk m cm bb ch none) body).2 =
        [] ∧
      (body.radius + body.radius ≤ cm.distance_squared body.position →
        ((BHTreeNode.calculate_acceleration (.mk m cm bb ch none) body).1).norm =
          ((G * m / cm.distance_squared body.position : ℚ) : ℝ) ∧
        ∃ c : ℝ, 0 ≤ c ∧
          (BHTreeNode.calculate_acceleration (.mk m cm bb ch none) body).1 =
            ((cm.toR3).subR (body.position.toR3)).smulR c) ∧
      (cm.distance_squared body.position < body.radius + body.radius →
        (BHTreeNode.calculate_acceleration (.mk m cm bb ch none) body).1 =
          R3.zero)) := by
  refine ⟨fun hcond => BHTreeNode.calc_internal_open hcond,
    fun hcond => ⟨?_, fun hfar => ?_, fun hnear => ?_⟩⟩
  · by_cases hfar : body.radius + body.radius ≤
        cm.distance_squared body.position
    · rw [BHTreeNode.calc_internal_approx_far hcond hfar]
    · rw [BHTreeNode.calc_internal_approx_near hcond hfar]
  · rw [BHTreeNode.calc_internal_approx_far hcond hfar]
    have hd2 : 0 < cm.distance_squared body.position :=
      lt_of_lt_of_le (by linarith) hfar
    have hΔ : ((cm.toR3).subR (body.position.toR3)).norm =
        Real.sqrt (((cm.distance_squared body.position : ℚ) : ℝ)) :=
      V3.norm_sub_toR3 _ _
    have hnpos : 0 < ((cm.toR3).subR (body.position.toR3)).norm := by
      rw [hΔ]
      exact Real.sqrt_pos.2 (by exact_mod_cast hd2)
    have hknn : (0 : ℝ) ≤
        ((G * m / cm.distance_squared body.position : ℚ) : ℝ) := by
      have : (0 : ℚ) ≤ G * m / cm.distance_squared body.position :=
        div_nonneg (mul_nonneg (by norm_num [G]) hm) (le_of_lt hd2)
      exact_mod_cast this
    refine ⟨?_, ?_⟩
    · show (((cm.toR3).subR (body.position.toR3)).normalize.smulR _).norm = _
      rw [R3.norm_smulR, R3.norm_normalize (ne_of_gt hnpos), mul_one,
        abs_of_nonneg hknn]
    · refine ⟨((G * m / cm.distance_squared body.position : ℚ) : ℝ) *
        (1 / ((cm.toR3).subR (body.position.toR3)).norm), ?_, ?_⟩
      · exact mul_nonneg hknn (one_div_nonneg.mpr (le_of_lt hnpos))
      · show ((cm.toR3).subR (body.position.toR3)).normalize.smulR _ = _
        unfold R3.normalize
        rw [R3.smulR_smulR]
  · rw [BHTreeNode.calc_internal_approx_near hcond (not_le.mpr hnear)]

theorem claim_C4_witness :
    0 ≤ (1 : ℚ) ∧ 0 < ((⟨0, ⟨0, 0, 0⟩, 1, 1/10⟩ : NBody)).radius ∧
    (BHTreeNode.calculate_acceleration
      (.mk 1 ⟨3/10, 0, 0⟩ ⟨⟨1, 1, 1⟩, ⟨101/100, 101/100, 101/100⟩⟩
        [BHTreeNode.newNode ⟨⟨1, 1, 1⟩, ⟨101/100, 101/100, 101/100⟩⟩] none)
      ⟨0, ⟨0, 0, 0⟩, 1, 1/10⟩).1 = R3.zero := by
  refine ⟨by norm_num, by norm_num, ?_⟩
  have h := (claim_C4_internal_node 1 ⟨3/10, 0, 0⟩
    ⟨⟨1, 1, 1⟩, ⟨101/100, 101/100, 101/100⟩⟩
    [BHTreeNode.newNode ⟨⟨1, 1, 1⟩, ⟨101/100, 101/100, 101/100⟩⟩]
    ⟨0, ⟨0, 0, 0⟩, 1, 1/10⟩ (by norm_num) (by norm_num)).2
  have hcond : ¬((⟨⟨1, 1, 1⟩, ⟨101/100, 101/100, 101/100⟩⟩ :
        BBox3).contains (⟨0, ⟨0, 0, 0⟩, 1, 1/10⟩ : NBody).position ∨
      BHTreeNode.opens
        (BHTreeNode.size (.mk 1 ⟨3/10, 0, 0⟩
          ⟨⟨1, 1, 1⟩, ⟨101/100, 101/100, 101/100⟩⟩
          [BHTreeNode.newNode ⟨⟨1, 1, 1⟩, ⟨101/100, 101/100, 101/100⟩⟩]
          none))
        ((⟨3/10, 0, 0⟩ : V3).distance_squared
          (⟨0, ⟨0, 0, 0⟩, 1, 1/10⟩ : NBody).position)) := by
    rw [not_or]
    constructor
    · norm_num [BBox3.contains]
    · norm_num [BHTreeNode.opens, BHTreeNode.size, THETA, V3.distance_squared]
  exact (h hcond).2.2 (by norm_num [V3.distance_squared])

theorem BHTreeNode.calcCollisions_leaf (m : ℚ) (cm : V3) (bb : BBox3)
    (ch : List BHTreeNode) (o x : NBody) :
    BHTreeNode.calcCollisions (.mk m cm bb ch (some o)) x =
      if o = x then []
      else if (x.radius + o.radius) * (x.radius + o.radius) <
          o.position.distance_squared x.position then [] else [x.entity] := by
  unfold BHTreeNode.calcCollisions
  dsimp only

theorem BHTreeNode.calcCollisions_open {m : ℚ} {cm : V3} {bb : BBox3}
    {ch : List BHTreeNode} {x : NBody}
    (hcond : bb.contains x.position ∨
      BHTreeNode.opens (BHTreeNode.size (.mk m cm bb ch none))
        (cm.distance_squared x.position)) :
    BHTreeNode.calcCollisions (.mk m cm bb ch none) x =
      BHTreeNode.calcCollisionsList ch x := by
  unfold BHTreeNode.calcCollisions
  dsimp only
  rw [if_pos hcond]

theorem BHTreeNode.calcCollisions_newNode (bb' : BBox3) (x : NBody) :
    BHTreeNode.calcCollisions (BHTreeNode.newNode bb') x = [] := by
  unfold BHTreeNode.newNode
  unfold BHTreeNode.calcCollisions
  dsimp only
  split
  · rfl
  · rfl

theorem BHTreeNode.calcCollisionsList_all_empty :
    ∀ (l : List BHTreeNode) (x : NBody),
      (∀ c ∈ l, BHTreeNode.calcCollisions c x = []) →
      BHTreeNode.calcCollisionsList l x = [] := by
  intro l x
  induction l with
  | nil => intro _; rfl
  | cons c cs ih =>
    intro h
    show BHTreeNode.calcCollisions c x ++ BHTreeNode.calcCollisionsList cs x = []
    rw [h c (List.mem_cons_self c cs),
      ih (fun d hd => h d (List.mem_cons_of_mem c hd))]
    rfl

theorem BHTreeNode.calcCollisionsList_set_empty :
    ∀ (l : List BHTreeNode) (i : ℕ), i < l.length →
      ∀ (t : BHTreeNode) (x : NBody),
      (∀ c ∈ l, BHTreeNode.calcCollisions c x = []) →
      BHTreeNode.calcCollisionsList (l.set i t) x =
        BHTreeNode.calcCollisions t x := by
  intro l
  induction l with
  | nil =>
    intro i hi
    simp at hi
  | cons c cs ih =>
    intro i hi t x hl
    cases i with
    | zero =>
      show BHTreeNode.calcCollisions t x ++ BHTreeNode.calcCollisionsList cs x =
        BHTreeNode.calcCollisions t x
      rw [BHTreeNode.calcCollisionsList_all_empty cs x
        (fun d hd => hl d (List.mem_cons_of_mem c hd))]
      exact List.append_nil _
    | succ i =>
      show BHTreeNode.calcCollisions c x ++
          BHTreeNode.calcCollisionsList (cs.set i t) x = _
      rw [hl c (List.mem_cons_self c cs),
        ih i (by simpa using hi) t x
          (fun d hd => hl d (List.mem_cons_of_mem c hd))]
      exact List.nil_append _

theorem BHTreeNode.calcCollisionsList_set2 :
    ∀ (l : List BHTreeNode) (i j : ℕ), i ≠ j → i < l.length → j < l.length →
      ∀ (t u : BHTreeNode) (x : NBody),
      (∀ c ∈ l, BHTreeNode.calcCollisions c x = []) →
      (BHTreeNode.calcCollisions t x = [] ∨
        BHTreeNode.calcCollisions u x = []) →
      BHTreeNode.calcCollisionsList ((l.set i t).set j u) x =
        BHTreeNode.calcCollisions t x ++ BHTreeNode.calcCollisions u x := by
  intro l
  induction l with
  | nil =>
    intro i j _ hi
    simp at hi
  | cons c cs ih =>
    intro i j hij hi hj t u x hl htu
    cases i with
    | zero =>
      cases j with
      | zero => exact absurd rfl hij
      | succ j =>
        show BHTreeNode.calcCollisions t x ++
            BHTreeNode.calcCollisionsList (cs.set j u) x =
          BHTreeNode.calcCollisions t x ++ BHTreeNode.calcCollisions u x
        rw [BHTreeNode.calcCollisionsList_set_empty cs j (by simpa using hj) u x
          (fun d hd => hl d (List.mem_cons_of_mem c hd))]
    | succ i =>
      cases j with
      | zero =>
        show BHTreeNode.calcCollisions u x ++
            BHTreeNode.calcCollisionsList (cs.set i t) x = _
        rw [BHTreeNode.calcCollisionsList_set_empty cs i (by simpa using hi) t x
          (fun d hd => hl d (List.mem_cons_of_mem c hd))]
        rcases htu with ht | hu
        · rw [ht, List.append_nil, List.nil_append]
        · rw [hu, List.append_nil, List.nil_append]
      | succ j =>
        show BHTreeNode.calcCollisions c x ++
            BHTreeNode.calcCollisionsList ((cs.set i t).set j u) x = _
        rw [hl c (List.mem_cons_self c cs),
          ih i j (fun h => hij (by rw [h])) (by simpa using hi)
            (by simpa using hj) t u x
            (fun d hd => hl d (List.mem_cons_of_mem c hd)) htu]
        exact List.nil_append _

theorem BHTreeNode.update_shape (m : ℚ) (cm : V3) (bb : BBox3)
    (ch : List BHTreeNode) (obody : Option NBody) :
    ∃ m' cm', BHTreeNode.update (.mk m cm bb ch obody) =
      .mk m' cm' bb ch obody := by
  cases obody with
  | some b => exact ⟨b.mass, b.position, rfl⟩
  | none =>
    cases ch with
    | nil => exact ⟨m, cm, rfl⟩
    | cons c cs => exact ⟨_, _, rfl⟩

theorem BHTreeNode.pair_collisions :
    ∀ (k : ℕ) (bb : BBox3) (m : ℚ) (cm : V3) (ob b : NBody),
      bb.WF → bb.contains ob.position → bb.contains b.position →
      ob ≠ b →
      SepBound bb ob.position b.position k →
      ∃ F t', BHTreeNode.insert F (.mk m cm bb [] (some ob)) b = some t' ∧
        BHTreeNode.calcCollisions t' b =
          (if (b.radius + ob.radius) * (b.radius + ob.radius) <
              ob.position.distance_squared b.position then [] else [b.entity]) ∧
        BHTreeNode.calcCollisions t' ob =
          (if (ob.radius + b.radius) * (ob.radius + b.radius) <
              b.position.distance_squared ob.position then [] else [ob.entity]) := by
  intro k
  induction k with
  | zero =>
    intro bb m cm ob b _ hcob hcb _ hsep
    exact (sep_zero_absurd hsep hcob hcb).elim
  | succ k ihk =>
    intro bb m cm ob b hwf hcob hcb hne hsep
    have hlto : bb.quadrant_index_for ob.position < (bb.subdivide).length := by
      rw [BBox3.subdivide_length]
      exact BBox3.quadrant_index_lt_8 bb ob.position
    have hlto8 : bb.quadrant_index_for ob.position <
        ((BBox3.subdivide bb).map BHTreeNode.newNode).length := by
      rw [BHTreeNode.subdivideChildren_length]
      exact BBox3.quadrant_index_lt_8 bb ob.position
    have hltb8 : bb.quadrant_index_for b.position <
        ((BBox3.subdivide bb).map BHTreeNode.newNode).length := by
      rw [BHTreeNode.subdivideChildren_length]
      exact BBox3.quadrant_index_lt_8 bb b.position
    have hgdo :
        ((BBox3.subdivide bb).map BHTreeNode.newNode).getD
          (bb.quadrant_index_for ob.position) (BHTreeNode.newNode bb) =
        BHTreeNode.newNode
          ((bb.subdivide).getD (bb.quadrant_index_for ob.position) bb) :=
      list_getD_map BHTreeNode.newNode (bb.subdivide)
        (bb.quadrant_index_for ob.position) bb
    have hsubempty : ∀ x : NBody,
        ∀ c ∈ (BBox3.subdivide bb).map BHTreeNode.newNode,
        BHTreeNode.calcCollisions c x = [] := by
      intro x c hc
      obtain ⟨box, _, rfl⟩ := List.mem_map.1 hc
      exact BHTreeNode.calcCollisions_newNode box x
    by_cases hix : bb.quadrant_index_for ob.position = bb.quadrant_index_for b.position
    · -- both in the same octant: recurse into the sub-box
      have hmem : (bb.subdivide).getD (bb.quadrant_index_for ob.position) bb ∈
          bb.subdivide := List.getD_mem' hlto
      have hwfI := BBox3.subdivide_mem_wf hmem
      have hcobI : ((bb.subdivide).getD (bb.quadrant_index_for ob.position) bb).contains
          ob.position := by
        have h1 := BBox3.subdivide_quadrant_contains hwf hcob
        rwa [list_getD_default_irrel hlto (BBox3.new V3.zero V3.zero) bb] at h1
      have hcbI : ((bb.subdivide).getD (bb.quadrant_index_for ob.position) bb).contains
          b.position := by
        have h1 := BBox3.subdivide_quadrant_contains hwf hcb
        rw [← hix] at h1
        rwa [list_getD_default_irrel hlto (BBox3.new V3.zero V3.zero) bb] at h1
      have hsepI : SepBound ((bb.subdivide).getD (bb.quadrant_index_for ob.position) bb)
          ob.position b.position k := sep_step hwf hsep hmem
      obtain ⟨Fc, t'', hFc, hcB, hcOb⟩ :=
        ihk _ ob.mass ob.position ob b hwfI hcobI hcbI hne hsepI
      obtain ⟨e, rfl⟩ : ∃ e, Fc = e + 1 := by
        cases Fc with
        | zero => cases hFc
        | succ e => exact ⟨e, rfl⟩
      -- step 1: insert ob into the freshly subdivided children
      have h2 : BHTreeNode.insert (e + 2)
          (.mk m cm bb ((BBox3.subdivide bb).map BHTreeNode.newNode) none) ob =
          some (BHTreeNode.update (.mk m cm bb
            (((BBox3.subdivide bb).map BHTreeNode.newNode).set
              (bb.quadrant_index_for ob.position)
              (.mk ob.mass ob.position
                ((bb.subdivide).getD (bb.quadrant_index_for ob.position) bb)
                [] (some ob)))
            none)) := by
        rw [BHTreeNode.insert_succ_children' (e + 1) m cm bb
          (BHTreeNode.subdivideChildren_ne_nil bb) none ob]
        rw [hgdo]
        rw [show BHTreeNode.insert (e + 1)
            (BHTreeNode.newNode ((bb.subdivide).getD (bb.quadrant_index_for ob.position) bb))
            ob = some (.mk ob.mass ob.position
              ((bb.subdivide).getD (bb.quadrant_index_for ob.position) bb) [] (some ob))
          from rfl]
        simp only [Option.map_some']
      obtain ⟨mA, cmA, hupA⟩ := BHTreeNode.update_shape m cm bb
        (((BBox3.subdivide bb).map BHTreeNode.newNode).set
          (bb.quadrant_index_for ob.position)
          (.mk ob.mass ob.position
            ((bb.subdivide).getD (bb.quadrant_index_for ob.position) bb)
            [] (some ob)))
        none
      -- step 2: insert b, landing on the same child
      have h3 : BHTreeNode.insert (e + 2)
          (.mk mA cmA bb
            (((BBox3.subdivide bb).map BHTreeNode.newNode).set
              (bb.quadrant_index_for ob.position)
              (.mk ob.mass ob.position
                ((bb.subdivide).getD (bb.quadrant_index_for ob.position) bb)
                [] (some ob)))
            none) b =
          some (BHTreeNode.update (.mk mA cmA bb
            (((BBox3.subdivide bb).map BHTreeNode.newNode).set
              (bb.quadrant_index_for ob.position) t'')
            none)) := by
        rw [BHTreeNode.insert_succ_children' (e + 1) mA cmA bb
          (BHTreeNode.set_subdivideChildren_ne_nil bb _ _) none b]
        rw [← hix]
        rw [list_getD_set_eq hlto8 _ _]
        rw [hFc]
        simp only [Option.map_some']
        rw [List.set_set]
      refine ⟨(e + 2) + 1, BHTreeNode.update (BHTreeNode.update (.mk mA cmA bb
        (((BBox3.subdivide bb).map BHTreeNode.newNode).set
          (bb.quadrant_index_for ob.position) t'')
        none)), ?_, ?_, ?_⟩
      · rw [BHTreeNode.insert_succ_leaf (e + 2) m cm bb ob b, h2,
          Option.some_bind, hupA, h3, Option.map_some']
      · obtain ⟨mB, cmB, hupB⟩ := BHTreeNode.update_shape mA cmA bb
          (((BBox3.subdivide bb).map BHTreeNode.newNode).set
            (bb.quadrant_index_for ob.position) t'') none
        obtain ⟨mC, cmC, hupC⟩ := BHTreeNode.update_shape mB cmB bb
          (((BBox3.subdivide bb).map BHTreeNode.newNode).set
            (bb.quadrant_index_for ob.position) t'') none
        rw [hupB, hupC, BHTreeNode.calcCollisions_open (Or.inl hcb),
          BHTreeNode.calcCollisionsList_set_empty _ _ hlto8 t'' b (hsubempty b)]
        exact hcB
      · obtain ⟨mB, cmB, hupB⟩ := BHTreeNode.update_shape mA cmA bb
          (((BBox3.subdivide bb).map BHTreeNode.newNode).set
            (bb.quadrant_index_for ob.position) t'') none
        obtain ⟨mC, cmC, hupC⟩ := BHTreeNode.update_shape mB cmB bb
          (((BBox3.subdivide bb).map BHTreeNode.newNode).set
            (bb.quadrant_index_for ob.position) t'') none
        rw [hupB, hupC, BHTreeNode.calcCollisions_open (Or.inl hcob),
          BHTreeNode.calcCollisionsList_set_empty _ _ hlto8 t'' ob (hsubempty ob)]
        exact hcOb
    · -- different octants: the two bodies end up in sibling leaves
      have hgdb :
          ((BBox3.subdivide bb).map BHTreeNode.newNode).getD
            (bb.quadrant_index_for b.position) (BHTreeNode.newNode bb) =
          BHTreeNode.newNode
            ((bb.subdivide).getD (bb.quadrant_index_for b.position) bb) :=
        list_getD_map BHTreeNode.newNode (bb.subdivide)
          (bb.quadrant_index_for b.position) bb
      have h2 : BHTreeNode.insert 2
          (.mk m cm bb ((BBox3.subdivide bb).map BHTreeNode.newNode) none) ob =
          some (BHTreeNode.update (.mk m cm bb
            (((BBox3.subdivide bb).map BHTreeNode.newNode).set
              (bb.quadrant_index_for ob.position)
              (.mk ob.mass ob.position
                ((bb.subdivide).getD (bb.quadrant_index_for ob.position) bb)
                [] (some ob)))
            none)) := by
        rw [BHTreeNode.insert_succ_children' 1 m cm bb
          (BHTreeNode.subdivideChildren_ne_nil bb) none ob]
        rw [hgdo]
        rw [show BHTreeNode.insert 1
            (BHTreeNode.newNode ((bb.subdivide).getD (bb.quadrant_index_for ob.position) bb))
            ob = some (.mk ob.mass ob.position
              ((bb.subdivide).getD (bb.quadrant_index_for ob.position) bb) [] (some ob))
          from rfl]
        simp only [Option.map_some']
      obtain ⟨mA, cmA, hupA⟩ := BHTreeNode.update_shape m cm bb
        (((BBox3.subdivide bb).map BHTreeNode.newNode).set
          (bb.quadrant_index_for ob.position)
          (.mk ob.mass ob.position
            ((bb.subdivide).getD (bb.quadrant_index_for ob.position) bb)
            [] (some ob)))
        none
      have h3 : BHTreeNode.insert 2
          (.mk mA cmA bb
            (((BBox3.subdivide bb).map BHTreeNode.newNode).set
              (bb.quadrant_index_for ob.position)
              (.mk ob.mass ob.position
                ((bb.subdivide).getD (bb.quadrant_index_for ob.position) bb)
                [] (some ob)))
            none) b =
          some (BHTreeNode.update (.mk mA cmA bb
            ((((BBox3.subdivide bb).map BHTreeNode.newNode).set
              (bb.quadrant_index_for ob.position)
              (.mk ob.mass ob.position
                ((bb.subdivide).getD (bb.quadrant_index_for ob.position) bb)
                [] (some ob))).set
              (bb.quadrant_index_for b.position)
              (.mk b.mass b.position
                ((bb.subdivide).getD (bb.quadrant_index_for b.position) bb)
                [] (some b)))
            none)) := by
        rw [BHTreeNode.insert_succ_children' 1 mA cmA bb
          (BHTreeNode.set_subdivideChildren_ne_nil bb _ _) none b]
        rw [list_getD_set_ne hix _ _]
        rw [hgdb]
        rw [show BHTreeNode.insert 1
            (BHTreeNode.newNode ((bb.subdivide).getD (bb.quadrant_index_for b.position) bb))
            b = some (.mk b.mass b.position
              ((bb.subdivide).getD (bb.quadrant_index_for b.position) bb) [] (some b))
          from rfl]
        simp only [Option.map_some']
      have hbne : b ≠ ob := Ne.symm hne
      refine ⟨2 + 1, BHTreeNode.update (BHTreeNode.update (.mk mA cmA bb
        ((((BBox3.subdivide bb).map BHTreeNode.newNode).set
          (bb.quadrant_index_for ob.position)
          (.mk ob.mass ob.position
            ((bb.subdivide).getD (bb.quadrant_index_for ob.position) bb)
            [] (some ob))).set
          (bb.quadrant_index_for b.position)
          (.mk b.mass b.position
            ((bb.subdivide).getD (bb.quadrant_index_for b.position) bb)
            [] (some b)))
        none)), ?_, ?_, ?_⟩
      · rw [BHTreeNode.insert_succ_leaf 2 m cm bb ob b, h2,
          Option.some_bind, hupA, h3, Option.map_some']
      · obtain ⟨mB, cmB, hupB⟩ := BHTreeNode.update_shape mA cmA bb _ none
        obtain ⟨mC, cmC, hupC⟩ := BHTreeNode.update_shape mB cmB bb _ none
        rw [hupB, hupC, BHTreeNode.calcCollisions_open (Or.inl hcb),
          BHTreeNode.calcCollisionsList_set2 _ _ _ hix hlto8 hltb8 _ _ b
            (hsubempty b)
            (Or.inr (by
              rw [BHTreeNode.calcCollisions_leaf]
              rw [if_pos rfl]))]
        rw [BHTreeNode.calcCollisions_leaf, if_neg hne,
          BHTreeNode.calcCollisions_leaf, if_pos rfl, List.append_nil]
      · obtain ⟨mB, cmB, hupB⟩ := BHTreeNode.update_shape mA cmA bb _ none
        obtain ⟨mC, cmC, hupC⟩ := BHTreeNode.update_shape mB cmB bb _ none
        rw [hupB, hupC, BHTreeNode.calcCollisions_open (Or.inl hcob),
          BHTreeNode.calcCollisionsList_set2 _ _ _ hix hlto8 hltb8 _ _ ob
            (hsubempty ob)
            (Or.inl (by
              rw [BHTreeNode.calcCollisions_leaf]
              rw [if_pos rfl]))]
        rw [BHTreeNode.calcCollisions_leaf, if_pos rfl,
          BHTreeNode.calcCollisions_leaf, if_neg hbne, List.nil_append]

theorem V3.distance_squared_comm (a b : V3) :
    a.distance_squared b = b.distance_squared a := by
  unfold V3.distance_squared
  ring

/-- C1, counterexample: bodies `a` (entity 0, at the origin, radius 1)
and `b` (entity 1, at (1,0,0), radius 1) overlap — their distance 1 is
less than the radius sum 2 — and both fit in the box [0,1]³. Yet in the
tree built from `[a, b]`, the collision output of the traversal for `a`
is `[0]`: it contains `a`'s own id and NOT `b`'s id, because the
leaf-leaf collision branch pushes the evaluated body's own entity
(`collisions.push(body.entity)`), never the partner's. -/
theorem claim_C1_counterexample :
    ∃ F t, BHTreeNode.fromBodies F ⟨⟨0, 0, 0⟩, ⟨1, 1, 1⟩⟩
        [⟨0, ⟨0, 0, 0⟩, 1, 1⟩, ⟨1, ⟨1, 0, 0⟩, 1, 1⟩] = some t ∧
      V3.distance_squared ⟨0, 0, 0⟩ ⟨1, 0, 0⟩ < ((1 : ℚ) + 1) * (1 + 1) ∧
      (BHTreeNode.calculate_acceleration t ⟨0, ⟨0, 0, 0⟩, 1, 1⟩).2 = [0] ∧
      (1 : ℕ) ∉ (BHTreeNode.calculate_acceleration t ⟨0, ⟨0, 0, 0⟩, 1, 1⟩).2 := by
  have hpos : ((⟨0, ⟨0, 0, 0⟩, 1, 1⟩ : NBody)).position ≠
      ((⟨1, ⟨1, 0, 0⟩, 1, 1⟩ : NBody)).position := by
    intro h
    exact absurd (congrArg V3.x h) (by norm_num)
  have hne : (⟨0, ⟨0, 0, 0⟩, 1, 1⟩ : NBody) ≠ ⟨1, ⟨1, 0, 0⟩, 1, 1⟩ :=
    fun h => hpos (congrArg NBody.position h)
  obtain ⟨k, hk⟩ := sep_exists ⟨⟨0, 0, 0⟩, ⟨1, 1, 1⟩⟩
    ((⟨0, ⟨0, 0, 0⟩, 1, 1⟩ : NBody)).position
    ((⟨1, ⟨1, 0, 0⟩, 1, 1⟩ : NBody)).position hpos
  obtain ⟨F, t, hins, hcolB, hcolA⟩ := BHTreeNode.pair_collisions k
    ⟨⟨0, 0, 0⟩, ⟨1, 1, 1⟩⟩ 1 ⟨0, 0, 0⟩
    ⟨0, ⟨0, 0, 0⟩, 1, 1⟩ ⟨1, ⟨1, 0, 0⟩, 1, 1⟩
    (by norm_num [BBox3.WF])
    (by norm_num [BBox3.contains])
    (by norm_num [BBox3.contains])
    hne hk
  obtain ⟨e, rfl⟩ : ∃ e, F = e + 1 := by
    cases F with
    | zero => cases hins
    | succ e => exact ⟨e, rfl⟩
  refine ⟨e + 1, t, ?_, by norm_num [V3.distance_squared], ?_, ?_⟩
  · simp only [BHTreeNode.fromBodies, List.foldl_cons, List.foldl_nil,
      Option.some_bind]
    rw [show BHTreeNode.insert (e + 1)
        (BHTreeNode.newNode ⟨⟨0, 0, 0⟩, ⟨1, 1, 1⟩⟩) (⟨0, ⟨0, 0, 0⟩, 1, 1⟩ : NBody) =
        some (.mk 1 ⟨0, 0, 0⟩ ⟨⟨0, 0, 0⟩, ⟨1, 1, 1⟩⟩ []
          (some ⟨0, ⟨0, 0, 0⟩, 1, 1⟩)) from rfl]
    rw [Option.some_bind]
    exact hins
  · rw [BHTreeNode.calcCollisions_spec]
    rw [if_neg (by norm_num [V3.distance_squared])] at hcolA
    exact hcolA
  · rw [BHTreeNode.calcCollisions_spec]
    rw [if_neg (by norm_num [V3.distance_squared])] at hcolA
    rw [hcolA]
    decide

/-- C1, amended: for two bodies `a`, `b` with distinct positions and
distinct ids, both contained in a well-formed root box, there is enough
fuel that building the tree from `[a, b]` succeeds, and then: if the two
overlap (squared distance below the squared radius sum), the traversal's
collision output for `a` is exactly `[a.entity]` and for `b` exactly
`[b.entity]` — each body reports its OWN id, not the partner's; if they
are separated (squared distance above the squared radius sum), both
outputs are empty; and in every case neither body's id ever appears in
the other's collision output. -/
theorem claim_C1_pair_collision_output (bb : BBox3) (a b : NBody)
    (hwf : bb.WF) (hca : bb.contains a.position) (hcb : bb.contains b.position)
    (hpos : a.position ≠ b.position) (hent : a.entity ≠ b.entity) :
    ∃ F t, BHTreeNode.fromBodies F bb [a, b] = some t ∧
      (a.position.distance_squared b.position <
          (a.radius + b.radius) * (a.radius + b.radius) →
        (BHTreeNode.calculate_acceleration t a).2 = [a.entity] ∧
        (BHTreeNode.calculate_acceleration t b).2 = [b.entity]) ∧
      ((a.radius + b.radius) * (a.radius + b.radius) <
          a.position.distance_squared b.position →
        (BHTreeNode.calculate_acceleration t a).2 = [] ∧
        (BHTreeNode.calculate_acceleration t b).2 = []) ∧
      b.entity ∉ (BHTreeNode.calculate_acceleration t a).2 ∧
      a.entity ∉ (BHTreeNode.calculate_acceleration t b).2 := by
  have hne : a ≠ b := fun h => hpos (congrArg NBody.position h)
  obtain ⟨k, hk⟩ := sep_exists bb a.position b.position hpos
  obtain ⟨F, t, hins, hcolB, hcolA⟩ := BHTreeNode.pair_collisions k
    bb a.mass a.position a b hwf hca hcb hne hk
  obtain ⟨e, rfl⟩ : ∃ e, F = e + 1 := by
    cases F with
    | zero => cases hins
    | succ e => exact ⟨e, rfl⟩
  have hd : b.position.distance_squared a.position =
      a.position.distance_squared b.position :=
    V3.distance_squared_comm b.position a.position
  have hsum : (b.radius + a.radius) * (b.radius + a.radius) =
      (a.radius + b.radius) * (a.radius + b.radius) := by ring
  rw [hd] at hcolA
  rw [hsum] at hcolB
  refine ⟨e + 1, t, ?_, fun hover => ?_, fun hsep => ?_, ?_, ?_⟩
  · simp only [BHTreeNode.fromBodies, List.foldl_cons, List.foldl_nil,
      Option.some_bind]
    rw [show BHTreeNode.insert (e + 1) (BHTreeNode.newNode bb) a =
        some (.mk a.mass a.position bb [] (some a)) from rfl]
    rw [Option.some_bind]
    exact hins
  · rw [BHTreeNode.calcCollisions_spec t a, BHTreeNode.calcCollisions_spec t b]
    rw [if_neg (not_lt.mpr (le_of_lt hover))] at hcolA
    rw [if_neg (not_lt.mpr (le_of_lt hover))] at hcolB
    exact ⟨hcolA, hcolB⟩
  · rw [BHTreeNode.calcCollisions_spec t a, BHTreeNode.calcCollisions_spec t b]
    rw [if_pos hsep] at hcolA
    rw [if_pos hsep] at hcolB
    exact ⟨hcolA, hcolB⟩
  · rw [BHTreeNode.calcCollisions_spec t a, hcolA]
    split_ifs with h
    · simp
    · simp only [List.mem_singleton]
      exact Ne.symm hent
  · rw [BHTreeNode.calcCollisions_spec t b, hcolB]
    split_ifs with h
    · simp
    · simp only [List.mem_singleton]
      exact hent

theorem claim_C1_witness :
    (⟨⟨0, 0, 0⟩, ⟨2, 2, 2⟩⟩ : BBox3).WF ∧
    (⟨⟨0, 0, 0⟩, ⟨2, 2, 2⟩⟩ : BBox3).contains ⟨0, 0, 0⟩ ∧
    (⟨⟨0, 0, 0⟩, ⟨2, 2, 2⟩⟩ : BBox3).contains ⟨2, 0, 0⟩ ∧
    (∃ F t, BHTreeNode.fromBodies F ⟨⟨0, 0, 0⟩, ⟨2, 2, 2⟩⟩
        [⟨0, ⟨0, 0, 0⟩, 1, 1/2⟩, ⟨1, ⟨2, 0, 0⟩, 1, 1/2⟩] = some t ∧
      (V3.distance_squared ⟨0, 0, 0⟩ ⟨2, 0, 0⟩ <
          ((1 : ℚ)/2 + 1/2) * (1/2 + 1/2) →
        (BHTreeNode.calculate_acceleration t ⟨0, ⟨0, 0, 0⟩, 1, 1/2⟩).2 = [0] ∧
        (BHTreeNode.calculate_acceleration t ⟨1, ⟨2, 0, 0⟩, 1, 1/2⟩).2 = [1]) ∧
      (((1 : ℚ)/2 + 1/2) * (1/2 + 1/2) <
          V3.distance_squared ⟨0, 0, 0⟩ ⟨2, 0, 0⟩ →
        (BHTreeNode.calculate_acceleration t ⟨0, ⟨0, 0, 0⟩, 1, 1/2⟩).2 = [] ∧
        (BHTreeNode.calculate_acceleration t ⟨1, ⟨2, 0, 0⟩, 1, 1/2⟩).2 = []) ∧
      (1 : ℕ) ∉ (BHTreeNode.calculate_acceleration t ⟨0, ⟨0, 0, 0⟩, 1, 1/2⟩).2 ∧
      (0 : ℕ) ∉ (BHTreeNode.calculate_acceleration t ⟨1, ⟨2, 0, 0⟩, 1, 1/2⟩).2) := by
  have hwf : (⟨⟨0, 0, 0⟩, ⟨2, 2, 2⟩⟩ : BBox3).WF := by norm_num [BBox3.WF]
  have hca : (⟨⟨0, 0, 0⟩, ⟨2, 2, 2⟩⟩ : BBox3).contains (⟨0, 0, 0⟩ : V3) := by
    norm_num [BBox3.contains]
  have hcb : (⟨⟨0, 0, 0⟩, ⟨2, 2, 2⟩⟩ : BBox3).contains (⟨2, 0, 0⟩ : V3) := by
    norm_num [BBox3.contains]
  have hpos : ((⟨0, ⟨0, 0, 0⟩, 1, 1/2⟩ : NBody)).position ≠
      ((⟨1, ⟨2, 0, 0⟩, 1, 1/2⟩ : NBody)).position := by
    intro h
    exact absurd (congrArg V3.x h) (by norm_num)
  have hent : ((⟨0, ⟨0, 0, 0⟩, 1, 1/2⟩ : NBody)).entity ≠
      ((⟨1, ⟨2, 0, 0⟩, 1, 1/2⟩ : NBody)).entity := by decide
  exact ⟨hwf, hca, hcb,
    claim_C1_pair_collision_output ⟨⟨0, 0, 0⟩, ⟨2, 2, 2⟩⟩
      ⟨0, ⟨0, 0, 0⟩, 1, 1/2⟩ ⟨1, ⟨2, 0, 0⟩, 1, 1/2⟩ hwf hca hcb hpos hent⟩
